import Mathlib

/-!
# Range expansion into an environmental gradient: the simulation engine

A shallow embedding of `fronhofer_gradient_invasions.cpp` (control and gradient
scenario) and the properties of its life-cycle phases.

Conventions of the embedding.

* `float` values are rationals; `exp` and `pow` of the C library (the `float` overloads
  that the calls select) are parameters (`CMath`), `floor` and `round` are the exact
  functions on `ℚ`.
* Rounding to single precision is `toFloat` (IEEE 754 binary32, to nearest, ties to even,
  with the subnormal range). It is applied to the draw that `Initialize` stores in an
  allele, in the two trait functions, in the equilibrium density (with its conversion to a
  32-bit `int`) and in the local mortality. The remaining `float` arithmetic is exact: the
  sum in `mutate`, the survival of the larvae and the Poisson mean, the summaries of
  `Analyze` and the emigration rates of `Dispersal`.
* A `float` beyond the largest finite one is an infinity in the program; `toFloat` keeps
  the rounded number, and the equilibrium density, the one place where an infinity decides
  a stored integer, tests for it. The conversion to `int` of a value that does not fit is
  undefined in C++; it is given the result of the x86-64 conversion, `INT_MIN`.
* The random number helpers `ran`, `gauss`, `poisson` of `include/procedures.h`
  are a parameter (`RandomSource`): a generator state is threaded through every
  function that draws, in the order of the draws in the source.
* The constants `WORLDDIM_X`, `INIT_ROWS`, `CM_AREA` of the headers are a
  parameter (`Consts`).
* `world` is a list of patches; an access outside the list, an uninitialised
  result and an exhausted iteration budget have no defined result (`none`).
* `std::vector` sizes and the counters that index them are natural numbers:
  sizes are taken to fit the 32-bit counters of the source. The resident loop of
  `Dispersal`, whose counter wraps at 0, is also given with its 32-bit counter
  (`dispersalFemales32`) and compared with the loop over natural numbers.
* A quotient by zero is 0 in `ℚ`, where the source yields NaN or an infinity: an
  emigration rate over an empty window, the relative metapopulation size at equilibrium
  density 0. The quotients of the equilibrium density and of the local mortality test
  their divisor instead.
-/

namespace GradientInvasion

/-! ## Data model -/

/-- Modelled from the spec: the constants `WORLDDIM_X` (world width), `INIT_ROWS`
(width of the initialisation area, the active width during burn-in) and `CM_AREA`
(width of the core and margin windows), declared in the headers under `include/`. -/
structure Consts where
  WORLDDIM_X : Nat
  INIT_ROWS : Nat
  CM_AREA : Nat
deriving Repr, DecidableEq

/-- Modelled from the spec: the class `TIndiv` of `include/classes.h`, an individual
with its dispersal allele `dispRate` and the two derived traits, fertility `lambda`
and competition coefficient `alpha`. -/
structure TIndiv where
  dispRate : ℚ
  lambda : ℚ
  alpha : ℚ
deriving Repr, DecidableEq

/-- Modelled from the spec: the class `TPatch` of `include/classes.h`, a patch with
its residents `females` and its staging buffer `newFemales`. -/
structure TPatch where
  females : List TIndiv
  newFemales : List TIndiv
deriving Repr, DecidableEq

/-- The global simulation parameters, set once by `readParameters`. -/
structure Params where
  sim_time : Nat
  burn_in : Nat
  max_runs : Int
  mut_sd : ℚ
  mut_rate : ℚ
  alpha0 : ℚ
  lambda_null : ℚ
  mu0 : ℚ
  epsilon : ℚ
  lamb_exp : ℚ
  trade_off_exp : ℚ
  mort_grad : Bool
deriving Repr, DecidableEq

/-- The two functions of `<cmath>` whose values are not rational, `exp` and `pow`, in the
`float` overloads that the calls with `float` arguments select. -/
structure CMath where
  exp : ℚ → ℚ
  pow : ℚ → ℚ → ℚ

/-- Modelled from the spec: the random number helpers of `include/procedures.h`, one
seeded stream with state `σ`: `ran` is a uniform draw, `gauss sd` a Gaussian draw with
standard deviation `sd`, `poisson mean` a Poisson draw with mean `mean`. -/
structure RandomSource (σ : Type) where
  ran : σ → ℚ × σ
  gauss : ℚ → σ → ℚ × σ
  poisson : ℚ → σ → Int × σ

/-- Every uniform draw of the source lies in `[0,1)`. -/
def RandomSource.Uniform {σ : Type} (R : RandomSource σ) : Prop :=
  ∀ g : σ, 0 ≤ (R.ran g).1 ∧ (R.ran g).1 < 1

/-- The mutable global variables of the program, with the generator state. -/
structure Globals (σ : Type) where
  world : List TPatch
  equilibrium_density : Int
  rel_metapopsize : ℚ
  occupancy : ℚ
  rel_emigrants_core : ℚ
  rel_emigrants_margin : ℚ
  margin_position : Int
  rng : σ
deriving Repr

/-- A counting loop `for (x = 0; x < n; ++x) body`, the body possibly without result. -/
def forRange {S : Type} : Nat → (Nat → S → Option S) → S → Option S
  | 0, _, s => some s
  | n + 1, body, s => (forRange n body s).bind (body n)

/-! ## Dispersal kernel -/

/-- The function `findNewPatch`: the nearest-neighbour kernel. One uniform draw chooses
the direction; a direction other than 0 or 1 leaves `res` uninitialised. -/
def findNewPatch {σ : Type} (C : Consts) (R : RandomSource σ) (x : Int) (act_worlddim_x : Int)
    (g : σ) : Option (Int × σ) :=
  let dir : Int := Int.floor ((R.ran g).1 * 2)
  let g1 := (R.ran g).2
  let start : Option Int :=
    if dir = 0 then some (x - 1) else if dir = 1 then some (x + 1) else none
  match start with
  | none => none
  | some res =>
    if act_worlddim_x = (C.INIT_ROWS : Int) then
      let res1 := if res = act_worlddim_x then 0 else res
      let res2 := if res1 = -1 then act_worlddim_x - 1 else res1
      some (res2, g1)
    else
      let res1 := if res = act_worlddim_x then act_worlddim_x - 1 else res
      let res2 := if res1 = -1 then 0 else res1
      some (res2, g1)

/-- Copying a vector element by element: the loop `for nf: dst.push_back(src.at(nf))`. -/
def appendAll (dst src : List TIndiv) : List TIndiv :=
  src.foldl (fun acc ind => acc ++ [ind]) dst

/-! ## Rounding and single precision -/

/-- The C function `round`: to the nearest integer, halves away from zero. -/
def cround (q : ℚ) : Int :=
  if 0 ≤ q then Int.floor (q + 1 / 2) else Int.ceil (q - 1 / 2)

/-- Rounding to the nearest integer, a tie to the even neighbour. -/
def roundHalfEven (q : ℚ) : Int :=
  let f := Int.floor q
  if q - f < 1 / 2 then f
  else if 1 / 2 < q - f then f + 1
  else if f % 2 = 0 then f else f + 1

/-- The binary exponent of the unit in the last place of the `float` format (24-bit
significand) at the magnitude `q`: 23 below the binary exponent of `q`, and `-149` in the
subnormal range, below `2 ^ (-126)`. -/
def ulpExp (q : ℚ) : Int := max (Int.log 2 q) (-126) - 23

/-- The magnitude `q` rounded to a whole number of units in its last place. -/
def roundMagnitude (q : ℚ) : ℚ := roundHalfEven (q / 2 ^ ulpExp q) * 2 ^ ulpExp q

/-- The value that a `float` takes for the number `q`: the sign of `q` and its rounded
magnitude (IEEE 754 binary32, round to nearest, ties to even). -/
def toFloat (q : ℚ) : ℚ := if q < 0 then -roundMagnitude (-q) else roundMagnitude q

/-- The largest finite `float`, `(2 ^ 24 - 1) * 2 ^ 104`. -/
def FLT_MAX : ℚ := (2 ^ 24 - 1) * 2 ^ 104

/-- The least `int`. -/
def INT_MIN : Int := -2147483648

/-- The conversion to `int` of a floating-point value that is the integer `z`: `z` when it
fits 32 bits, and otherwise `INT_MIN`, the result of the x86-64 conversion instruction. -/
def toInt32 (z : Int) : Int :=
  if INT_MIN ≤ z ∧ z ≤ 2147483647 then z else INT_MIN

/-! ## Trait functions -/

/-- The function `lambda_disersal_tradeOff`: the dispersal-fertility trade-off, on the
phenotypic (clamped at 0) dispersal rate. Both products are `float` products. -/
def lambda_disersal_tradeOff (M : CMath) (P : Params) (disp_rate : ℚ) : ℚ :=
  let act_disp_rate := if disp_rate < 0 then 0 else disp_rate
  toFloat (P.lambda_null * M.exp (toFloat (-P.trade_off_exp * act_disp_rate)))

/-- The function `alpha_lambda_correlation`: the competition coefficient that goes with a
fertility, a `float` product. -/
def alpha_lambda_correlation (M : CMath) (P : Params) (lambda : ℚ) : ℚ :=
  toFloat (P.alpha0 * M.pow lambda P.lamb_exp)

/-! ## Initialisation -/

/-- The inner loop of `Initialize`: `n` new females, each with a uniform draw stored in its
`float` allele and the derived traits, appended to `females`. -/
def initFemales {σ : Type} (M : CMath) (P : Params) (R : RandomSource σ) :
    Nat → List TIndiv → σ → List TIndiv × σ
  | 0, females, g => (females, g)
  | n + 1, females, g =>
    let dispRate := toFloat (R.ran g).1
    let lambda := lambda_disersal_tradeOff M P dispRate
    let alpha := alpha_lambda_correlation M P lambda
    initFemales M P R n (females ++ [⟨dispRate, lambda, alpha⟩]) (R.ran g).2

/-- The value of `round((lambda_null-1)/alpha_lambda_correlation(lambda_null))` that
`Initialize` stores in the `int` `equilibrium_density`: a `float` subtraction and a `float`
quotient, rounded to an integer and converted. With a divisor 0 the quotient is an infinity
or NaN, which the conversion takes to `INT_MIN`; with a divisor that has overflowed to an
infinity the quotient is a zero; a quotient that overflows is beyond the range of `int`. -/
def equilibriumDensity (M : CMath) (P : Params) : Int :=
  let num := toFloat (P.lambda_null - 1)
  let den := alpha_lambda_correlation M P P.lambda_null
  if den = 0 then INT_MIN
  else if FLT_MAX < |den| then 0
  else toInt32 (cround (toFloat (num / den)))

/-- The body of the patch loop of `Initialize` for patch `x`: clear both vectors, set the
equilibrium density, fill the patch when it lies in the initialisation area. -/
def initPatch {σ : Type} (C : Consts) (M : CMath) (P : Params) (R : RandomSource σ)
    (x : Nat) (s : Globals σ) : Option (Globals σ) :=
  match s.world[x]? with
  | none => none
  | some _ =>
    let eq_density := equilibriumDensity M P
    if x < C.INIT_ROWS then
      let r := initFemales M P R eq_density.toNat [] s.rng
      some { s with world := s.world.set x ⟨r.1, []⟩, equilibrium_density := eq_density,
                    rng := r.2 }
    else
      some { s with world := s.world.set x ⟨[], []⟩, equilibrium_density := eq_density }

/-- The function `Initialize`: the loop over all `WORLDDIM_X` patches. -/
def Initialize {σ : Type} (C : Consts) (M : CMath) (P : Params) (R : RandomSource σ)
    (s : Globals σ) : Option (Globals σ) :=
  forRange C.WORLDDIM_X (initPatch C M P R) s

/-! ## Analysis -/

/-- The state of the loop of `Analyze`: the globals and the two local counters. -/
structure AnalyzeState (σ : Type) where
  g : Globals σ
  numberoccupied : Nat
  metapopsize : Nat

/-- The body of the loop of `Analyze` for patch `x`. -/
def analyzePatch {σ : Type} (x : Nat) (st : AnalyzeState σ) : Option (AnalyzeState σ) :=
  match st.g.world[x]? with
  | none => none
  | some p =>
    let localpopsize := p.females.length
    let metapopsize := st.metapopsize + localpopsize
    if localpopsize > 0 then
      if st.g.margin_position < (x : Int) then
        some { g := { st.g with margin_position := (x : Int) },
               numberoccupied := st.numberoccupied + 1, metapopsize := metapopsize }
      else
        some { g := st.g, numberoccupied := st.numberoccupied + 1, metapopsize := metapopsize }
    else
      some { g := st.g, numberoccupied := st.numberoccupied, metapopsize := metapopsize }

/-- The function `Analyze`: metapopulation size, occupancy and margin position over all
patches. -/
def Analyze {σ : Type} (C : Consts) (_acttime : Nat) (_actrun : Int) (s : Globals σ) :
    Option (Globals σ) :=
  let s0 := { s with rel_metapopsize := 0, occupancy := 0, margin_position := 0 }
  match forRange C.WORLDDIM_X analyzePatch ⟨s0, 0, 0⟩ with
  | none => none
  | some st =>
    some { st.g with
      occupancy := (st.numberoccupied : ℚ) / (C.WORLDDIM_X : ℚ),
      rel_metapopsize :=
        (st.metapopsize : ℚ) / ((((C.WORLDDIM_X : Int) * st.g.equilibrium_density : Int)) : ℚ) }

/-! ## Mortality gradient -/

/-- The local mortality of patch `x`, the `float` quotient `float(x)/float(WORLDDIM_X-1)`.
With a divisor 0 (`WORLDDIM_X` is 1) the quotient is NaN or an infinity, not a number
(`none`). -/
def localMortality (C : Consts) (x : Nat) : Option ℚ :=
  let den := toFloat ((((C.WORLDDIM_X : Int) - 1 : Int)) : ℚ)
  if den = 0 then none else some (toFloat (toFloat (x : ℚ) / den))

/-- The test `ran() > local_mortality`: it fails for every draw when the local mortality is
NaN or an infinity. -/
def exceedsMortality (draw : ℚ) : Option ℚ → Bool
  | some m => decide (draw > m)
  | none => false

/-- The loop over the residents in `Mortality_gradient`: one draw per resident, the
survivors are pushed to `newFemales`. -/
def mortalitySurvivors {σ : Type} (R : RandomSource σ) (local_mortality : Option ℚ) :
    List TIndiv → List TIndiv → σ → List TIndiv × σ
  | [], newFemales, g => (newFemales, g)
  | ind :: rest, newFemales, g =>
    if exceedsMortality (R.ran g).1 local_mortality then
      mortalitySurvivors R local_mortality rest (newFemales ++ [ind]) (R.ran g).2
    else
      mortalitySurvivors R local_mortality rest newFemales (R.ran g).2

/-- The body of the patch loop of `Mortality_gradient` for patch `x`. -/
def mortalityPatch {σ : Type} (C : Consts) (R : RandomSource σ) (x : Nat) (s : Globals σ) :
    Option (Globals σ) :=
  match s.world[x]? with
  | none => none
  | some p =>
    let local_mortality := localMortality C x
    if p.females.length > 0 then
      let r := mortalitySurvivors R local_mortality p.females [] s.rng
      some { s with world := s.world.set x ⟨appendAll [] r.1, []⟩, rng := r.2 }
    else
      some { s with world := s.world.set x ⟨p.females, []⟩ }

/-- The function `Mortality_gradient`: applied only when the active width exceeds
`INIT_ROWS`. -/
def Mortality_gradient {σ : Type} (C : Consts) (R : RandomSource σ) (act_worlddim_x : Int)
    (s : Globals σ) : Option (Globals σ) :=
  if act_worlddim_x > (C.INIT_ROWS : Int) then
    forRange act_worlddim_x.toNat (mortalityPatch C R) s
  else some s

/-! ## Dispersal -/

/-- The state of the first loop of `Dispersal`: the world, the generator and the four
local counters. -/
structure DispState (σ : Type) where
  world : List TPatch
  rng : σ
  no_emigrants_core : Nat
  metapopsize_core : Nat
  no_emigrants_margin : Nat
  metapopsize_margin : Nat
deriving Repr

/-- The statement `world[newPatch].newFemales.push_back(Disperser)`. -/
def pushNewFemale (w : List TPatch) (newPatch : Int) (Disperser : TIndiv) :
    Option (List TPatch) :=
  if newPatch < 0 then none
  else
    match w[newPatch.toNat]? with
    | none => none
    | some p => some (w.set newPatch.toNat ⟨p.females, p.newFemales ++ [Disperser]⟩)

/-- The statements `females.at(f) = females.back(); females.pop_back();`. -/
def swapRemove (females : List TIndiv) (f : Nat) : List TIndiv :=
  match females.getLast? with
  | none => females
  | some last => (females.set f last).dropLast

/-- Deleting the emigrant at position `f` from its natal patch `x`. -/
def removeFemale (w : List TPatch) (x f : Nat) : Option (List TPatch) :=
  match w[x]? with
  | none => none
  | some p => some (w.set x ⟨swapRemove p.females f, p.newFemales⟩)

/-- One pass through the body of the loop over the residents of patch `x` in `Dispersal`,
for the resident at position `f`: the emigration draw, then for an emigrant the counters,
the transit draw, the move to the staging buffer of the new patch and the removal from the
natal patch. The result carries the position the loop examines next: `f` again after a
removal (`--f` then `++f`; on the unsigned counter the pair is the identity also at 0),
`f + 1` otherwise. -/
def dispersalIndividual {σ : Type} (C : Consts) (P : Params) (R : RandomSource σ)
    (margin_position : Int) (x : Nat) (act_worlddim_x : Int) (f : Nat) (st : DispState σ) :
    Option (DispState σ × Nat) :=
  match st.world[x]? with
  | none => none
  | some p =>
    match p.females[f]? with
    | none => none
    | some ind =>
      let g1 := (R.ran st.rng).2
      if (R.ran st.rng).1 < ind.dispRate then
        let core := if x < C.CM_AREA then st.no_emigrants_core + 1 else st.no_emigrants_core
        let margin :=
          if (x : Int) ≥ margin_position - (C.CM_AREA : Int) then st.no_emigrants_margin + 1
          else st.no_emigrants_margin
        let g2 := (R.ran g1).2
        if (R.ran g1).1 > P.mu0 then
          match findNewPatch C R (x : Int) act_worlddim_x g2 with
          | none => none
          | some (newPatch, g3) =>
            match pushNewFemale st.world newPatch ind with
            | none => none
            | some w1 =>
              match removeFemale w1 x f with
              | none => none
              | some w2 =>
                some ({ st with world := w2, rng := g3, no_emigrants_core := core,
                                no_emigrants_margin := margin }, f)
        else
          match removeFemale st.world x f with
          | none => none
          | some w2 =>
            some ({ st with world := w2, rng := g2, no_emigrants_core := core,
                            no_emigrants_margin := margin }, f)
      else
        some ({ st with rng := g1 }, f + 1)

/-- The loop over the residents of patch `x` in `Dispersal`, from position `f`, with a
budget of `fuel` passes: it ends when `f` reaches the size of `females`. -/
def dispersalFemales {σ : Type} (C : Consts) (P : Params) (R : RandomSource σ)
    (margin_position : Int) (x : Nat) (act_worlddim_x : Int) :
    Nat → Nat → DispState σ → Option (DispState σ)
  | fuel, f, st =>
    match st.world[x]? with
    | none => none
    | some p =>
      if f < p.females.length then
        match fuel with
        | 0 => none
        | fuel1 + 1 =>
          match dispersalIndividual C P R margin_position x act_worlddim_x f st with
          | none => none
          | some (st1, f1) =>
            dispersalFemales C P R margin_position x act_worlddim_x fuel1 f1 st1
      else some st

/-- The body of the first patch loop of `Dispersal` for patch `x`: the two population
counters, then the loop over the residents (at most one pass per resident). -/
def dispersalPatch {σ : Type} (C : Consts) (P : Params) (R : RandomSource σ)
    (margin_position : Int) (act_worlddim_x : Int) (x : Nat) (st : DispState σ) :
    Option (DispState σ) :=
  match st.world[x]? with
  | none => none
  | some p =>
    let core :=
      if x < C.CM_AREA then st.metapopsize_core + p.females.length else st.metapopsize_core
    let margin :=
      if (x : Int) ≥ margin_position - (C.CM_AREA : Int) then
        st.metapopsize_margin + p.females.length
      else st.metapopsize_margin
    dispersalFemales C P R margin_position x act_worlddim_x p.females.length 0
      { st with metapopsize_core := core, metapopsize_margin := margin }

/-- The first patch loop of `Dispersal`: emigration from every active patch. -/
def dispersalSweep {σ : Type} (C : Consts) (P : Params) (R : RandomSource σ)
    (act_worlddim_x : Int) (s : Globals σ) : Option (DispState σ) :=
  forRange act_worlddim_x.toNat (dispersalPatch C P R s.margin_position act_worlddim_x)
    ⟨s.world, s.rng, 0, 0, 0, 0⟩

/-- The body of the second patch loop of `Dispersal`: the staged immigrants of patch `x`
join its residents and the staging buffer is cleared. -/
def mergePatch (x : Nat) (w : List TPatch) : Option (List TPatch) :=
  match w[x]? with
  | none => none
  | some p => some (w.set x ⟨appendAll p.females p.newFemales, []⟩)

/-- The function `Dispersal`: the emigration loop, the merge loop, and the two emigration
rates. -/
def Dispersal {σ : Type} (C : Consts) (P : Params) (R : RandomSource σ) (act_worlddim_x : Int)
    (s : Globals σ) : Option (Globals σ) :=
  match dispersalSweep C P R act_worlddim_x s with
  | none => none
  | some st =>
    match forRange act_worlddim_x.toNat mergePatch st.world with
    | none => none
    | some w =>
      some { s with
        world := w, rng := st.rng,
        rel_emigrants_core := (st.no_emigrants_core : ℚ) / (st.metapopsize_core : ℚ),
        rel_emigrants_margin := (st.no_emigrants_margin : ℚ) / (st.metapopsize_margin : ℚ) }

/-! ## Reproduction -/

/-- The function `mutate`: with a draw below `mut_rate` a Gaussian step is added to the
allele. -/
def mutate {σ : Type} (P : Params) (R : RandomSource σ) (allele : ℚ) (g : σ) : ℚ × σ :=
  if (R.ran g).1 < P.mut_rate then
    let r := R.gauss P.mut_sd (R.ran g).2
    (allele + r.1, r.2)
  else (allele, (R.ran g).2)

/-- The function `larvalSurvival`: survival of newborns in the r-alpha model. -/
def larvalSurvival (_x : Nat) (alpha_sum : ℚ) (_f : Nat) : ℚ :=
  1 / (1 + alpha_sum)

/-- The loop over the offspring of one female in `Reproduction`: `n` offspring, each with
the (possibly mutated) allele of `parent` and the derived traits, pushed to `newFemales`. -/
def offspringLoop {σ : Type} (M : CMath) (P : Params) (R : RandomSource σ) (parent : TIndiv) :
    Nat → List TIndiv → σ → List TIndiv × σ
  | 0, newFemales, g => (newFemales, g)
  | n + 1, newFemales, g =>
    let r := mutate P R parent.dispRate g
    let lambda := lambda_disersal_tradeOff M P r.1
    let alpha := alpha_lambda_correlation M P lambda
    offspringLoop M P R parent n (newFemales ++ [⟨r.1, lambda, alpha⟩]) r.2

/-- The loop over the females of patch `x` in `Reproduction` (the females still to come,
the position `f` of the first of them): a Poisson number of offspring for each. -/
def reproduceFemales {σ : Type} (M : CMath) (P : Params) (R : RandomSource σ) (x : Nat)
    (alpha_sum : ℚ) : List TIndiv → Nat → List TIndiv → σ → List TIndiv × σ
  | [], _, newFemales, g => (newFemales, g)
  | ind :: rest, f, newFemales, g =>
    let survival := larvalSurvival x alpha_sum f
    let no_offspring := R.poisson (ind.lambda * survival) g
    let r := offspringLoop M P R ind no_offspring.1.toNat newFemales no_offspring.2
    reproduceFemales M P R x alpha_sum rest (f + 1) r.1 r.2

/-- The body of the patch loop of `Reproduction` for patch `x`. -/
def reproducePatch {σ : Type} (M : CMath) (P : Params) (R : RandomSource σ) (x : Nat)
    (s : Globals σ) : Option (Globals σ) :=
  match s.world[x]? with
  | none => none
  | some p =>
    if p.females.length > 0 then
      let alpha_sum := p.females.foldl (fun acc ind => acc + ind.alpha) 0
      let r := reproduceFemales M P R x alpha_sum p.females 0 [] s.rng
      some { s with world := s.world.set x ⟨p.females, r.1⟩, rng := r.2 }
    else
      some { s with world := s.world.set x ⟨p.females, []⟩ }

/-- The function `Reproduction`: the loop over the active patches. -/
def Reproduction {σ : Type} (M : CMath) (P : Params) (R : RandomSource σ)
    (act_worlddim_x : Int) (s : Globals σ) : Option (Globals σ) :=
  forRange act_worlddim_x.toNat (reproducePatch M P R) s

/-! ## Death -/

/-- The body of the patch loop of `Death` for patch `x`. -/
def deathPatch {σ : Type} (P : Params) (R : RandomSource σ) (x : Nat) (s : Globals σ) :
    Option (Globals σ) :=
  match s.world[x]? with
  | none => none
  | some p =>
    let local_offspring_no : Int := (p.newFemales.length : Int)
    if local_offspring_no > 0 then
      if (R.ran s.rng).1 > P.epsilon then
        some { s with world := s.world.set x ⟨appendAll [] p.newFemales, []⟩,
                      rng := (R.ran s.rng).2 }
      else
        some { s with world := s.world.set x ⟨[], []⟩, rng := (R.ran s.rng).2 }
    else
      some { s with world := s.world.set x ⟨[], p.newFemales⟩ }

/-- The function `Death`: the loop over the active patches. -/
def Death {σ : Type} (P : Params) (R : RandomSource σ) (act_worlddim_x : Int)
    (s : Globals σ) : Option (Globals σ) :=
  forRange act_worlddim_x.toNat (deathPatch P R) s

/-! ## Time loop -/

/-- The active width of time step `acttime`: `INIT_ROWS` during burn-in, then
`WORLDDIM_X`. -/
def activeWidth (C : Consts) (P : Params) (acttime : Nat) : Int :=
  if acttime < P.burn_in then (C.INIT_ROWS : Int) else (C.WORLDDIM_X : Int)

/-- The four life-cycle phases of one time step of `main`, at active width
`act_worlddim_x`: mortality gradient (when switched on), dispersal, reproduction, death. -/
def lifeCycle {σ : Type} (C : Consts) (M : CMath) (P : Params) (R : RandomSource σ)
    (act_worlddim_x : Int) (s : Globals σ) : Option (Globals σ) :=
  (((if P.mort_grad = true then Mortality_gradient C R act_worlddim_x s else some s).bind
    (Dispersal C P R act_worlddim_x)).bind
    (Reproduction M P R act_worlddim_x)).bind
    (Death P R act_worlddim_x)

/-- The body of the time loop of `main` without the output: the life cycle at the active
width of the step, then `Analyze`. -/
def timeStep {σ : Type} (C : Consts) (M : CMath) (P : Params) (R : RandomSource σ)
    (acttime : Nat) (actrun : Int) (s : Globals σ) : Option (Globals σ) :=
  (lifeCycle C M P R (activeWidth C P acttime) s).bind (Analyze C acttime actrun)

/-! ## Vocabulary of the statements -/

/-- The residents of patch `y` of a world; no residents outside the world. -/
def femalesAt (w : List TPatch) (y : Nat) : List TIndiv :=
  match w[y]? with
  | none => []
  | some p => p.females

/-- The staging buffer of patch `y` of a world; empty outside the world. -/
def newFemalesAt (w : List TPatch) (y : Nat) : List TIndiv :=
  match w[y]? with
  | none => []
  | some p => p.newFemales

/-- The effect of a pass of the resident loop of `Dispersal` in which the resident `ind` at
position `f` of patch `x` emigrates: both emigrant counters are stepped where the window
applies, `ind` leaves the residents of `x` by a swap with the last one, and, when the
transit draw exceeds `mu0`, `ind` is appended to the staging buffer of an active patch. -/
def EmigrationStep {σ : Type} (C : Consts) (P : Params) (R : RandomSource σ)
    (margin_position : Int) (x : Nat) (act : Int) (ind : TIndiv) (f : Nat)
    (st st' : DispState σ) : Prop :=
  st'.world.length = st.world.length
    ∧ (R.ran st.rng).1 < ind.dispRate
    ∧ st'.no_emigrants_core
        = (if x < C.CM_AREA then st.no_emigrants_core + 1 else st.no_emigrants_core)
    ∧ st'.no_emigrants_margin
        = (if (x : Int) ≥ margin_position - (C.CM_AREA : Int) then st.no_emigrants_margin + 1
           else st.no_emigrants_margin)
    ∧ st'.metapopsize_core = st.metapopsize_core
    ∧ st'.metapopsize_margin = st.metapopsize_margin
    ∧ (∀ y, femalesAt st'.world y
        = if y = x then swapRemove (femalesAt st.world x) f else femalesAt st.world y)
    ∧ ((¬ ((R.ran (R.ran st.rng).2).1 > P.mu0)
          ∧ ∀ y, newFemalesAt st'.world y = newFemalesAt st.world y)
        ∨ ((R.ran (R.ran st.rng).2).1 > P.mu0
          ∧ ∃ i : Nat, (i : Int) < act ∧ ∀ y, newFemalesAt st'.world y
              = if y = i then newFemalesAt st.world y ++ [ind] else newFemalesAt st.world y))

/-- The number of residents with a positive dispersal allele in the patches below `n` that
lie in the window `win`. -/
def positiveResidents (w : List TPatch) (win : Nat → Bool) : Nat → Nat
  | 0 => 0
  | n + 1 =>
    positiveResidents w win n
      + (if win n = true then ((femalesAt w n).filter (fun ind => 0 < ind.dispRate)).length
         else 0)

/-- The allele `d` is present in the world `w`: some resident or staged individual of some
patch carries it. -/
def allelePresent (w : List TPatch) (d : ℚ) : Prop :=
  ∃ (y : Nat) (j : TIndiv), (j ∈ femalesAt w y ∨ j ∈ newFemalesAt w y) ∧ j.dispRate = d

/-- The number of patches below `n` that have at least one resident. -/
def occupiedPatches (w : List TPatch) : Nat → Nat
  | 0 => 0
  | n + 1 => occupiedPatches w n + (if (femalesAt w n).length > 0 then 1 else 0)

/-- The number of residents in the patches below `n`. -/
def residentsBelow (w : List TPatch) : Nat → Nat
  | 0 => 0
  | n + 1 => residentsBelow w n + (femalesAt w n).length

/-- The generator state after `k` uniform draws from the state `g`. -/
def advance {σ : Type} (R : RandomSource σ) : Nat → σ → σ
  | 0, g => g
  | k + 1, g => (R.ran (advance R k g)).2

/-- The uniform draw number `k` (from 0) of the stream that starts in the state `g`. -/
def drawAt {σ : Type} (R : RandomSource σ) (g : σ) (k : Nat) : ℚ :=
  (R.ran (advance R k g)).1

/-- A strictly increasing, positive rational stand-in for `exp` in examples: `1 / (1 - q)`
below 0 and `1 + q` from 0 on. -/
def rationalExp (q : ℚ) : ℚ :=
  if q < 0 then 1 / (1 - q) else 1 + q

/-- A stand-in for the C library in examples, with the increasing `rationalExp` for `exp`;
`pow` is exact for exponents that are natural numbers. -/
def monoMath : CMath where
  exp := rationalExp
  pow := fun b e => b ^ (Int.floor e).toNat

/-- A stand-in for `exp` that does not decrease and is not strictly increasing: it
underflows to 0 below `-100`. -/
def underflowExp (q : ℚ) : ℚ := if q < -100 then 0 else rationalExp q

/-- A stand-in for the C library in examples, with the underflowing `underflowExp`. -/
def underflowMath : CMath where
  exp := underflowExp
  pow := fun b e => b ^ (Int.floor e).toNat

/-- The individual `ind` is present in the world `w`: it is a resident or a staged
individual of some patch. -/
def individualPresent (w : List TPatch) (ind : TIndiv) : Prop :=
  ∃ y : Nat, ind ∈ femalesAt w y ∨ ind ∈ newFemalesAt w y

/-- The two derived traits of an individual are the trait functions of its allele. -/
def Derived (M : CMath) (P : Params) (ind : TIndiv) : Prop :=
  ind.lambda = lambda_disersal_tradeOff M P ind.dispRate
    ∧ ind.alpha = alpha_lambda_correlation M P ind.lambda

/-- The globals that the program can reach: the result of `Initialize` on a world of
`WORLDDIM_X` patches, and the result of a life-cycle phase, at an active width within the
world, on globals it can reach. -/
inductive Reachable {σ : Type} (C : Consts) (M : CMath) (P : Params) (R : RandomSource σ) :
    Globals σ → Prop
  | init (s s' : Globals σ) : s.world.length = C.WORLDDIM_X →
      Initialize C M P R s = some s' → Reachable C M P R s'
  | mortality (act : Int) (s s' : Globals σ) : Reachable C M P R s →
      act ≤ (s.world.length : Int) → Mortality_gradient C R act s = some s' →
      Reachable C M P R s'
  | dispersal (act : Int) (s s' : Globals σ) : Reachable C M P R s →
      act ≤ (s.world.length : Int) → Dispersal C P R act s = some s' → Reachable C M P R s'
  | reproduction (act : Int) (s s' : Globals σ) : Reachable C M P R s →
      act ≤ (s.world.length : Int) → Reproduction M P R act s = some s' →
      Reachable C M P R s'
  | death (act : Int) (s s' : Globals σ) : Reachable C M P R s →
      act ≤ (s.world.length : Int) → Death P R act s = some s' → Reachable C M P R s'

/-- The statement `--f` on the 32-bit unsigned counter of the source. -/
def uintDec (f : Nat) : Nat := (f + 4294967295) % 4294967296

/-- The statement `++f` on the 32-bit unsigned counter of the source. -/
def uintInc (f : Nat) : Nat := (f + 1) % 4294967296

/-- The resident loop of `Dispersal` with the 32-bit unsigned counter of the source: a pass
is `dispersalIndividual`; after a removal (the pass asks for the same position again) the
body ends with `--f`; then the loop does `++f`. -/
def dispersalFemales32 {σ : Type} (C : Consts) (P : Params) (R : RandomSource σ)
    (margin_position : Int) (x : Nat) (act_worlddim_x : Int) :
    Nat → Nat → DispState σ → Option (DispState σ)
  | fuel, f, st =>
    match st.world[x]? with
    | none => none
    | some p =>
      if f < p.females.length then
        match fuel with
        | 0 => none
        | fuel1 + 1 =>
          match dispersalIndividual C P R margin_position x act_worlddim_x f st with
          | none => none
          | some (st1, f1) =>
            dispersalFemales32 C P R margin_position x act_worlddim_x fuel1
              (uintInc (if f1 = f then uintDec f else f)) st1
      else some st

/-- A record of one emigration decision: the patch, the resident examined, whether it
emigrates (its draw is below its `dispRate`) and, for an emigrant, whether it survives the
transit (the transit draw exceeds `mu0`). -/
structure Decision where
  patch : Nat
  ind : TIndiv
  emigrates : Bool
  survives : Bool
deriving Repr, DecidableEq

/-- The decision that the pass of the resident loop for position `f` of patch `x` takes in
the state `st`. -/
def dispersalDecision {σ : Type} (P : Params) (R : RandomSource σ) (x f : Nat)
    (st : DispState σ) : Option Decision :=
  match st.world[x]? with
  | none => none
  | some p =>
    match p.females[f]? with
    | none => none
    | some ind =>
      if (R.ran st.rng).1 < ind.dispRate then
        some ⟨x, ind, true, decide ((R.ran (R.ran st.rng).2).1 > P.mu0)⟩
      else some ⟨x, ind, false, false⟩

/-- The decisions that the resident loop `dispersalFemales` takes, pass by pass. -/
def dispersalFemalesLog {σ : Type} (C : Consts) (P : Params) (R : RandomSource σ)
    (margin_position : Int) (x : Nat) (act_worlddim_x : Int) :
    Nat → Nat → DispState σ → List Decision
  | fuel, f, st =>
    match st.world[x]? with
    | none => []
    | some p =>
      if f < p.females.length then
        match fuel with
        | 0 => []
        | fuel1 + 1 =>
          match dispersalDecision P R x f st,
            dispersalIndividual C P R margin_position x act_worlddim_x f st with
          | some d, some (st1, f1) =>
            d :: dispersalFemalesLog C P R margin_position x act_worlddim_x fuel1 f1 st1
          | _, _ => []
      else []

/-- The decisions that the pass of the emigration loop for patch `x` takes. -/
def dispersalPatchLog {σ : Type} (C : Consts) (P : Params) (R : RandomSource σ)
    (margin_position : Int) (act_worlddim_x : Int) (x : Nat) (st : DispState σ) :
    List Decision :=
  match st.world[x]? with
  | none => []
  | some p =>
    dispersalFemalesLog C P R margin_position x act_worlddim_x p.females.length 0
      { st with
        metapopsize_core :=
          if x < C.CM_AREA then st.metapopsize_core + p.females.length
          else st.metapopsize_core,
        metapopsize_margin :=
          if (x : Int) ≥ margin_position - (C.CM_AREA : Int) then
            st.metapopsize_margin + p.females.length
          else st.metapopsize_margin }

/-- The decisions that the emigration loop of `Dispersal` takes over the patches below
`n`, in order. -/
def dispersalSweepLog {σ : Type} (C : Consts) (P : Params) (R : RandomSource σ)
    (act_worlddim_x : Int) (s : Globals σ) : Nat → List Decision
  | 0 => []
  | n + 1 =>
    dispersalSweepLog C P R act_worlddim_x s n
      ++ (match forRange n (dispersalPatch C P R s.margin_position act_worlddim_x)
            ⟨s.world, s.rng, 0, 0, 0, 0⟩ with
          | none => []
          | some st => dispersalPatchLog C P R s.margin_position act_worlddim_x n st)

/-- The residents that a sequence of decisions examines in patch `x`. -/
def examinedIn (x : Nat) (log : List Decision) : List TIndiv :=
  (log.filter (fun d => decide (d.patch = x))).map (fun d => d.ind)

/-- The residents of patch `x` that a sequence of decisions leaves in place. -/
def stayersIn (x : Nat) (log : List Decision) : List TIndiv :=
  (log.filter (fun d => decide (d.patch = x) && !d.emigrates)).map (fun d => d.ind)

/-- The emigrants of a sequence of decisions that do not survive the transit. -/
def lostInTransit (log : List Decision) : List TIndiv :=
  (log.filter (fun d => d.emigrates && !d.survives)).map (fun d => d.ind)

/-- The sum of `g y` over the indices `y` below `n`. -/
def sumBelow (g : Nat → Nat) : Nat → Nat
  | 0 => 0
  | n + 1 => sumBelow g n + g n

/-- The number of individuals equal to `ind` in the world, residents and staged. -/
def worldCount (w : List TPatch) (ind : TIndiv) : Nat :=
  sumBelow (fun y => List.count ind (femalesAt w y) + List.count ind (newFemalesAt w y))
    w.length

/-! ## Test sources of randomness -/

/-- A generator whose uniform draw is always `u`; the state counts the draws. A Gaussian
draw is 0 and a Poisson draw is the integer part of the mean. -/
def constSource (u : ℚ) : RandomSource Nat where
  ran := fun g => (u, g + 1)
  gauss := fun _ g => (0, g + 1)
  poisson := fun mean g => (Int.floor mean, g + 1)

/-- A generator whose uniform draws cycle through `0, 1/4, 1/2, 3/4`. -/
def cycleSource : RandomSource Nat where
  ran := fun g => (((g % 4 : Nat) : ℚ) / 4, g + 1)
  gauss := fun _ g => (0, g + 1)
  poisson := fun mean g => (Int.floor mean, g + 1)

/-- A stand-in for the C library in examples: `exp` is a rational function that falls from
1 at 0, `pow` is exact for exponents that are natural numbers. -/
def testMath : CMath where
  exp := fun q => 1 / (1 + |q|)
  pow := fun b e => b ^ (Int.floor e).toNat

/-- Parameters for examples: fertility 2, competition 1/10, exponent 1, no mutation. -/
def testParams : Params where
  sim_time := 10
  burn_in := 2
  max_runs := 1
  mut_sd := 1 / 10
  mut_rate := 0
  alpha0 := 1 / 10
  lambda_null := 2
  mu0 := 0
  epsilon := 0
  lamb_exp := 1
  trade_off_exp := 1
  mort_grad := true

/-- Globals with the given world and generator state, everything else 0. -/
def globalsOf (w : List TPatch) (g : Nat) : Globals Nat where
  world := w
  equilibrium_density := 0
  rel_metapopsize := 0
  occupancy := 0
  rel_emigrants_core := 0
  rel_emigrants_margin := 0
  margin_position := 0
  rng := g

/-- An individual for examples. -/
def testIndiv : TIndiv := ⟨1 / 2, 1, 1 / 10⟩

/-- Parameters with equilibrium density 1: fertility 2, competition 1, exponent 0. -/
def unitParams : Params := { testParams with alpha0 := 1, lamb_exp := 0 }

/-- The parameters of the scenario as the program holds them: the competition baseline is
the `float` nearest to 1/10. -/
def scenarioParams : Params := { testParams with alpha0 := toFloat (1 / 10) }

/-- Parameters, all of them `float` values, for which the `float` quotient of the
equilibrium density is rounded up to 5/2: fertility `7/2 + 2 ^ (-22)`, competition
`1 + 2 ^ (-23)`, exponent 0. -/
def roundingParams : Params :=
  { testParams with lambda_null := 7 / 2 + 1 / 2 ^ 22, alpha0 := 1 + 1 / 2 ^ 23, lamb_exp := 0 }

/-! ## Theorems -/

/-! ### Single precision -/

theorem roundHalfEven_floor_le (q : ℚ) : Int.floor q ≤ roundHalfEven q := by
  unfold roundHalfEven
  simp only
  split_ifs <;> omega

theorem roundHalfEven_le_floor_add_one (q : ℚ) : roundHalfEven q ≤ Int.floor q + 1 := by
  unfold roundHalfEven
  simp only
  split_ifs <;> omega

theorem roundHalfEven_intCast (n : Int) : roundHalfEven (n : ℚ) = n := by
  unfold roundHalfEven
  simp

theorem roundHalfEven_mono {x y : ℚ} (h : x ≤ y) : roundHalfEven x ≤ roundHalfEven y := by
  have hf : Int.floor x ≤ Int.floor y := Int.floor_mono h
  by_cases hlt : Int.floor x < Int.floor y
  · have h1 := roundHalfEven_le_floor_add_one x
    have h2 := roundHalfEven_floor_le y
    omega
  · have he : Int.floor x = Int.floor y := by omega
    unfold roundHalfEven
    simp only
    rw [he]
    split_ifs <;> first | omega | (exfalso; linarith)

theorem roundHalfEven_eq_of_near (x : ℚ) (n : Int) (h : |x - n| < 1 / 2) :
    roundHalfEven x = n := by
  rw [abs_lt] at h
  obtain ⟨h1, h2⟩ := h
  unfold roundHalfEven
  simp only
  by_cases hx : (n : ℚ) ≤ x
  · have hf : Int.floor x = n := by
      rw [Int.floor_eq_iff]; constructor <;> linarith
    rw [hf, if_pos (by linarith)]
  · have hf : Int.floor x = n - 1 := by
      rw [Int.floor_eq_iff]; push_cast; constructor <;> linarith
    rw [hf]
    push_cast
    rw [if_neg (by linarith), if_pos (by linarith)]
    ring

theorem two_zpow_pos (k : Int) : (0 : ℚ) < 2 ^ k := zpow_pos (by norm_num) k

theorem log_two_bounds (q : ℚ) (hq : 0 < q) :
    (2 : ℚ) ^ Int.log 2 q ≤ q ∧ q < (2 : ℚ) ^ (Int.log 2 q + 1) := by
  have h1 := Int.zpow_log_le_self (b := 2) (by norm_num) hq
  have h2 := Int.lt_zpow_succ_log_self (b := 2) (by norm_num) q
  simp only [Nat.cast_ofNat] at h1 h2
  exact ⟨h1, h2⟩

theorem log_two_eq (q : ℚ) (e : Int) (h1 : (2 : ℚ) ^ e ≤ q) (h2 : q < (2 : ℚ) ^ (e + 1)) :
    Int.log 2 q = e := by
  have hq : 0 < q := lt_of_lt_of_le (two_zpow_pos e) h1
  have a : e ≤ Int.log 2 q := by
    rw [← Int.zpow_le_iff_le_log (by norm_num) hq]
    simpa using h1
  have b : Int.log 2 q < e + 1 := by
    rw [← Int.lt_zpow_iff_log_lt (by norm_num) hq]
    simpa using h2
  omega

theorem roundMagnitude_zero : roundMagnitude 0 = 0 := by
  simp [roundMagnitude, roundHalfEven]

theorem roundMagnitude_nonneg (q : ℚ) (hq : 0 ≤ q) : 0 ≤ roundMagnitude q := by
  unfold roundMagnitude
  have h0 : (0 : ℚ) ≤ q / 2 ^ ulpExp q := div_nonneg hq (le_of_lt (two_zpow_pos _))
  have h1 : (0 : Int) ≤ roundHalfEven (q / 2 ^ ulpExp q) :=
    le_trans (Int.floor_nonneg.mpr h0) (roundHalfEven_floor_le _)
  exact mul_nonneg (by exact_mod_cast h1) (le_of_lt (two_zpow_pos _))

/-- The rounded magnitude stays within the binade of the magnitude. -/
theorem roundMagnitude_le_binade (q : ℚ) (hq : 0 < q) :
    roundMagnitude q ≤ 2 ^ (ulpExp q + 24) := by
  unfold roundMagnitude
  have hb := (log_two_bounds q hq).2
  have hE : Int.log 2 q + 1 ≤ ulpExp q + 24 := by unfold ulpExp; omega
  have hq2 : q ≤ 2 ^ (ulpExp q + 24) :=
    le_trans (le_of_lt hb) (zpow_le_zpow_right₀ (by norm_num) hE)
  have hu := two_zpow_pos (ulpExp q)
  have hdiv : q / 2 ^ ulpExp q ≤ ((2 ^ 24 : Int) : ℚ) := by
    rw [div_le_iff₀ hu]
    have : ((2 ^ 24 : Int) : ℚ) * 2 ^ ulpExp q = 2 ^ (ulpExp q + 24) := by
      rw [zpow_add₀ (by norm_num)]; push_cast; ring
    rw [this]; exact hq2
  have hr := roundHalfEven_mono hdiv
  rw [roundHalfEven_intCast] at hr
  have hr' : ((roundHalfEven (q / 2 ^ ulpExp q) : Int) : ℚ) ≤ ((2 ^ 24 : Int) : ℚ) := by
    exact_mod_cast hr
  calc ((roundHalfEven (q / 2 ^ ulpExp q) : Int) : ℚ) * 2 ^ ulpExp q
      ≤ ((2 ^ 24 : Int) : ℚ) * 2 ^ ulpExp q := mul_le_mul_of_nonneg_right hr' (le_of_lt hu)
    _ = 2 ^ (ulpExp q + 24) := by
      rw [zpow_add₀ (by norm_num)]; push_cast; ring

theorem binade_le_roundMagnitude (q : ℚ) (hq : 0 < q) (hn : -126 ≤ Int.log 2 q) :
    2 ^ (ulpExp q + 23) ≤ roundMagnitude q := by
  unfold roundMagnitude
  have hb := (log_two_bounds q hq).1
  have hE : ulpExp q + 23 = Int.log 2 q := by unfold ulpExp; omega
  have hu := two_zpow_pos (ulpExp q)
  have hdiv : ((2 ^ 23 : Int) : ℚ) ≤ q / 2 ^ ulpExp q := by
    rw [le_div_iff₀ hu]
    have : ((2 ^ 23 : Int) : ℚ) * 2 ^ ulpExp q = 2 ^ (ulpExp q + 23) := by
      rw [zpow_add₀ (by norm_num)]; push_cast; ring
    rw [this, hE]; exact hb
  have hr := roundHalfEven_mono hdiv
  rw [roundHalfEven_intCast] at hr
  have hr' : ((2 ^ 23 : Int) : ℚ) ≤ ((roundHalfEven (q / 2 ^ ulpExp q) : Int) : ℚ) := by
    exact_mod_cast hr
  calc (2 : ℚ) ^ (ulpExp q + 23) = ((2 ^ 23 : Int) : ℚ) * 2 ^ ulpExp q := by
        rw [zpow_add₀ (by norm_num)]; push_cast; ring
    _ ≤ ((roundHalfEven (q / 2 ^ ulpExp q) : Int) : ℚ) * 2 ^ ulpExp q :=
        mul_le_mul_of_nonneg_right hr' (le_of_lt hu)

theorem ulpExp_mono {x y : ℚ} (hx : 0 < x) (h : x ≤ y) : ulpExp x ≤ ulpExp y := by
  have := Int.log_mono_right (b := 2) hx h
  unfold ulpExp
  omega

theorem roundMagnitude_mono {x y : ℚ} (hx : 0 ≤ x) (h : x ≤ y) :
    roundMagnitude x ≤ roundMagnitude y := by
  rcases eq_or_lt_of_le hx with h0 | hpos
  · rw [← h0, roundMagnitude_zero]
    exact roundMagnitude_nonneg y (le_trans hx h)
  · have hy : 0 < y := lt_of_lt_of_le hpos h
    have hE := ulpExp_mono hpos h
    by_cases he : ulpExp x = ulpExp y
    · unfold roundMagnitude
      rw [he]
      have hu := two_zpow_pos (ulpExp y)
      have hdiv : x / 2 ^ ulpExp y ≤ y / 2 ^ ulpExp y :=
        div_le_div_of_nonneg_right h (le_of_lt hu)
      have hr := roundHalfEven_mono hdiv
      exact mul_le_mul_of_nonneg_right (by exact_mod_cast hr) (le_of_lt hu)
    · have hlt : ulpExp x + 24 ≤ ulpExp y + 23 := by omega
      have hlog : -126 ≤ Int.log 2 y := by
        have hxx : -149 ≤ ulpExp x := by unfold ulpExp; omega
        by_contra hc
        have : ulpExp y = -149 := by unfold ulpExp; omega
        omega
      calc roundMagnitude x ≤ 2 ^ (ulpExp x + 24) := roundMagnitude_le_binade x hpos
        _ ≤ 2 ^ (ulpExp y + 23) := zpow_le_zpow_right₀ (by norm_num) hlt
        _ ≤ roundMagnitude y := binade_le_roundMagnitude y hy hlog

theorem toFloat_of_nonneg (q : ℚ) (hq : 0 ≤ q) : toFloat q = roundMagnitude q := by
  unfold toFloat
  rw [if_neg (not_lt.mpr hq)]

theorem toFloat_zero : toFloat 0 = 0 := by
  rw [toFloat_of_nonneg 0 (le_refl 0), roundMagnitude_zero]

theorem toFloat_neg (q : ℚ) : toFloat (-q) = -toFloat q := by
  unfold toFloat
  rcases lt_trichotomy q 0 with h | h | h
  · rw [if_neg (by linarith), if_pos h]; simp
  · subst h; simp [roundMagnitude_zero]
  · rw [if_pos (by linarith), if_neg (by linarith)]; simp

theorem toFloat_nonneg (q : ℚ) (hq : 0 ≤ q) : 0 ≤ toFloat q := by
  rw [toFloat_of_nonneg q hq]; exact roundMagnitude_nonneg q hq

/-- Rounding to single precision keeps the order. -/
theorem toFloat_mono {x y : ℚ} (h : x ≤ y) : toFloat x ≤ toFloat y := by
  by_cases hx : x < 0
  · by_cases hy : y < 0
    · unfold toFloat
      rw [if_pos hx, if_pos hy]
      have := roundMagnitude_mono (x := -y) (y := -x) (by linarith) (by linarith)
      linarith
    · have h1 : toFloat x ≤ 0 := by
        unfold toFloat
        rw [if_pos hx]
        have := roundMagnitude_nonneg (-x) (by linarith)
        linarith
      exact le_trans h1 (toFloat_nonneg y (not_lt.mp hy))
  · have hx' : 0 ≤ x := not_lt.mp hx
    rw [toFloat_of_nonneg x hx', toFloat_of_nonneg y (le_trans hx' h)]
    exact roundMagnitude_mono hx' h

/-- A magnitude whose quotient by its unit in the last place is near the integer `n` rounds
to `n` units. -/
theorem roundMagnitude_eval (q : ℚ) (e n : Int) (h1 : (2 : ℚ) ^ e ≤ q)
    (h2 : q < (2 : ℚ) ^ (e + 1)) (he : -126 ≤ e) (hn : |q / 2 ^ (e - 23) - n| < 1 / 2) :
    roundMagnitude q = n * 2 ^ (e - 23) := by
  have hlog := log_two_eq q e h1 h2
  have hu : ulpExp q = e - 23 := by unfold ulpExp; rw [hlog]; omega
  unfold roundMagnitude
  rw [hu, roundHalfEven_eq_of_near _ n hn]

/-- A number with a significand of at most 24 bits and an exponent of the format is a
float: rounding returns it. -/
theorem roundMagnitude_exact (n : Nat) (k : Int) (hn : n < 2 ^ 24) (hk : -149 ≤ k) :
    roundMagnitude ((n : ℚ) * 2 ^ k) = (n : ℚ) * 2 ^ k := by
  rcases Nat.eq_zero_or_pos n with h0 | hpos
  · subst h0; simp [roundMagnitude_zero]
  · have hk2 := two_zpow_pos k
    have hq : (0 : ℚ) < (n : ℚ) * 2 ^ k := mul_pos (by exact_mod_cast hpos) hk2
    have hlt : (n : ℚ) * 2 ^ k < (2 : ℚ) ^ (24 + k) := by
      rw [zpow_add₀ (by norm_num)]
      apply mul_lt_mul_of_pos_right _ hk2
      exact_mod_cast hn
    have hlog : Int.log 2 ((n : ℚ) * 2 ^ k) < 24 + k := by
      rw [← Int.lt_zpow_iff_log_lt (by norm_num) hq]
      simpa using hlt
    have hu : ulpExp ((n : ℚ) * 2 ^ k) ≤ k := by unfold ulpExp; omega
    obtain ⟨d, hd⟩ : ∃ d : Nat, k = ulpExp ((n : ℚ) * 2 ^ k) + d :=
      ⟨(k - ulpExp ((n : ℚ) * 2 ^ k)).toNat, by omega⟩
    have hquot : (n : ℚ) * 2 ^ k / 2 ^ ulpExp ((n : ℚ) * 2 ^ k)
        = (((n * 2 ^ d : Nat) : Int) : ℚ) := by
      rw [div_eq_iff (ne_of_gt (two_zpow_pos _))]
      nth_rewrite 1 [hd]
      rw [zpow_add₀ (by norm_num)]
      push_cast
      rw [zpow_natCast]
      ring
    unfold roundMagnitude
    rw [hquot, roundHalfEven_intCast, ← hquot]
    exact div_mul_cancel₀ _ (ne_of_gt (two_zpow_pos _))

theorem toFloat_natCast (n : Nat) (hn : n < 2 ^ 24) : toFloat (n : ℚ) = n := by
  rw [toFloat_of_nonneg _ (Nat.cast_nonneg n)]
  have := roundMagnitude_exact n 0 hn (by norm_num)
  simpa using this

theorem toFloat_one : toFloat 1 = 1 := by
  have := toFloat_natCast 1 (by norm_num)
  simpa using this

theorem toFloat_unit_interval (q : ℚ) (h0 : 0 ≤ q) (h1 : q ≤ 1) :
    0 ≤ toFloat q ∧ toFloat q ≤ 1 := by
  refine ⟨toFloat_nonneg q h0, ?_⟩
  have := toFloat_mono h1
  rwa [toFloat_one] at this

/-- The evaluation of `toFloat` at a positive number in the normal range. -/
theorem toFloat_eval (q : ℚ) (e n : Int) (h1 : (2 : ℚ) ^ e ≤ q) (h2 : q < (2 : ℚ) ^ (e + 1))
    (he : -126 ≤ e) (hn : |q / 2 ^ (e - 23) - n| < 1 / 2) :
    toFloat q = n * 2 ^ (e - 23) := by
  have hq : 0 ≤ q := le_trans (le_of_lt (two_zpow_pos e)) h1
  rw [toFloat_of_nonneg q hq]
  exact roundMagnitude_eval q e n h1 h2 he hn

theorem roundHalfEven_le_pred (x : ℚ) (N : Int) (h : x < (N : ℚ) - 1 / 2) :
    roundHalfEven x ≤ N - 1 := by
  have hfl : (Int.floor x : ℚ) ≤ x := Int.floor_le x
  have hf : Int.floor x ≤ N - 1 := by
    have : (Int.floor x : ℚ) < (N : ℚ) := by linarith
    have : Int.floor x < N := by exact_mod_cast this
    omega
  unfold roundHalfEven
  simp only
  by_cases h1 : x - (Int.floor x : ℚ) < 1 / 2
  · rw [if_pos h1]; exact hf
  · have hf2 : Int.floor x ≤ N - 2 := by
      have : (Int.floor x : ℚ) < (N : ℚ) - 1 := by linarith
      have : Int.floor x < N - 1 := by exact_mod_cast this
      omega
    rw [if_neg h1]
    split_ifs <;> omega

/-- A number below `1 - 2 ^ (-25)` is stored as a `float` below 1. -/
theorem toFloat_lt_one (u : ℚ) (h0 : 0 ≤ u) (h : u < 1 - 1 / 2 ^ 25) : toFloat u < 1 := by
  by_cases hh : u < 1 / 2
  · have h1 : toFloat u ≤ toFloat (1 / 2) := toFloat_mono (le_of_lt hh)
    have h2 : toFloat (1 / 2) = 1 / 2 := by
      rw [toFloat_of_nonneg _ (by norm_num)]
      have := roundMagnitude_exact 1 (-1) (by norm_num) (by norm_num)
      norm_num at this
      exact this
    rw [h2] at h1
    linarith
  · have hlog : Int.log 2 u = -1 :=
      log_two_eq u (-1) (by norm_num; linarith) (by norm_num; linarith)
    have hu : ulpExp u = -24 := by unfold ulpExp; rw [hlog]; norm_num
    rw [toFloat_of_nonneg u h0]
    unfold roundMagnitude
    rw [hu]
    have hx : u / 2 ^ (-24 : Int) < ((16777216 : Int) : ℚ) - 1 / 2 := by
      rw [div_lt_iff₀ (two_zpow_pos _)]
      norm_num
      linarith
    have hr := roundHalfEven_le_pred _ 16777216 hx
    have hr' : ((roundHalfEven (u / 2 ^ (-24 : Int)) : Int) : ℚ) ≤ 16777215 := by
      exact_mod_cast hr
    have : ((roundHalfEven (u / 2 ^ (-24 : Int)) : Int) : ℚ) * 2 ^ (-24 : Int)
        ≤ 16777215 * 2 ^ (-24 : Int) :=
      mul_le_mul_of_nonneg_right hr' (le_of_lt (two_zpow_pos _))
    have h3 : (16777215 : ℚ) * 2 ^ (-24 : Int) < 1 := by norm_num
    linarith

theorem toFloat_div_self (q : ℚ) (hq : q ≠ 0) : toFloat (q / q) = 1 := by
  rw [div_self hq, toFloat_one]

theorem toInt32_of_fits (z : Int) (h1 : -2147483648 ≤ z) (h2 : z ≤ 2147483647) :
    toInt32 z = z := by
  unfold toInt32 INT_MIN
  rw [if_pos ⟨h1, h2⟩]

theorem FLT_MAX_pos : (1 : ℚ) < FLT_MAX := by
  unfold FLT_MAX; norm_num

/-! ### Draws -/

/-- For a draw in `[0,1)` the direction `floor (2u)` is 0 or 1. -/
theorem floor_two_mul_draw (u : ℚ) (h0 : 0 ≤ u) (h1 : u < 1) :
    Int.floor (u * 2) = 0 ∨ Int.floor (u * 2) = 1 := by
  have hlo : (0 : ℤ) ≤ Int.floor (u * 2) := Int.floor_nonneg.mpr (by linarith)
  have hhi : Int.floor (u * 2) < 2 := by
    rw [Int.floor_lt]; push_cast; linarith
  omega

theorem constSource_uniform (u : ℚ) (h0 : 0 ≤ u) (h1 : u < 1) : (constSource u).Uniform := by
  intro g
  exact ⟨h0, h1⟩

theorem cycleSource_uniform : cycleSource.Uniform := by
  intro g
  have h : g % 4 < 4 := Nat.mod_lt g (by norm_num)
  have h4 : ((g % 4 : Nat) : ℚ) < 4 := by exact_mod_cast h
  have h0 : (0 : ℚ) ≤ ((g % 4 : Nat) : ℚ) := Nat.cast_nonneg _
  constructor
  · show (0 : ℚ) ≤ ((g % 4 : Nat) : ℚ) / 4
    positivity
  · show ((g % 4 : Nat) : ℚ) / 4 < 1
    rw [div_lt_one (by norm_num)]
    exact h4

/-! ### The dispersal kernel -/

/-- The kernel returns an index of the active range whatever the boundary rule: for an
origin in `[0, act)` and a draw in `[0,1)` the destination lies in `[0, act)`. -/
theorem findNewPatch_range {σ : Type} (C : Consts) (R : RandomSource σ) (x act : Int) (g : σ)
    (hx0 : 0 ≤ x) (hx1 : x < act) (hu : 0 ≤ (R.ran g).1 ∧ (R.ran g).1 < 1) :
    ∃ r, findNewPatch C R x act g = some (r, (R.ran g).2) ∧ 0 ≤ r ∧ r < act := by
  rcases floor_two_mul_draw _ hu.1 hu.2 with h | h
  · simp only [findNewPatch, h, if_true]
    split_ifs <;> exact ⟨_, rfl, by omega, by omega⟩
  · simp only [findNewPatch, h, one_ne_zero, if_false, if_true]
    split_ifs <;> exact ⟨_, rfl, by omega, by omega⟩

/-- C1 (counterexample): with `WORLDDIM_X = INIT_ROWS = 3` the active width 3 equals the
world width, and a left move from index 0 (draw 0) returns 2: the index is wrapped, it is
neither `x - 1` clipped (0) nor `x + 1` clipped (1). -/
theorem findNewPatch_full_width_wraps :
    findNewPatch ⟨3, 3, 1⟩ (constSource 0) 0 3 0 = some (2, 1)
      ∧ (0 : ℚ) ≤ ((constSource 0).ran 0).1 ∧ ((constSource 0).ran 0).1 < 1
      ∧ (2 : Int) ≠ max (0 - 1) 0 ∧ (2 : Int) ≠ min (0 + 1) (3 - 1) := by
  refine ⟨?_, ?_, ?_, by decide, by decide⟩
  · simp [findNewPatch, constSource]
  · simp [constSource]
  · simp [constSource]

/-- C1 (amended): when the active width is `WORLDDIM_X` and `WORLDDIM_X` differs from
`INIT_ROWS`, for every origin `x` in `[0, WORLDDIM_X)` and every draw in `[0,1)`,
`findNewPatch` returns an index in `[0, WORLDDIM_X)`: `x - 1` clipped at 0 when
`floor (2u) = 0`, `x + 1` clipped at `WORLDDIM_X - 1` when `floor (2u) = 1`. -/
theorem findNewPatch_reflecting {σ : Type} (C : Consts) (R : RandomSource σ) (x : Int) (g : σ)
    (hne : C.WORLDDIM_X ≠ C.INIT_ROWS) (hx0 : 0 ≤ x) (hx1 : x < (C.WORLDDIM_X : Int))
    (hu : 0 ≤ (R.ran g).1 ∧ (R.ran g).1 < 1) :
    ∃ r, findNewPatch C R x (C.WORLDDIM_X : Int) g = some (r, (R.ran g).2)
      ∧ 0 ≤ r ∧ r < (C.WORLDDIM_X : Int)
      ∧ (Int.floor ((R.ran g).1 * 2) = 0 ∨ Int.floor ((R.ran g).1 * 2) = 1)
      ∧ (Int.floor ((R.ran g).1 * 2) = 0 → r = max (x - 1) 0)
      ∧ (Int.floor ((R.ran g).1 * 2) = 1 → r = min (x + 1) ((C.WORLDDIM_X : Int) - 1)) := by
  have hI : ¬ ((C.WORLDDIM_X : Int) = (C.INIT_ROWS : Int)) := by
    intro h; exact hne (by exact_mod_cast h)
  rcases floor_two_mul_draw _ hu.1 hu.2 with h | h
  · have key : findNewPatch C R x (C.WORLDDIM_X : Int) g = some (max (x - 1) 0, (R.ran g).2) := by
      simp only [findNewPatch, h, if_true, hI, if_false]
      split_ifs <;> simp only [Option.some.injEq, Prod.mk.injEq, and_true] <;> omega
    exact ⟨_, key, by omega, by omega, Or.inl h, fun _ => rfl, fun h' => by omega⟩
  · have key : findNewPatch C R x (C.WORLDDIM_X : Int) g
        = some (min (x + 1) ((C.WORLDDIM_X : Int) - 1), (R.ran g).2) := by
      simp only [findNewPatch, h, one_ne_zero, if_false, if_true, hI]
      split_ifs <;> simp only [Option.some.injEq, Prod.mk.injEq, and_true] <;> omega
    exact ⟨_, key, by omega, by omega, Or.inr h, fun h' => by omega, fun _ => rfl⟩

/-- Witness of C1 (amended): a world of width 5 with burn-in width 2, a move from index 0. -/
theorem findNewPatch_reflecting_witness :
    ∃ r, findNewPatch ⟨5, 2, 1⟩ cycleSource 0 ((5 : Nat) : Int) 0 = some (r, (cycleSource.ran 0).2)
      ∧ 0 ≤ r ∧ r < ((5 : Nat) : Int)
      ∧ (Int.floor ((cycleSource.ran 0).1 * 2) = 0 ∨ Int.floor ((cycleSource.ran 0).1 * 2) = 1)
      ∧ (Int.floor ((cycleSource.ran 0).1 * 2) = 0 → r = max (0 - 1) 0)
      ∧ (Int.floor ((cycleSource.ran 0).1 * 2) = 1 → r = min (0 + 1) (((5 : Nat) : Int) - 1)) :=
  findNewPatch_reflecting ⟨5, 2, 1⟩ cycleSource 0 0 (by decide) (by decide) (by decide)
    (cycleSource_uniform 0)

/-- C2: when the active width is `INIT_ROWS`, for every origin `x` in `[0, INIT_ROWS)` and
every draw `u` in `[0,1)`, `findNewPatch` returns `(x - 1) mod INIT_ROWS` when
`floor (2u) = 0` and `(x + 1) mod INIT_ROWS` when `floor (2u) = 1`; the destination lies in
`[0, INIT_ROWS)`. -/
theorem findNewPatch_torus {σ : Type} (C : Consts) (R : RandomSource σ) (x : Int) (g : σ)
    (hx0 : 0 ≤ x) (hx1 : x < (C.INIT_ROWS : Int))
    (hu : 0 ≤ (R.ran g).1 ∧ (R.ran g).1 < 1) :
    (Int.floor ((R.ran g).1 * 2) = 0 ∨ Int.floor ((R.ran g).1 * 2) = 1)
      ∧ (Int.floor ((R.ran g).1 * 2) = 0 →
          findNewPatch C R x (C.INIT_ROWS : Int) g
            = some ((x - 1) % (C.INIT_ROWS : Int), (R.ran g).2))
      ∧ (Int.floor ((R.ran g).1 * 2) = 1 →
          findNewPatch C R x (C.INIT_ROWS : Int) g
            = some ((x + 1) % (C.INIT_ROWS : Int), (R.ran g).2))
      ∧ ∃ r g1, findNewPatch C R x (C.INIT_ROWS : Int) g = some (r, g1)
          ∧ 0 ≤ r ∧ r < (C.INIT_ROWS : Int) := by
  refine ⟨floor_two_mul_draw _ hu.1 hu.2, ?_, ?_, ?_⟩
  · intro h
    simp only [findNewPatch, h, if_true]
    by_cases hx : x = 0
    · subst hx
      have e : (0 - 1 : Int) % (C.INIT_ROWS : Int) = (C.INIT_ROWS : Int) - 1 := by
        rw [← Int.add_emod_self]
        rw [Int.emod_eq_of_lt (by omega) (by omega)]
        ring
      rw [e]
      split_ifs <;> first | rfl | omega
    · have e : (x - 1) % (C.INIT_ROWS : Int) = x - 1 := Int.emod_eq_of_lt (by omega) (by omega)
      rw [e]
      split_ifs <;> first | rfl | omega
  · intro h
    simp only [findNewPatch, h, one_ne_zero, if_false, if_true]
    by_cases hx : x + 1 = (C.INIT_ROWS : Int)
    · have e : (x + 1) % (C.INIT_ROWS : Int) = 0 := by rw [hx]; exact Int.emod_self
      rw [e]
      simp [hx]
    · have e : (x + 1) % (C.INIT_ROWS : Int) = x + 1 := Int.emod_eq_of_lt (by omega) (by omega)
      rw [e]
      split_ifs <;> first | rfl | omega
  · obtain ⟨r, hr, h0, h1⟩ := findNewPatch_range C R x (C.INIT_ROWS : Int) g hx0 hx1 hu
    exact ⟨r, _, hr, h0, h1⟩

/-- Witness of C2: burn-in width 4, a move from index 3. -/
theorem findNewPatch_torus_witness :
    (Int.floor ((cycleSource.ran 2).1 * 2) = 0 ∨ Int.floor ((cycleSource.ran 2).1 * 2) = 1)
      ∧ (Int.floor ((cycleSource.ran 2).1 * 2) = 0 →
          findNewPatch ⟨9, 4, 1⟩ cycleSource 3 ((4 : Nat) : Int) 2
            = some ((3 - 1) % ((4 : Nat) : Int), (cycleSource.ran 2).2))
      ∧ (Int.floor ((cycleSource.ran 2).1 * 2) = 1 →
          findNewPatch ⟨9, 4, 1⟩ cycleSource 3 ((4 : Nat) : Int) 2
            = some ((3 + 1) % ((4 : Nat) : Int), (cycleSource.ran 2).2))
      ∧ ∃ r g1, findNewPatch ⟨9, 4, 1⟩ cycleSource 3 ((4 : Nat) : Int) 2 = some (r, g1)
          ∧ 0 ≤ r ∧ r < ((4 : Nat) : Int) :=
  findNewPatch_torus ⟨9, 4, 1⟩ cycleSource 3 2 (by decide) (by decide) (cycleSource_uniform 2)

/-! ### Loops and vectors -/

/-- The rule of the counting loop: an invariant indexed by the number of completed passes
that every pass re-establishes holds at the end, and the loop has a result. -/
theorem forRange_rule {S : Type} (Inv : Nat → S → Prop) (body : Nat → S → Option S) (n : Nat)
    (s : S) (h0 : Inv 0 s)
    (hstep : ∀ k t, k < n → Inv k t → ∃ t', body k t = some t' ∧ Inv (k + 1) t') :
    ∃ t, forRange n body s = some t ∧ Inv n t := by
  induction n with
  | zero => exact ⟨s, rfl, h0⟩
  | succ m ih =>
    obtain ⟨t, ht, hInv⟩ := ih (fun k t hk => hstep k t (Nat.lt_succ_of_lt hk))
    obtain ⟨t', ht', hInv'⟩ := hstep m t (Nat.lt_succ_self m) hInv
    exact ⟨t', by simp [forRange, ht, ht'], hInv'⟩

theorem appendAll_eq (dst src : List TIndiv) : appendAll dst src = dst ++ src := by
  unfold appendAll
  induction src generalizing dst with
  | nil => simp
  | cons a rest ih => simp [List.foldl_cons, ih]

/-! ### Initialisation -/

theorem initFemales_spec {σ : Type} (M : CMath) (P : Params) (R : RandomSource σ)
    (Q : ℚ → Prop) (hQ : ∀ g, Q (toFloat (R.ran g).1)) (n : Nat) (females : List TIndiv)
    (g : σ) :
    (initFemales M P R n females g).1.length = females.length + n
      ∧ ((∀ ind ∈ females, Q ind.dispRate) →
          ∀ ind ∈ (initFemales M P R n females g).1, Q ind.dispRate) := by
  induction n generalizing females g with
  | zero => exact ⟨rfl, fun h => h⟩
  | succ m ih =>
    simp only [initFemales]
    obtain ⟨h1, h2⟩ := ih (females ++
      [⟨toFloat (R.ran g).1, lambda_disersal_tradeOff M P (toFloat (R.ran g).1),
        alpha_lambda_correlation M P (lambda_disersal_tradeOff M P (toFloat (R.ran g).1))⟩])
      (R.ran g).2
    refine ⟨?_, ?_⟩
    · rw [h1]; simp; omega
    · intro hf
      apply h2
      intro ind hind
      rcases List.mem_append.mp hind with h | h
      · exact hf ind h
      · rw [List.mem_singleton] at h
        subst h
        exact hQ g

/-- One pass of the patch loop of `Initialize`, with the value it gives to
`equilibrium_density`; `Q` is any property of the stored draws. -/
theorem initPatch_spec {σ : Type} (C : Consts) (M : CMath) (P : Params) (R : RandomSource σ)
    (Q : ℚ → Prop) (hQ : ∀ g, Q (toFloat (R.ran g).1)) (x : Nat) (s : Globals σ)
    (hx : x < s.world.length) :
    ∃ s' p, initPatch C M P R x s = some s' ∧ s'.world = s.world.set x p
      ∧ s'.equilibrium_density = equilibriumDensity M P
      ∧ p.newFemales = []
      ∧ (C.INIT_ROWS ≤ x → p.females = [])
      ∧ (x < C.INIT_ROWS → p.females.length = s'.equilibrium_density.toNat
          ∧ ∀ ind ∈ p.females, Q ind.dispRate) := by
  obtain ⟨q, hq⟩ : ∃ q, s.world[x]? = some q := ⟨s.world[x], List.getElem?_eq_getElem hx⟩
  by_cases hI : x < C.INIT_ROWS
  · have hsp := initFemales_spec M P R Q hQ (equilibriumDensity M P).toNat [] s.rng
    refine ⟨_, _, by simp only [initPatch, hq, hI, if_true]; rfl, rfl, rfl, rfl, ?_, ?_⟩
    · intro h; omega
    · intro _
      refine ⟨?_, ?_⟩
      · simpa using hsp.1
      · exact hsp.2 (by simp)
  · refine ⟨_, _, by simp only [initPatch, hq, hI, if_false]; rfl, rfl, rfl, rfl, ?_, ?_⟩
    · intro _; rfl
    · intro h; exact absurd h hI

/-- The loop of `Initialize` over the first `n` patches: it has a result, keeps the number
of patches, sets the equilibrium density, and leaves each patch it visits initialised. -/
theorem Initialize_loop {σ : Type} (C : Consts) (M : CMath) (P : Params)
    (R : RandomSource σ) (Q : ℚ → Prop) (hQ : ∀ g, Q (toFloat (R.ran g).1)) (n : Nat)
    (s : Globals σ) (hn : n ≤ s.world.length) :
    ∃ s', forRange n (initPatch C M P R) s = some s' ∧ s'.world.length = s.world.length
      ∧ (0 < n → s'.equilibrium_density = equilibriumDensity M P)
      ∧ ∀ x, x < n → ∃ p, s'.world[x]? = some p
          ∧ p.newFemales = []
          ∧ (C.INIT_ROWS ≤ x → p.females = [])
          ∧ (x < C.INIT_ROWS →
              p.females.length = (equilibriumDensity M P).toNat
              ∧ ∀ ind ∈ p.females, Q ind.dispRate) := by
  refine forRange_rule
    (fun k (t : Globals σ) => t.world.length = s.world.length
      ∧ (0 < k → t.equilibrium_density = equilibriumDensity M P)
      ∧ ∀ x, x < k → ∃ p, t.world[x]? = some p
          ∧ p.newFemales = []
          ∧ (C.INIT_ROWS ≤ x → p.females = [])
          ∧ (x < C.INIT_ROWS →
              p.females.length = (equilibriumDensity M P).toNat
              ∧ ∀ ind ∈ p.females, Q ind.dispRate))
    (initPatch C M P R) n s
    ⟨rfl, fun h => absurd h (Nat.lt_irrefl 0), fun x hx => absurd hx (Nat.not_lt_zero x)⟩ ?_
  intro k t hk ⟨htl, _, hprev⟩
  obtain ⟨t', p, ht', hw, heq, hnf, hout, hin⟩ := initPatch_spec C M P R Q hQ k t (by omega)
  refine ⟨t', ht', by rw [hw, List.length_set]; exact htl, fun _ => heq, ?_⟩
  intro x hx
  by_cases hxk : x = k
  · subst hxk
    refine ⟨p, by rw [hw]; exact List.getElem?_set_self (by omega), hnf, hout, ?_⟩
    intro hlt
    obtain ⟨h1, h2⟩ := hin hlt
    exact ⟨by rw [h1, heq], h2⟩
  · obtain ⟨q, hq, hq1, hq2, hq3⟩ := hprev x (by omega)
    exact ⟨q, by rw [hw, List.getElem?_set_ne (by omega)]; exact hq, hq1, hq2, hq3⟩

theorem cround_intCast (n : Int) : cround (n : ℚ) = n := by
  unfold cround
  split_ifs with h
  · rw [Int.floor_eq_iff]; constructor <;> linarith
  · rw [Int.ceil_eq_iff]; constructor <;> linarith

/-- C3 (amended): after `Initialize`, for every starting world (of `WORLDDIM_X` patches)
and every stream of uniform draws in `[0,1)`: every patch has an empty staging buffer, a
patch with index at least `INIT_ROWS` has no residents, a patch with index below
`INIT_ROWS` has as many residents as the loop `f < equilibrium_density` has passes: exactly
`equilibrium_density` when that is not negative, none otherwise. The allele of each is the
`float` value of a draw; it lies in `[0,1]`, and in `[0,1)` when the draw is below
`1 - 2 ^ (-25)`. -/
theorem Initialize_populates {σ : Type} (C : Consts) (M : CMath) (P : Params)
    (R : RandomSource σ) (s : Globals σ) (hlen : s.world.length = C.WORLDDIM_X)
    (hR : R.Uniform) :
    ∃ s', Initialize C M P R s = some s' ∧ s'.world.length = C.WORLDDIM_X
      ∧ ∀ x, x < C.WORLDDIM_X → ∃ p, s'.world[x]? = some p
          ∧ p.newFemales = []
          ∧ (C.INIT_ROWS ≤ x → p.females = [])
          ∧ (x < C.INIT_ROWS → p.females.length = s'.equilibrium_density.toNat
              ∧ (0 ≤ s'.equilibrium_density →
                  (p.females.length : Int) = s'.equilibrium_density)
              ∧ (s'.equilibrium_density < 0 → p.females = [])
              ∧ ∀ ind ∈ p.females, ∃ g : σ, ind.dispRate = toFloat (R.ran g).1
                  ∧ 0 ≤ ind.dispRate ∧ ind.dispRate ≤ 1
                  ∧ ((R.ran g).1 < 1 - 1 / 2 ^ 25 → ind.dispRate < 1)) := by
  obtain ⟨s', hs', hl', heq, hI⟩ :=
    Initialize_loop C M P R
      (fun d => ∃ g : σ, d = toFloat (R.ran g).1 ∧ 0 ≤ d ∧ d ≤ 1
        ∧ ((R.ran g).1 < 1 - 1 / 2 ^ 25 → d < 1))
      (fun g => ⟨g, rfl, (toFloat_unit_interval _ (hR g).1 (le_of_lt (hR g).2)).1,
        (toFloat_unit_interval _ (hR g).1 (le_of_lt (hR g).2)).2,
        fun h => toFloat_lt_one _ (hR g).1 h⟩)
      C.WORLDDIM_X s (by omega)
  refine ⟨s', hs', by omega, ?_⟩
  intro x hx
  obtain ⟨p, hp, h1, h2, h3⟩ := hI x hx
  refine ⟨p, hp, h1, h2, ?_⟩
  intro hlt
  obtain ⟨h4, h5⟩ := h3 hlt
  have h6 : p.females.length = s'.equilibrium_density.toNat := by rw [h4, heq (by omega)]
  refine ⟨h6, ?_, ?_, h5⟩
  · intro hnn
    rw [h6, Int.toNat_of_nonneg hnn]
  · intro hneg
    apply List.length_eq_zero.mp
    rw [h6]
    omega

theorem equilibriumDensity_unitParams : equilibriumDensity testMath unitParams = 1 := by
  have h1 : toFloat (unitParams.lambda_null - 1) = 1 := by
    rw [show unitParams.lambda_null - 1 = 1 by norm_num [unitParams, testParams], toFloat_one]
  have h2 : alpha_lambda_correlation testMath unitParams unitParams.lambda_null = 1 := by
    unfold alpha_lambda_correlation
    rw [show unitParams.alpha0 * testMath.pow unitParams.lambda_null unitParams.lamb_exp = 1 by
      norm_num [unitParams, testParams, testMath], toFloat_one]
  unfold equilibriumDensity
  simp only [h1, h2]
  rw [if_neg (by norm_num), if_neg (by rw [abs_one]; exact not_lt.mpr (le_of_lt FLT_MAX_pos))]
  rw [show (1 : ℚ) / 1 = 1 by norm_num, toFloat_one]
  have := cround_intCast 1
  norm_num at this
  rw [this]
  exact toInt32_of_fits 1 (by norm_num) (by norm_num)

/-- C3 (counterexample): a world of one patch, equilibrium density 1, and the uniform draw
`1 - 2 ^ (-32)`, which lies in `[0,1)`: the allele of the resident that `Initialize` creates
is the `float` nearest to the draw, 1, and so not in `[0,1)`. -/
theorem Initialize_allele_one :
    (0 : ℚ) ≤ 1 - 1 / 2 ^ 32 ∧ (1 : ℚ) - 1 / 2 ^ 32 < 1
      ∧ ∃ s' p, Initialize ⟨1, 1, 1⟩ testMath unitParams (constSource (1 - 1 / 2 ^ 32))
            (globalsOf [⟨[], []⟩] 0) = some s'
          ∧ s'.equilibrium_density = 1
          ∧ s'.world[0]? = some p
          ∧ p.females.length = 1
          ∧ ∀ ind ∈ p.females, ind.dispRate = 1 ∧ ¬ ind.dispRate < 1 := by
  refine ⟨by norm_num, by norm_num, ?_⟩
  have hone : toFloat (1 - 1 / 2 ^ 32) = 1 := by
    rw [toFloat_eval (1 - 1 / 2 ^ 32) (-1) 16777216 (by norm_num) (by norm_num) (by norm_num)
      (by rw [abs_lt]; constructor <;> norm_num)]
    norm_num
  obtain ⟨s', hs', _, heq, hI⟩ :=
    Initialize_loop ⟨1, 1, 1⟩ testMath unitParams (constSource (1 - 1 / 2 ^ 32))
      (fun d => d = 1) (fun _ => hone) 1 (globalsOf [⟨[], []⟩] 0) (by decide)
  obtain ⟨p, hp, _, _, h3⟩ := hI 0 (by decide)
  obtain ⟨h4, h5⟩ := h3 (by decide)
  refine ⟨s', p, hs', ?_, hp, ?_, ?_⟩
  · rw [heq (by decide), equilibriumDensity_unitParams]
  · rw [h4, equilibriumDensity_unitParams]; rfl
  · intro ind hind
    have := h5 ind hind
    exact ⟨this, by rw [this]; norm_num⟩

/-- Witness of C3 (amended): a world of four patches, two of them in the initialisation
area, with fertility 2, competition 1/10 and exponent 1. -/
theorem Initialize_populates_witness :
    ∃ s', Initialize ⟨4, 2, 1⟩ testMath testParams cycleSource
        (globalsOf (List.replicate 4 ⟨[], []⟩) 0) = some s'
      ∧ s'.world.length = 4
      ∧ ∀ x, x < 4 → ∃ p, s'.world[x]? = some p
          ∧ p.newFemales = []
          ∧ (2 ≤ x → p.females = [])
          ∧ (x < 2 → p.females.length = s'.equilibrium_density.toNat
              ∧ ∀ ind ∈ p.females, 0 ≤ ind.dispRate ∧ ind.dispRate ≤ 1) := by
  obtain ⟨s', h1, h2, h3⟩ := Initialize_populates ⟨4, 2, 1⟩ testMath testParams cycleSource
    (globalsOf (List.replicate 4 ⟨[], []⟩) 0) (by decide) cycleSource_uniform
  refine ⟨s', h1, h2, ?_⟩
  intro x hx
  obtain ⟨p, hp, q1, q2, q3⟩ := h3 x hx
  refine ⟨p, hp, q1, q2, ?_⟩
  intro hlt
  obtain ⟨r1, _, _, r4⟩ := q3 hlt
  refine ⟨r1, ?_⟩
  intro ind hind
  obtain ⟨_, _, a, b, _⟩ := r4 ind hind
  exact ⟨a, b⟩

theorem equilibriumDensity_congr (M : CMath) (P P' : Params)
    (h1 : P'.lambda_null = P.lambda_null) (h2 : P'.alpha0 = P.alpha0)
    (h3 : P'.lamb_exp = P.lamb_exp) : equilibriumDensity M P' = equilibriumDensity M P := by
  unfold equilibriumDensity alpha_lambda_correlation
  rw [h1, h2, h3]

theorem cround_five : cround 5 = 5 := by
  have := cround_intCast 5
  norm_num at this
  exact this

theorem toFloat_tenth : toFloat (1 / 10) = 13421773 / 134217728 := by
  rw [toFloat_eval (1 / 10) (-4) 13421773 (by norm_num) (by norm_num) (by norm_num)
    (by rw [abs_lt]; constructor <;> norm_num)]
  norm_num

/-- The equilibrium density of the scenario: fertility 2, competition the `float` nearest
to 1/10, exponent 1 with `pow (2, 1) = 2`. -/
theorem equilibriumDensity_scenario (M : CMath) (P : Params) (h1 : P.lambda_null = 2)
    (h2 : P.alpha0 = toFloat (1 / 10)) (h3 : P.lamb_exp = 1) (h4 : M.pow 2 1 = 2) :
    equilibriumDensity M P = 5 := by
  have hnum : toFloat (P.lambda_null - 1) = 1 := by
    rw [h1, show (2 : ℚ) - 1 = 1 by norm_num, toFloat_one]
  have hden : alpha_lambda_correlation M P P.lambda_null = 13421773 / 67108864 := by
    unfold alpha_lambda_correlation
    rw [h1, h2, h3, h4, toFloat_tenth,
      toFloat_eval (13421773 / 134217728 * 2) (-3) 13421773 (by norm_num) (by norm_num)
        (by norm_num) (by rw [abs_lt]; constructor <;> norm_num)]
    norm_num
  have hq : toFloat (1 / (13421773 / 67108864)) = 5 := by
    rw [toFloat_eval (1 / (13421773 / 67108864)) 2 10485760 (by norm_num) (by norm_num)
      (by norm_num) (by rw [abs_lt]; constructor <;> norm_num)]
    norm_num
  unfold equilibriumDensity
  simp only [hnum, hden]
  rw [if_neg (by norm_num), if_neg (by unfold FLT_MAX; rw [abs_of_pos (by norm_num)]; norm_num),
    hq, cround_five]
  exact toInt32_of_fits 5 (by norm_num) (by norm_num)

theorem equilibriumDensity_roundingParams : equilibriumDensity testMath roundingParams = 3 := by
  have hl : roundingParams.lambda_null - 1 = 10485761 / 4194304 := by
    norm_num [roundingParams, testParams]
  have hnum : toFloat (roundingParams.lambda_null - 1) = 10485761 / 4194304 := by
    rw [hl, toFloat_eval (10485761 / 4194304) 1 10485761 (by norm_num) (by norm_num)
      (by norm_num) (by rw [abs_lt]; constructor <;> norm_num)]
    norm_num
  have hden : alpha_lambda_correlation testMath roundingParams roundingParams.lambda_null
      = 8388609 / 8388608 := by
    unfold alpha_lambda_correlation
    rw [show roundingParams.alpha0
          * testMath.pow roundingParams.lambda_null roundingParams.lamb_exp
        = 8388609 / 8388608 by norm_num [roundingParams, testParams, testMath],
      toFloat_eval (8388609 / 8388608) 0 8388609 (by norm_num) (by norm_num)
        (by norm_num) (by rw [abs_lt]; constructor <;> norm_num)]
    norm_num
  have hq : toFloat (10485761 / 4194304 / (8388609 / 8388608)) = 5 / 2 := by
    rw [toFloat_eval (10485761 / 4194304 / (8388609 / 8388608)) 1 10485760 (by norm_num)
      (by norm_num) (by norm_num) (by rw [abs_lt]; constructor <;> norm_num)]
    norm_num
  have hr : cround (5 / 2) = 3 := by
    unfold cround
    rw [if_pos (by norm_num), Int.floor_eq_iff]
    constructor <;> norm_num
  unfold equilibriumDensity
  simp only [hnum, hden]
  rw [if_neg (by norm_num), if_neg (by unfold FLT_MAX; rw [abs_of_pos (by norm_num)]; norm_num),
    hq, hr]
  exact toInt32_of_fits 3 (by norm_num) (by norm_num)

/-- C4 (counterexample): fertility `7/2 + 2 ^ (-22)`, competition `1 + 2 ^ (-23)` and
exponent 0 (with `pow (x, 0) = 1`) are `float` values; the quotient
`(lambda_null - 1) / (alpha0 * pow (lambda_null, lamb_exp))` is `5/2 - 2 ^ (-24)` up to
`2 ^ (-46)`, and its round is 2; the `float` quotient is `5/2`, and `Initialize` sets the
equilibrium density to 3. -/
theorem equilibrium_density_rounds_up :
    toFloat roundingParams.lambda_null = roundingParams.lambda_null
      ∧ toFloat roundingParams.alpha0 = roundingParams.alpha0
      ∧ toFloat roundingParams.lamb_exp = roundingParams.lamb_exp
      ∧ cround ((roundingParams.lambda_null - 1)
          / (roundingParams.alpha0
              * testMath.pow roundingParams.lambda_null roundingParams.lamb_exp)) = 2
      ∧ ∃ s', Initialize ⟨1, 1, 1⟩ testMath roundingParams cycleSource
            (globalsOf [⟨[], []⟩] 0) = some s'
          ∧ s'.equilibrium_density = 3 := by
  refine ⟨?_, ?_, ?_, ?_, ?_⟩
  · rw [show roundingParams.lambda_null = 14680065 / 4194304 by
        norm_num [roundingParams, testParams],
      toFloat_eval (14680065 / 4194304) 1 14680065 (by norm_num) (by norm_num)
        (by norm_num) (by rw [abs_lt]; constructor <;> norm_num)]
    norm_num
  · rw [show roundingParams.alpha0 = 8388609 / 8388608 by
        norm_num [roundingParams, testParams],
      toFloat_eval (8388609 / 8388608) 0 8388609 (by norm_num) (by norm_num)
        (by norm_num) (by rw [abs_lt]; constructor <;> norm_num)]
    norm_num
  · rw [show roundingParams.lamb_exp = 0 by rfl, toFloat_zero]
  · rw [show (roundingParams.lambda_null - 1)
          / (roundingParams.alpha0
              * testMath.pow roundingParams.lambda_null roundingParams.lamb_exp)
        = 20971522 / 8388609 by norm_num [roundingParams, testParams, testMath]]
    unfold cround
    rw [if_pos (by norm_num), Int.floor_eq_iff]
    constructor <;> norm_num
  · obtain ⟨s', hs', _, heq, _⟩ :=
      Initialize_loop ⟨1, 1, 1⟩ testMath roundingParams cycleSource (fun _ => True)
        (fun _ => trivial) 1 (globalsOf [⟨[], []⟩] 0) (by decide)
    exact ⟨s', hs', by rw [heq (by decide), equilibriumDensity_roundingParams]⟩

/-- C4 (amended): the equilibrium density that `Initialize` sets is
`round ((lambda_null - 1) / (alpha0 * pow (lambda_null, lamb_exp)))` computed in single
precision and converted to a 32-bit `int` (`INT_MIN` for a divisor 0 and for a value that
does not fit, 0 for a divisor that has overflowed), whatever the world and the draws: any
run of `Initialize` with the same three parameters sets the same value. It is the round of
the exact quotient when the subtraction, the product and the quotient are exact in single
precision, the divisor is neither 0 nor beyond the finite range, and the round fits an
`int`. For `lambda_null = 2`, `alpha0` the `float` nearest to 1/10 and `lamb_exp = 1` (with
`pow (2, 1) = 2`) it is 5. -/
theorem Initialize_equilibrium_density {σ : Type} (C : Consts) (M : CMath) (P : Params)
    (R : RandomSource σ) (s : Globals σ) (hlen : s.world.length = C.WORLDDIM_X)
    (hW : 0 < C.WORLDDIM_X) :
    ∃ s', Initialize C M P R s = some s'
      ∧ s'.equilibrium_density
          = (if toFloat (P.alpha0 * M.pow P.lambda_null P.lamb_exp) = 0 then INT_MIN
            else if FLT_MAX < |toFloat (P.alpha0 * M.pow P.lambda_null P.lamb_exp)| then 0
            else toInt32 (cround (toFloat (toFloat (P.lambda_null - 1)
                    / toFloat (P.alpha0 * M.pow P.lambda_null P.lamb_exp)))))
      ∧ (∀ (τ : Type) (P' : Params) (R' : RandomSource τ) (t : Globals τ),
          t.world.length = C.WORLDDIM_X → P'.lambda_null = P.lambda_null →
          P'.alpha0 = P.alpha0 → P'.lamb_exp = P.lamb_exp →
          ∃ t', Initialize C M P' R' t = some t'
            ∧ t'.equilibrium_density = s'.equilibrium_density)
      ∧ (toFloat (P.lambda_null - 1) = P.lambda_null - 1 →
          toFloat (P.alpha0 * M.pow P.lambda_null P.lamb_exp)
            = P.alpha0 * M.pow P.lambda_null P.lamb_exp →
          toFloat ((P.lambda_null - 1) / (P.alpha0 * M.pow P.lambda_null P.lamb_exp))
            = (P.lambda_null - 1) / (P.alpha0 * M.pow P.lambda_null P.lamb_exp) →
          P.alpha0 * M.pow P.lambda_null P.lamb_exp ≠ 0 →
          |P.alpha0 * M.pow P.lambda_null P.lamb_exp| ≤ FLT_MAX →
          INT_MIN ≤ cround ((P.lambda_null - 1) / (P.alpha0 * M.pow P.lambda_null P.lamb_exp)) →
          cround ((P.lambda_null - 1) / (P.alpha0 * M.pow P.lambda_null P.lamb_exp))
            ≤ 2147483647 →
          s'.equilibrium_density
            = cround ((P.lambda_null - 1) / (P.alpha0 * M.pow P.lambda_null P.lamb_exp)))
      ∧ (P.lambda_null = 2 → P.alpha0 = toFloat (1 / 10) → P.lamb_exp = 1 → M.pow 2 1 = 2 →
          s'.equilibrium_density = 5) := by
  obtain ⟨s', hs', _, heq, _⟩ :=
    Initialize_loop C M P R (fun _ => True) (fun _ => trivial) C.WORLDDIM_X s (by omega)
  have he := heq hW
  refine ⟨s', hs', by rw [he]; rfl, ?_, ?_, ?_⟩
  · intro τ P' R' t ht h1 h2 h3
    obtain ⟨t', ht', _, hteq, _⟩ :=
      Initialize_loop C M P' R' (fun _ => True) (fun _ => trivial) C.WORLDDIM_X t (by omega)
    exact ⟨t', ht', by rw [hteq hW, he, equilibriumDensity_congr M P P' h1 h2 h3]⟩
  · intro e1 e2 e3 hne hfin hlo hhi
    rw [he]
    unfold equilibriumDensity alpha_lambda_correlation
    simp only [e1, e2]
    rw [if_neg hne, if_neg (not_lt.mpr hfin), e3]
    unfold toInt32
    rw [if_pos ⟨hlo, hhi⟩]
  · intro h1 h2 h3 h4
    rw [he]
    exact equilibriumDensity_scenario M P h1 h2 h3 h4

/-- Witness of C4 (amended): the parameters of the scenario on a world of four patches,
and parameters for which the three `float` operations are exact. -/
theorem Initialize_equilibrium_density_witness :
    (∃ s', Initialize ⟨4, 2, 1⟩ testMath scenarioParams cycleSource
        (globalsOf (List.replicate 4 ⟨[], []⟩) 0) = some s'
      ∧ s'.equilibrium_density = 5)
    ∧ (∃ s', Initialize ⟨4, 2, 1⟩ testMath unitParams cycleSource
        (globalsOf (List.replicate 4 ⟨[], []⟩) 0) = some s'
      ∧ s'.equilibrium_density
          = cround ((unitParams.lambda_null - 1)
              / (unitParams.alpha0
                  * testMath.pow unitParams.lambda_null unitParams.lamb_exp))) := by
  constructor
  · obtain ⟨s', h1, _, _, _, h3⟩ := Initialize_equilibrium_density ⟨4, 2, 1⟩ testMath
      scenarioParams cycleSource (globalsOf (List.replicate 4 ⟨[], []⟩) 0) (by decide)
      (by decide)
    exact ⟨s', h1, h3 rfl rfl rfl (by norm_num [testMath])⟩
  · obtain ⟨s', h1, _, _, h2, _⟩ := Initialize_equilibrium_density ⟨4, 2, 1⟩ testMath
      unitParams cycleSource (globalsOf (List.replicate 4 ⟨[], []⟩) 0) (by decide)
      (by decide)
    have e1 : unitParams.lambda_null - 1 = 1 := by norm_num [unitParams, testParams]
    have e2 : unitParams.alpha0 * testMath.pow unitParams.lambda_null unitParams.lamb_exp
        = 1 := by norm_num [unitParams, testParams, testMath]
    have hc : cround ((1 : ℚ) / 1) = 1 := by
      have := cround_intCast 1
      norm_num at this ⊢
      exact this
    refine ⟨s', h1, h2 ?_ ?_ ?_ ?_ ?_ ?_ ?_⟩
    · rw [e1, toFloat_one]
    · rw [e2, toFloat_one]
    · rw [e1, e2]; norm_num [toFloat_one]
    · rw [e2]; norm_num
    · rw [e2, abs_one]; exact le_of_lt FLT_MAX_pos
    · rw [e1, e2, hc]; unfold INT_MIN; norm_num
    · rw [e1, e2, hc]; norm_num

/-! ### Patch loops -/

/-- The rule of a patch loop whose pass `x` replaces patch `x` only: the loop over the
first `n` patches has a result, keeps the number of patches, leaves the patches from `n` on
as they were, and takes each patch below `n` from its value before the loop to a value
related to it by `Post`. -/
theorem patchLoop_rule {σ : Type} (body : Nat → Globals σ → Option (Globals σ))
    (Post : Nat → TPatch → TPatch → Prop)
    (hbody : ∀ x s p, s.world[x]? = some p →
      ∃ s' p', body x s = some s' ∧ s'.world = s.world.set x p' ∧ Post x p p')
    (n : Nat) (s : Globals σ) (hn : n ≤ s.world.length) :
    ∃ s', forRange n body s = some s' ∧ s'.world.length = s.world.length
      ∧ (∀ x, n ≤ x → s'.world[x]? = s.world[x]?)
      ∧ (∀ x p, x < n → s.world[x]? = some p →
          ∃ p', s'.world[x]? = some p' ∧ Post x p p') := by
  refine forRange_rule
    (fun k (t : Globals σ) => t.world.length = s.world.length
      ∧ (∀ x, k ≤ x → t.world[x]? = s.world[x]?)
      ∧ (∀ x p, x < k → s.world[x]? = some p →
          ∃ p', t.world[x]? = some p' ∧ Post x p p'))
    body n s ⟨rfl, fun _ _ => rfl, fun x _ hx => absurd hx (Nat.not_lt_zero x)⟩ ?_
  intro k t hk ⟨htl, hrest, hprev⟩
  have hkl : k < t.world.length := by omega
  obtain ⟨t', p', ht', hw, hpost⟩ := hbody k t t.world[k] (List.getElem?_eq_getElem hkl)
  refine ⟨t', ht', by rw [hw, List.length_set]; exact htl, ?_, ?_⟩
  · intro x hx
    rw [hw, List.getElem?_set_ne (by omega)]
    exact hrest x (by omega)
  · intro x p hx hp
    by_cases hxk : x = k
    · subst hxk
      refine ⟨p', by rw [hw]; exact List.getElem?_set_self hkl, ?_⟩
      have e : t.world[x] = p := by
        have h1 := hrest x (Nat.le_refl x)
        rw [hp, List.getElem?_eq_getElem hkl] at h1
        exact Option.some.inj h1
      rw [← e]; exact hpost
    · obtain ⟨q, hq, hq1⟩ := hprev x p (by omega) hp
      exact ⟨q, by rw [hw, List.getElem?_set_ne (by omega)]; exact hq, hq1⟩

/-! ### Death -/

/-- One pass of the patch loop of `Death`: the new patch is decided by the size of the
staging buffer and by one uniform draw. -/
theorem deathPatch_spec {σ : Type} (P : Params) (R : RandomSource σ) (x : Nat) (s : Globals σ)
    (p : TPatch) (hp : s.world[x]? = some p) :
    ∃ s' p', deathPatch P R x s = some s' ∧ s'.world = s.world.set x p'
      ∧ ∃ g : σ, p' =
          if 0 < p.newFemales.length then
            (if (R.ran g).1 > P.epsilon then ⟨p.newFemales, []⟩ else ⟨[], []⟩)
          else ⟨[], p.newFemales⟩ := by
  by_cases h0 : 0 < p.newFemales.length
  · have h0' : ((p.newFemales.length : Int) > 0) := by exact_mod_cast h0
    by_cases hu : (R.ran s.rng).1 > P.epsilon
    · exact ⟨_, _, by simp only [deathPatch, hp, h0', hu, if_true]; rfl, rfl, s.rng,
        by rw [if_pos h0, if_pos hu, appendAll_eq]; rfl⟩
    · exact ⟨_, _, by simp only [deathPatch, hp, h0', hu, if_true, if_false]; rfl, rfl, s.rng,
        by rw [if_pos h0, if_neg hu]⟩
  · have h0' : ¬ ((p.newFemales.length : Int) > 0) := by
      intro h; exact h0 (by exact_mod_cast h)
    exact ⟨_, _, by simp only [deathPatch, hp, h0', if_false]; rfl, rfl, s.rng,
      by rw [if_neg h0]⟩

/-- The loop of `Death` over an active range within the world. -/
theorem Death_loop {σ : Type} (P : Params) (R : RandomSource σ) (act : Int) (s : Globals σ)
    (hact : act.toNat ≤ s.world.length) :
    ∃ s', Death P R act s = some s' ∧ s'.world.length = s.world.length
      ∧ (∀ x, act.toNat ≤ x → s'.world[x]? = s.world[x]?)
      ∧ (∀ x p, x < act.toNat → s.world[x]? = some p →
          ∃ p', s'.world[x]? = some p' ∧ ∃ g : σ, p' =
            if 0 < p.newFemales.length then
              (if (R.ran g).1 > P.epsilon then ⟨p.newFemales, []⟩ else ⟨[], []⟩)
            else ⟨[], p.newFemales⟩) :=
  patchLoop_rule (deathPatch P R) _ (fun x s p hp => deathPatch_spec P R x s p hp)
    act.toNat s hact

/-- C6 (counterexample): a world of two patches whose second patch, outside the active
width 1, holds a staged individual: after `Death` that staging buffer is still not empty. -/
theorem Death_leaves_inactive_staging :
    (Death testParams cycleSource 1 (globalsOf [⟨[], []⟩, ⟨[], [testIndiv]⟩] 0)).map
      (fun s => s.world) = some [⟨[], []⟩, ⟨[], [testIndiv]⟩] := by
  simp [Death, forRange, deathPatch, globalsOf]

/-- C6 (amended): after `Death`, for every world, every active width within the world and
every stream of draws, every patch below the active width has an empty staging buffer and
every other patch is unchanged; so when the staging buffers from the active width on were
empty before, every patch of the world has an empty staging buffer. -/
theorem Death_clears_staging {σ : Type} (P : Params) (R : RandomSource σ) (act : Int)
    (s : Globals σ) (hact : act ≤ (s.world.length : Int)) :
    ∃ s', Death P R act s = some s' ∧ s'.world.length = s.world.length
      ∧ (∀ x : Nat, (x : Int) < act → ∃ p', s'.world[x]? = some p' ∧ p'.newFemales = [])
      ∧ (∀ x : Nat, act ≤ (x : Int) → s'.world[x]? = s.world[x]?)
      ∧ ((∀ (x : Nat) (p : TPatch), act ≤ (x : Int) → s.world[x]? = some p → p.newFemales = [])
          → ∀ p' ∈ s'.world, p'.newFemales = []) := by
  obtain ⟨s', hs', hlen, hrest, hact'⟩ := Death_loop P R act s (by omega)
  have hA : ∀ x : Nat, (x : Int) < act → ∃ p', s'.world[x]? = some p' ∧ p'.newFemales = [] := by
    intro x hx
    have hxl : x < s.world.length := by omega
    obtain ⟨p', hp', g, hg⟩ := hact' x s.world[x] (by omega) (List.getElem?_eq_getElem hxl)
    refine ⟨p', hp', ?_⟩
    rw [hg]
    split_ifs with h1 h2
    · rfl
    · rfl
    · simpa using h1
  have hB : ∀ x : Nat, act ≤ (x : Int) → s'.world[x]? = s.world[x]? :=
    fun x hx => hrest x (by omega)
  refine ⟨s', hs', hlen, hA, hB, ?_⟩
  intro hempty p' hp'
  obtain ⟨x, hx, hxp⟩ := List.mem_iff_getElem.mp hp'
  have hsome : s'.world[x]? = some p' := by rw [List.getElem?_eq_getElem hx, hxp]
  by_cases hlt : (x : Int) < act
  · obtain ⟨q, hq, hq1⟩ := hA x hlt
    rw [hsome] at hq
    rw [Option.some.inj hq]; exact hq1
  · rw [hB x (by omega)] at hsome
    exact hempty x p' (by omega) hsome

/-- Witness of C6 (amended): the world of the counterexample, active width 1. -/
theorem Death_clears_staging_witness :
    ∃ s', Death testParams cycleSource 1 (globalsOf [⟨[], []⟩, ⟨[], [testIndiv]⟩] 0) = some s'
      ∧ s'.world.length = (globalsOf [⟨[], []⟩, ⟨[], [testIndiv]⟩] 0).world.length
      ∧ (∀ x : Nat, (x : Int) < 1 → ∃ p', s'.world[x]? = some p' ∧ p'.newFemales = [])
      ∧ (∀ x : Nat, 1 ≤ (x : Int) →
          s'.world[x]? = (globalsOf [⟨[], []⟩, ⟨[], [testIndiv]⟩] 0).world[x]?)
      ∧ ((∀ (x : Nat) (p : TPatch), 1 ≤ (x : Int) →
            (globalsOf [⟨[], []⟩, ⟨[], [testIndiv]⟩] 0).world[x]? = some p → p.newFemales = [])
          → ∀ p' ∈ s'.world, p'.newFemales = []) :=
  Death_clears_staging testParams cycleSource 1 (globalsOf [⟨[], []⟩, ⟨[], [testIndiv]⟩] 0)
    (by decide)

/-- C7: with `epsilon = 1`, for every world, every active width within the world and every
stream of uniform draws in `[0,1)`, after `Death` every active patch has no residents, in
particular every active patch that had offspring in its staging buffer, whatever their
number. -/
theorem Death_extinction_certain {σ : Type} (P : Params) (R : RandomSource σ) (act : Int)
    (s : Globals σ) (hact : act ≤ (s.world.length : Int)) (heps : P.epsilon = 1)
    (hR : R.Uniform) :
    ∃ s', Death P R act s = some s'
      ∧ ∀ (x : Nat) (p : TPatch), (x : Int) < act → s.world[x]? = some p →
          ∃ p', s'.world[x]? = some p' ∧ p'.females = []
            ∧ (p.newFemales ≠ [] → p'.females = []) := by
  obtain ⟨s', hs', _, _, hact'⟩ := Death_loop P R act s (by omega)
  refine ⟨s', hs', ?_⟩
  intro x p hx hp
  obtain ⟨p', hp', g, hg⟩ := hact' x p (by omega) hp
  have hno : ¬ ((R.ran g).1 > P.epsilon) := by
    rw [heps]; exact not_lt.mpr (le_of_lt (hR g).2)
  have hf : p'.females = [] := by
    rw [hg]
    split_ifs <;> rfl
  exact ⟨p', hp', hf, fun _ => hf⟩

/-- Witness of C7: a patch with two offspring, extinction probability 1. -/
theorem Death_extinction_certain_witness :
    ∃ s', Death { testParams with epsilon := 1 } cycleSource 1
        (globalsOf [⟨[testIndiv], [testIndiv, testIndiv]⟩] 0) = some s'
      ∧ ∀ (x : Nat) (p : TPatch), (x : Int) < 1 →
          (globalsOf [⟨[testIndiv], [testIndiv, testIndiv]⟩] 0).world[x]? = some p →
          ∃ p', s'.world[x]? = some p' ∧ p'.females = []
            ∧ (p.newFemales ≠ [] → p'.females = []) :=
  Death_extinction_certain { testParams with epsilon := 1 } cycleSource 1
    (globalsOf [⟨[testIndiv], [testIndiv, testIndiv]⟩] 0) (by decide) rfl cycleSource_uniform

/-- C8 (counterexample): with `epsilon = 0` and the uniform draw 0, which lies in `[0,1)`,
the test `ran() > epsilon` fails: a patch with one offspring in its staging buffer has no
residents after `Death`. -/
theorem Death_draw_zero_extinct :
    testParams.epsilon = 0
      ∧ (0 : ℚ) ≤ ((constSource 0).ran 0).1 ∧ ((constSource 0).ran 0).1 < 1
      ∧ (Death testParams (constSource 0) 1 (globalsOf [⟨[], [testIndiv]⟩] 0)).map
          (fun s => s.world) = some [⟨[], []⟩] := by
  refine ⟨rfl, ?_, ?_, ?_⟩
  · simp [constSource]
  · simp [constSource]
  · simp [Death, forRange, deathPatch, globalsOf, constSource, testParams]

/-- C8 (amended): with `epsilon = 0`, for every world, every active width within the world
and every stream of strictly positive draws, after `Death` each active patch whose staging
buffer was not empty has that buffer as its residents. -/
theorem Death_no_extinction {σ : Type} (P : Params) (R : RandomSource σ) (act : Int)
    (s : Globals σ) (hact : act ≤ (s.world.length : Int)) (heps : P.epsilon = 0)
    (hpos : ∀ g : σ, 0 < (R.ran g).1) :
    ∃ s', Death P R act s = some s'
      ∧ ∀ (x : Nat) (p : TPatch), (x : Int) < act → s.world[x]? = some p →
          p.newFemales ≠ [] → ∃ p', s'.world[x]? = some p' ∧ p'.females = p.newFemales := by
  obtain ⟨s', hs', _, _, hact'⟩ := Death_loop P R act s (by omega)
  refine ⟨s', hs', ?_⟩
  intro x p hx hp hne
  obtain ⟨p', hp', g, hg⟩ := hact' x p (by omega) hp
  have h0 : 0 < p.newFemales.length := List.length_pos.mpr hne
  have hu : (R.ran g).1 > P.epsilon := by rw [heps]; exact hpos g
  refine ⟨p', hp', ?_⟩
  rw [hg, if_pos h0, if_pos hu]

/-- Witness of C8 (amended): every draw is 1/2. -/
theorem Death_no_extinction_witness :
    ∃ s', Death testParams (constSource (1 / 2)) 1 (globalsOf [⟨[], [testIndiv]⟩] 0) = some s'
      ∧ ∀ (x : Nat) (p : TPatch), (x : Int) < 1 →
          (globalsOf [⟨[], [testIndiv]⟩] 0).world[x]? = some p →
          p.newFemales ≠ [] → ∃ p', s'.world[x]? = some p' ∧ p'.females = p.newFemales :=
  Death_no_extinction testParams (constSource (1 / 2)) 1 (globalsOf [⟨[], [testIndiv]⟩] 0)
    (by decide) rfl (fun _ => by norm_num [constSource])

/-! ### Dispersal -/

/-- Removal by swapping with the last element: the vector before is the removed element
together with the vector after, up to order. -/
theorem swapRemove_perm (females : List TIndiv) (f : Nat) (hf : f < females.length) :
    List.Perm (females[f] :: swapRemove females f) females := by
  rcases List.eq_nil_or_concat females with h | ⟨front, b, h⟩
  · subst h; simp at hf
  · rw [List.concat_eq_append] at h
    subst h
    have hlast : (front ++ [b]).getLast? = some b := List.getLast?_concat front
    by_cases hlt : f < front.length
    · have e1 : swapRemove (front ++ [b]) f = front.set f b := by
        simp only [swapRemove, hlast]
        rw [List.set_append_left f b hlt, List.dropLast_concat]
      have e2 : (front ++ [b])[f] = front[f] := List.getElem_append_left hlt
      rw [e1, e2, List.perm_iff_count]
      intro a
      have e3 : front.set f b = front.take f ++ b :: front.drop (f + 1) := by
        rw [List.set_eq_take_append_cons_drop, if_pos hlt]
      have e4 : front = front.take f ++ front[f] :: front.drop (f + 1) := by
        rw [List.getElem_cons_drop, List.take_append_drop]
      rw [e3]
      conv_rhs => rw [e4]
      simp only [List.count_cons, List.count_append, List.count_nil]
      omega
    · have hfe : f = front.length := by simp at hf; omega
      subst hfe
      have e1 : swapRemove (front ++ [b]) front.length = front := by
        simp only [swapRemove, hlast]
        rw [List.set_append_right front.length b (Nat.le_refl _)]
        simp
      have e2 : (front ++ [b])[front.length] = b := by simp
      rw [e1, e2]
      exact (List.perm_append_singleton b front).symm

theorem femalesAt_set (w : List TPatch) (i : Nat) (q : TPatch) (hi : i < w.length) (y : Nat) :
    femalesAt (w.set i q) y = if y = i then q.females else femalesAt w y := by
  unfold femalesAt
  by_cases h : y = i
  · subst h; rw [List.getElem?_set_self hi, if_pos rfl]
  · rw [List.getElem?_set_ne (fun e => h e.symm), if_neg h]

theorem newFemalesAt_set (w : List TPatch) (i : Nat) (q : TPatch) (hi : i < w.length)
    (y : Nat) :
    newFemalesAt (w.set i q) y = if y = i then q.newFemales else newFemalesAt w y := by
  unfold newFemalesAt
  by_cases h : y = i
  · subst h; rw [List.getElem?_set_self hi, if_pos rfl]
  · rw [List.getElem?_set_ne (fun e => h e.symm), if_neg h]

theorem femalesAt_of_some (w : List TPatch) (y : Nat) (p : TPatch) (h : w[y]? = some p) :
    femalesAt w y = p.females := by
  simp [femalesAt, h]

theorem newFemalesAt_of_some (w : List TPatch) (y : Nat) (p : TPatch)
    (h : w[y]? = some p) : newFemalesAt w y = p.newFemales := by
  simp [newFemalesAt, h]

/-- Two worlds of the same size agree at an index where residents and staging agree. -/
theorem patch_eq_of_at (w w' : List TPatch) (y : Nat) (hl : w'.length = w.length)
    (hf : femalesAt w' y = femalesAt w y) (hn : newFemalesAt w' y = newFemalesAt w y) :
    w'[y]? = w[y]? := by
  by_cases hy : y < w.length
  · have hy' : y < w'.length := by omega
    simp only [femalesAt, newFemalesAt, List.getElem?_eq_getElem hy,
      List.getElem?_eq_getElem hy'] at hf hn ⊢
    congr 1
    cases h1 : w'[y]; cases h2 : w[y]
    simp_all
  · have hy' : ¬ y < w'.length := by omega
    rw [List.getElem?_eq_none (by omega), List.getElem?_eq_none (by omega)]

theorem pushNewFemale_spec (w w1 : List TPatch) (i : Int) (d : TIndiv)
    (h : pushNewFemale w i d = some w1) :
    0 ≤ i ∧ i.toNat < w.length ∧ w1.length = w.length
      ∧ (∀ y, femalesAt w1 y = femalesAt w y)
      ∧ (∀ y, newFemalesAt w1 y
          = if y = i.toNat then newFemalesAt w y ++ [d] else newFemalesAt w y) := by
  unfold pushNewFemale at h
  by_cases hneg : i < 0
  · rw [if_pos hneg] at h; exact absurd h (by simp)
  · rw [if_neg hneg] at h
    cases hp : w[i.toNat]? with
    | none => rw [hp] at h; exact absurd h (by simp)
    | some p =>
      rw [hp] at h
      have hw : w1 = w.set i.toNat ⟨p.females, p.newFemales ++ [d]⟩ := (Option.some.inj h).symm
      have hil : i.toNat < w.length := (List.getElem?_eq_some_iff.mp hp).1
      refine ⟨by omega, hil, by rw [hw, List.length_set], ?_, ?_⟩
      · intro y
        rw [hw, femalesAt_set w _ _ hil]
        by_cases hy : y = i.toNat
        · rw [if_pos hy, hy, femalesAt_of_some w _ p hp]
        · rw [if_neg hy]
      · intro y
        rw [hw, newFemalesAt_set w _ _ hil]
        by_cases hy : y = i.toNat
        · rw [if_pos hy, if_pos hy, hy, newFemalesAt_of_some w _ p hp]
        · rw [if_neg hy, if_neg hy]

theorem pushNewFemale_some (w : List TPatch) (i : Int) (d : TIndiv) (h0 : 0 ≤ i)
    (h1 : i.toNat < w.length) : ∃ w1, pushNewFemale w i d = some w1 := by
  unfold pushNewFemale
  rw [if_neg (by omega), List.getElem?_eq_getElem h1]
  exact ⟨_, rfl⟩

theorem removeFemale_spec (w w2 : List TPatch) (x f : Nat) (h : removeFemale w x f = some w2) :
    w2.length = w.length
      ∧ (∀ y, femalesAt w2 y = if y = x then swapRemove (femalesAt w x) f else femalesAt w y)
      ∧ (∀ y, newFemalesAt w2 y = newFemalesAt w y) := by
  unfold removeFemale at h
  cases hp : w[x]? with
  | none => rw [hp] at h; exact absurd h (by simp)
  | some p =>
    rw [hp] at h
    have hw : w2 = w.set x ⟨swapRemove p.females f, p.newFemales⟩ := (Option.some.inj h).symm
    have hil : x < w.length := (List.getElem?_eq_some_iff.mp hp).1
    refine ⟨by rw [hw, List.length_set], ?_, ?_⟩
    · intro y
      rw [hw, femalesAt_set w _ _ hil, femalesAt_of_some w _ p hp]
    · intro y
      rw [hw, newFemalesAt_set w _ _ hil]
      by_cases hy : y = x
      · rw [if_pos hy, hy, newFemalesAt_of_some w _ p hp]
      · rw [if_neg hy]

theorem removeFemale_some (w : List TPatch) (x f : Nat) (hx : x < w.length) :
    ∃ w2, removeFemale w x f = some w2 := by
  unfold removeFemale
  rw [List.getElem?_eq_getElem hx]
  exact ⟨_, rfl⟩
/-- One pass of the resident loop of `Dispersal` on an active patch within the world, at a
position below the size of the patch: the pass has a result; either the resident stays
(nothing but the generator changes, the loop moves to the next position) or it emigrates
(the loop examines the same position again). -/
theorem dispersalIndividual_spec {σ : Type} (C : Consts) (P : Params) (R : RandomSource σ)
    (hR : R.Uniform) (mp : Int) (x : Nat) (act : Int) (f : Nat) (st : DispState σ)
    (hx : (x : Int) < act) (hact : act ≤ (st.world.length : Int))
    (hf : f < (femalesAt st.world x).length) :
    ∃ ind st' f', (femalesAt st.world x)[f]? = some ind
      ∧ dispersalIndividual C P R mp x act f st = some (st', f')
      ∧ ((¬ ((R.ran st.rng).1 < ind.dispRate) ∧ f' = f + 1
            ∧ st' = { st with rng := (R.ran st.rng).2 })
          ∨ (f' = f ∧ EmigrationStep C P R mp x act ind f st st')) := by
  have hxl : x < st.world.length := by omega
  have hp : st.world[x]? = some st.world[x] := List.getElem?_eq_getElem hxl
  have hfa : femalesAt st.world x = st.world[x].females := femalesAt_of_some _ _ _ hp
  rw [hfa] at hf
  have hind : st.world[x].females[f]? = some st.world[x].females[f] :=
    List.getElem?_eq_getElem hf
  refine ⟨st.world[x].females[f], ?_⟩
  rw [hfa]
  by_cases hu : (R.ran st.rng).1 < st.world[x].females[f].dispRate
  · by_cases hv : (R.ran (R.ran st.rng).2).1 > P.mu0
    · obtain ⟨r, hr, hr0, hr1⟩ := findNewPatch_range C R (x : Int) act (R.ran (R.ran st.rng).2).2
        (by omega) hx (hR _)
      obtain ⟨w1, hw1⟩ := pushNewFemale_some st.world r st.world[x].females[f] hr0 (by omega)
      obtain ⟨_, _, hl1, hf1, hn1⟩ := pushNewFemale_spec _ _ _ _ hw1
      obtain ⟨w2, hw2⟩ := removeFemale_some w1 x f (by omega)
      obtain ⟨hl2, hf2, hn2⟩ := removeFemale_spec _ _ _ _ hw2
      refine ⟨{ st with
          world := w2, rng := (R.ran (R.ran (R.ran st.rng).2).2).2,
          no_emigrants_core :=
            if x < C.CM_AREA then st.no_emigrants_core + 1 else st.no_emigrants_core,
          no_emigrants_margin :=
            if (x : Int) ≥ mp - (C.CM_AREA : Int) then st.no_emigrants_margin + 1
            else st.no_emigrants_margin }, f, hind, ?_, Or.inr ⟨rfl, ?_⟩⟩
      · simp only [dispersalIndividual, hp, hind, hu, hv, if_true, hr, hw1, hw2]
      · refine ⟨by simp only; omega, hu, rfl, rfl, rfl, rfl, ?_, Or.inr ⟨hv, r.toNat, by omega, ?_⟩⟩
        · intro y
          show femalesAt w2 y = _
          rw [hf2 y, hf1 x, hf1 y, hfa]
        · intro y
          show newFemalesAt w2 y = _
          rw [hn2 y, hn1 y]
    · obtain ⟨w2, hw2⟩ := removeFemale_some st.world x f hxl
      obtain ⟨hl2, hf2, hn2⟩ := removeFemale_spec _ _ _ _ hw2
      refine ⟨{ st with
          world := w2, rng := (R.ran (R.ran st.rng).2).2,
          no_emigrants_core :=
            if x < C.CM_AREA then st.no_emigrants_core + 1 else st.no_emigrants_core,
          no_emigrants_margin :=
            if (x : Int) ≥ mp - (C.CM_AREA : Int) then st.no_emigrants_margin + 1
            else st.no_emigrants_margin }, f, hind, ?_, Or.inr ⟨rfl, ?_⟩⟩
      · simp only [dispersalIndividual, hp, hind, hu, hv, if_true, if_false, hw2]
      · refine ⟨hl2, hu, rfl, rfl, rfl, rfl, ?_, Or.inl ⟨hv, ?_⟩⟩
        · intro y
          show femalesAt w2 y = _
          rw [hf2 y, hfa]
        · intro y
          show newFemalesAt w2 y = _
          rw [hn2 y]
  · refine ⟨{ st with rng := (R.ran st.rng).2 }, f + 1, hind, ?_, Or.inl ⟨hu, rfl, rfl⟩⟩
    simp only [dispersalIndividual, hp, hind, hu, if_false]
theorem swapRemove_length (females : List TIndiv) (f : Nat) (hf : f < females.length) :
    (swapRemove females f).length + 1 = females.length := by
  have h := (swapRemove_perm females f hf).length_eq
  simpa using h

/-- The rule of the resident loop of `Dispersal` on an active patch `x` within the world:
with a budget of at least the residents still to examine, the loop has a result, keeps the
number of patches, and every relation between states that is reflexive, transitive and
holds across a pass holds between the state before and the state after. -/
theorem dispersalFemales_rule {σ : Type} (C : Consts) (P : Params) (R : RandomSource σ)
    (hR : R.Uniform) (mp : Int) (x : Nat) (act : Int) (hx : (x : Int) < act)
    (Rel : DispState σ → DispState σ → Prop) (hrefl : ∀ a, Rel a a)
    (htrans : ∀ a b c, Rel a b → Rel b c → Rel a c)
    (hstay : ∀ (st : DispState σ) (ind : TIndiv) (f : Nat),
      (femalesAt st.world x)[f]? = some ind → ¬ ((R.ran st.rng).1 < ind.dispRate) →
      Rel st { st with rng := (R.ran st.rng).2 })
    (hemi : ∀ (st st' : DispState σ) (ind : TIndiv) (f : Nat),
      (femalesAt st.world x)[f]? = some ind → EmigrationStep C P R mp x act ind f st st' →
      Rel st st') :
    ∀ (fuel f : Nat) (st : DispState σ), act ≤ (st.world.length : Int) →
      (femalesAt st.world x).length ≤ fuel + f →
      ∃ st', dispersalFemales C P R mp x act fuel f st = some st'
        ∧ st'.world.length = st.world.length ∧ Rel st st' := by
  intro fuel
  induction fuel with
  | zero =>
    intro f st hact hfuel
    have hxl : x < st.world.length := by omega
    have hp : st.world[x]? = some st.world[x] := List.getElem?_eq_getElem hxl
    have hfa : femalesAt st.world x = st.world[x].females := femalesAt_of_some _ _ _ hp
    have hnot : ¬ f < st.world[x].females.length := by rw [← hfa]; omega
    refine ⟨st, ?_, rfl, hrefl st⟩
    rw [dispersalFemales]
    simp only [hp, hnot, if_false]
  | succ n ih =>
    intro f st hact hfuel
    have hxl : x < st.world.length := by omega
    have hp : st.world[x]? = some st.world[x] := List.getElem?_eq_getElem hxl
    have hfa : femalesAt st.world x = st.world[x].females := femalesAt_of_some _ _ _ hp
    by_cases hf : f < st.world[x].females.length
    · obtain ⟨ind, st1, f1, hind, hstep, hcase⟩ :=
        dispersalIndividual_spec C P R hR mp x act f st hx hact (by rw [hfa]; exact hf)
      have key : ∃ st', dispersalFemales C P R mp x act n f1 st1 = some st'
          ∧ st'.world.length = st.world.length ∧ Rel st st' := by
        rcases hcase with ⟨hno, hf1, hst1⟩ | ⟨hf1, hE⟩
        · rw [hf1, hst1]
          obtain ⟨st', h1, h2, h3⟩ := ih (f + 1) { st with rng := (R.ran st.rng).2 } hact
            (by simp only; omega)
          exact ⟨st', h1, h2, htrans _ _ _ (hstay st ind f hind hno) h3⟩
        · rw [hf1]
          have hlen1 : st1.world.length = st.world.length := hE.1
          have hfem : femalesAt st1.world x = swapRemove (femalesAt st.world x) f := by
            have h := hE.2.2.2.2.2.2.1 x
            rw [if_pos rfl] at h; exact h
          have hsz := swapRemove_length (femalesAt st.world x) f (by rw [hfa]; exact hf)
          obtain ⟨st', h1, h2, h3⟩ := ih f st1 (by omega) (by rw [hfem]; omega)
          exact ⟨st', h1, by omega, htrans _ _ _ (hemi st st1 ind f hind hE) h3⟩
      obtain ⟨st', h1, h2, h3⟩ := key
      refine ⟨st', ?_, h2, h3⟩
      rw [dispersalFemales]
      simp only [hp, hf, if_true, hstep, h1]
    · refine ⟨st, ?_, rfl, hrefl st⟩
      rw [dispersalFemales]
      simp only [hp, hf, if_false]
/-- The rule of the emigration loop of `Dispersal` over an active range within the world:
the loop has a result, keeps the number of patches, and every relation between states that
is reflexive, transitive and holds across the counting of a patch, across a pass in which
the resident stays and across a pass in which it emigrates, holds between the state before
and the state after. -/
theorem dispersalSweep_rule {σ : Type} (C : Consts) (P : Params) (R : RandomSource σ)
    (hR : R.Uniform) (act : Int) (s : Globals σ) (hact : act ≤ (s.world.length : Int))
    (Rel : DispState σ → DispState σ → Prop) (hrefl : ∀ a, Rel a a)
    (htrans : ∀ a b c, Rel a b → Rel b c → Rel a c)
    (hcount : ∀ (st : DispState σ) (x : Nat), (x : Int) < act →
      Rel st { st with
        metapopsize_core :=
          if x < C.CM_AREA then st.metapopsize_core + (femalesAt st.world x).length
          else st.metapopsize_core,
        metapopsize_margin :=
          if (x : Int) ≥ s.margin_position - (C.CM_AREA : Int) then
            st.metapopsize_margin + (femalesAt st.world x).length
          else st.metapopsize_margin })
    (hstay : ∀ (x : Nat) (st : DispState σ) (ind : TIndiv) (f : Nat), (x : Int) < act →
      (femalesAt st.world x)[f]? = some ind → ¬ ((R.ran st.rng).1 < ind.dispRate) →
      Rel st { st with rng := (R.ran st.rng).2 })
    (hemi : ∀ (x : Nat) (st st' : DispState σ) (ind : TIndiv) (f : Nat), (x : Int) < act →
      (femalesAt st.world x)[f]? = some ind →
      EmigrationStep C P R s.margin_position x act ind f st st' → Rel st st') :
    ∃ st', dispersalSweep C P R act s = some st' ∧ st'.world.length = s.world.length
      ∧ Rel ⟨s.world, s.rng, 0, 0, 0, 0⟩ st' := by
  refine forRange_rule
    (fun _ (t : DispState σ) => t.world.length = s.world.length
      ∧ Rel ⟨s.world, s.rng, 0, 0, 0, 0⟩ t)
    (dispersalPatch C P R s.margin_position act) act.toNat ⟨s.world, s.rng, 0, 0, 0, 0⟩
    ⟨rfl, hrefl _⟩ ?_
  intro k t hk ⟨htl, hrel⟩
  have hka : (k : Int) < act := by omega
  have hkl : k < t.world.length := by omega
  have hp : t.world[k]? = some t.world[k] := List.getElem?_eq_getElem hkl
  have hfa : femalesAt t.world k = t.world[k].females := femalesAt_of_some _ _ _ hp
  obtain ⟨t', h1, h2, h3⟩ := dispersalFemales_rule C P R hR s.margin_position k act hka Rel
    hrefl htrans (fun st ind f => hstay k st ind f hka)
    (fun st st' ind f => hemi k st st' ind f hka)
    t.world[k].females.length 0
    { t with
      metapopsize_core :=
        if k < C.CM_AREA then t.metapopsize_core + t.world[k].females.length
        else t.metapopsize_core,
      metapopsize_margin :=
        if (k : Int) ≥ s.margin_position - (C.CM_AREA : Int) then
          t.metapopsize_margin + t.world[k].females.length
        else t.metapopsize_margin }
    (by simp only; omega) (by simp only [hfa]; omega)
  refine ⟨t', ?_, by rw [h2]; exact htl, ?_⟩
  · simp only [dispersalPatch, hp]
    exact h1
  · have hc := hcount t k hka
    rw [hfa] at hc
    exact htrans _ _ _ hrel (htrans _ _ _ hc h3)

/-- The merge loop of `Dispersal` over an active range within the world: in every active
patch the staged immigrants join the residents and the staging buffer is emptied; the other
patches are as before. -/
theorem merge_loop (n : Nat) (w : List TPatch) (hn : n ≤ w.length) :
    ∃ w', forRange n mergePatch w = some w' ∧ w'.length = w.length
      ∧ (∀ y, y < n → femalesAt w' y = femalesAt w y ++ newFemalesAt w y
          ∧ newFemalesAt w' y = [])
      ∧ (∀ y, n ≤ y → femalesAt w' y = femalesAt w y
          ∧ newFemalesAt w' y = newFemalesAt w y) := by
  refine forRange_rule
    (fun k (t : List TPatch) => t.length = w.length
      ∧ (∀ y, y < k → femalesAt t y = femalesAt w y ++ newFemalesAt w y
          ∧ newFemalesAt t y = [])
      ∧ (∀ y, k ≤ y → femalesAt t y = femalesAt w y ∧ newFemalesAt t y = newFemalesAt w y))
    mergePatch n w ⟨rfl, fun y hy => absurd hy (Nat.not_lt_zero y), fun _ _ => ⟨rfl, rfl⟩⟩ ?_
  intro k t hk ⟨htl, hdone, htodo⟩
  have hkl : k < t.length := by omega
  have hp : t[k]? = some t[k] := List.getElem?_eq_getElem hkl
  refine ⟨t.set k ⟨appendAll t[k].females t[k].newFemales, []⟩, by simp only [mergePatch, hp],
    by rw [List.length_set]; exact htl, ?_, ?_⟩
  · intro y hy
    rw [femalesAt_set t _ _ hkl, newFemalesAt_set t _ _ hkl]
    by_cases hyk : y = k
    · subst hyk
      rw [if_pos rfl, if_pos rfl, appendAll_eq]
      rw [← femalesAt_of_some t y _ hp, ← newFemalesAt_of_some t y _ hp]
      rw [(htodo y (Nat.le_refl y)).1, (htodo y (Nat.le_refl y)).2]
      exact ⟨rfl, rfl⟩
    · rw [if_neg hyk, if_neg hyk]
      exact hdone y (by omega)
  · intro y hy
    rw [femalesAt_set t _ _ hkl, newFemalesAt_set t _ _ hkl]
    rw [if_neg (by omega), if_neg (by omega)]
    exact htodo y (by omega)

/-- The function `Dispersal` on an active range within the world, for draws in `[0,1)`: it
has a result, made of the result of the emigration loop, merged; a relation that the rule of
the emigration loop admits holds across the emigration loop. -/
theorem Dispersal_rule {σ : Type} (C : Consts) (P : Params) (R : RandomSource σ)
    (hR : R.Uniform) (act : Int) (s : Globals σ) (hact : act ≤ (s.world.length : Int))
    (Rel : DispState σ → DispState σ → Prop) (hrefl : ∀ a, Rel a a)
    (htrans : ∀ a b c, Rel a b → Rel b c → Rel a c)
    (hcount : ∀ (st : DispState σ) (x : Nat), (x : Int) < act →
      Rel st { st with
        metapopsize_core :=
          if x < C.CM_AREA then st.metapopsize_core + (femalesAt st.world x).length
          else st.metapopsize_core,
        metapopsize_margin :=
          if (x : Int) ≥ s.margin_position - (C.CM_AREA : Int) then
            st.metapopsize_margin + (femalesAt st.world x).length
          else st.metapopsize_margin })
    (hstay : ∀ (x : Nat) (st : DispState σ) (ind : TIndiv) (f : Nat), (x : Int) < act →
      (femalesAt st.world x)[f]? = some ind → ¬ ((R.ran st.rng).1 < ind.dispRate) →
      Rel st { st with rng := (R.ran st.rng).2 })
    (hemi : ∀ (x : Nat) (st st' : DispState σ) (ind : TIndiv) (f : Nat), (x : Int) < act →
      (femalesAt st.world x)[f]? = some ind →
      EmigrationStep C P R s.margin_position x act ind f st st' → Rel st st') :
    ∃ st s', dispersalSweep C P R act s = some st ∧ Dispersal C P R act s = some s'
      ∧ Rel ⟨s.world, s.rng, 0, 0, 0, 0⟩ st
      ∧ st.world.length = s.world.length ∧ s'.world.length = s.world.length
      ∧ (∀ y : Nat, (y : Int) < act →
          femalesAt s'.world y = femalesAt st.world y ++ newFemalesAt st.world y
          ∧ newFemalesAt s'.world y = [])
      ∧ (∀ y : Nat, act ≤ (y : Int) → femalesAt s'.world y = femalesAt st.world y
          ∧ newFemalesAt s'.world y = newFemalesAt st.world y)
      ∧ s'.rng = st.rng
      ∧ s'.rel_emigrants_core = (st.no_emigrants_core : ℚ) / (st.metapopsize_core : ℚ)
      ∧ s'.rel_emigrants_margin = (st.no_emigrants_margin : ℚ) / (st.metapopsize_margin : ℚ)
      ∧ s'.margin_position = s.margin_position
      ∧ s'.equilibrium_density = s.equilibrium_density := by
  obtain ⟨st, hst, hl, hrel⟩ :=
    dispersalSweep_rule C P R hR act s hact Rel hrefl htrans hcount hstay hemi
  obtain ⟨w', hw', hl', hin, hout⟩ := merge_loop act.toNat st.world (by omega)
  have hD : Dispersal C P R act s = some { s with
      world := w', rng := st.rng,
      rel_emigrants_core := (st.no_emigrants_core : ℚ) / (st.metapopsize_core : ℚ),
      rel_emigrants_margin := (st.no_emigrants_margin : ℚ) / (st.metapopsize_margin : ℚ) } := by
    simp only [Dispersal, hst, hw']
  refine ⟨st, _, hst, hD, hrel, hl, by simp only; omega, ?_, ?_, rfl, rfl, rfl, rfl, rfl⟩
  · intro y hy; exact hin y (by omega)
  · intro y hy; exact hout y (by omega)

/-- The function `Dispersal` on an active range within the world, for draws in `[0,1)`: it
has a result with as many patches, the staging buffer of every active patch is empty
afterwards, and the patches from the active width on are as before. -/
theorem Dispersal_frame {σ : Type} (C : Consts) (P : Params) (R : RandomSource σ)
    (hR : R.Uniform) (act : Int) (s : Globals σ) (hact : act ≤ (s.world.length : Int)) :
    ∃ s', Dispersal C P R act s = some s' ∧ s'.world.length = s.world.length
      ∧ (∀ y : Nat, (y : Int) < act → newFemalesAt s'.world y = [])
      ∧ (∀ y : Nat, act ≤ (y : Int) → s'.world[y]? = s.world[y]?) := by
  obtain ⟨st, s', _, hD, hrel, hl, hl', hin, hout, _⟩ := Dispersal_rule C P R hR act s hact
    (fun a b => ∀ y : Nat, act ≤ (y : Int) →
      femalesAt b.world y = femalesAt a.world y ∧ newFemalesAt b.world y = newFemalesAt a.world y)
    (fun _ _ _ => ⟨rfl, rfl⟩)
    (fun a b c hab hbc y hy =>
      ⟨(hbc y hy).1.trans (hab y hy).1, (hbc y hy).2.trans (hab y hy).2⟩)
    (fun _ _ _ _ _ => ⟨rfl, rfl⟩)
    (fun _ _ _ _ _ _ _ _ _ => ⟨rfl, rfl⟩)
    (by
      intro x st st' ind f hx _ hE y hy
      obtain ⟨_, _, _, _, _, _, hfem, hnew⟩ := hE
      refine ⟨by rw [hfem y, if_neg (by omega)], ?_⟩
      rcases hnew with ⟨_, h⟩ | ⟨_, i, hi, h⟩
      · exact h y
      · rw [h y, if_neg (by omega)])
  refine ⟨s', hD, hl', fun y hy => (hin y hy).2, ?_⟩
  intro y hy
  apply patch_eq_of_at _ _ _ hl'
  · rw [(hout y hy).1]; exact (hrel y hy).1
  · rw [(hout y hy).2]; exact (hrel y hy).2

theorem patch_of_newFemalesAt (w : List TPatch) (y : Nat) (hy : y < w.length)
    (l : List TIndiv) (h : newFemalesAt w y = l) :
    ∃ p, w[y]? = some p ∧ p.newFemales = l :=
  ⟨w[y], List.getElem?_eq_getElem hy,
    by rw [← newFemalesAt_of_some w y _ (List.getElem?_eq_getElem hy)]; exact h⟩

/-- C5 (counterexample): a world of two patches whose second patch, outside the active
width 1, holds a staged individual: after `Dispersal` that staging buffer is still not
empty. -/
theorem Dispersal_leaves_inactive_staging :
    (Dispersal ⟨2, 1, 1⟩ testParams cycleSource 1
        (globalsOf [⟨[], []⟩, ⟨[], [testIndiv]⟩] 0)).map
      (fun s => s.world) = some [⟨[], []⟩, ⟨[], [testIndiv]⟩] := by
  simp [Dispersal, dispersalSweep, dispersalPatch, dispersalFemales, forRange, mergePatch,
    appendAll, globalsOf]

/-- C5 (amended): after `Dispersal`, for every world, every active width within the world
and every stream of uniform draws in `[0,1)`, every patch below the active width has an
empty staging buffer and every other patch is unchanged; so when the staging buffers from
the active width on were empty before, every patch of the world has an empty staging
buffer. -/
theorem Dispersal_drains_staging {σ : Type} (C : Consts) (P : Params) (R : RandomSource σ)
    (act : Int) (s : Globals σ) (hact : act ≤ (s.world.length : Int)) (hR : R.Uniform) :
    ∃ s', Dispersal C P R act s = some s' ∧ s'.world.length = s.world.length
      ∧ (∀ x : Nat, (x : Int) < act → ∃ p', s'.world[x]? = some p' ∧ p'.newFemales = [])
      ∧ (∀ x : Nat, act ≤ (x : Int) → s'.world[x]? = s.world[x]?)
      ∧ ((∀ (x : Nat) (p : TPatch), act ≤ (x : Int) → s.world[x]? = some p → p.newFemales = [])
          → ∀ p' ∈ s'.world, p'.newFemales = []) := by
  obtain ⟨s', hD, hlen, hin, hout⟩ := Dispersal_frame C P R hR act s hact
  have hA : ∀ x : Nat, (x : Int) < act → ∃ p', s'.world[x]? = some p' ∧ p'.newFemales = [] :=
    fun x hx => patch_of_newFemalesAt s'.world x (by omega) [] (hin x hx)
  refine ⟨s', hD, hlen, hA, hout, ?_⟩
  intro hempty p' hp'
  obtain ⟨x, hx, hxp⟩ := List.mem_iff_getElem.mp hp'
  have hsome : s'.world[x]? = some p' := by rw [List.getElem?_eq_getElem hx, hxp]
  by_cases hlt : (x : Int) < act
  · obtain ⟨q, hq, hq1⟩ := hA x hlt
    rw [hsome] at hq
    rw [Option.some.inj hq]; exact hq1
  · rw [hout x (by omega)] at hsome
    exact hempty x p' (by omega) hsome

/-- Witness of C5 (amended): the world of the counterexample, active width 1. -/
theorem Dispersal_drains_staging_witness :
    ∃ s', Dispersal ⟨2, 1, 1⟩ testParams cycleSource 1
        (globalsOf [⟨[], []⟩, ⟨[], [testIndiv]⟩] 0) = some s'
      ∧ s'.world.length = (globalsOf [⟨[], []⟩, ⟨[], [testIndiv]⟩] 0).world.length
      ∧ (∀ x : Nat, (x : Int) < 1 → ∃ p', s'.world[x]? = some p' ∧ p'.newFemales = [])
      ∧ (∀ x : Nat, 1 ≤ (x : Int) →
          s'.world[x]? = (globalsOf [⟨[], []⟩, ⟨[], [testIndiv]⟩] 0).world[x]?)
      ∧ ((∀ (x : Nat) (p : TPatch), 1 ≤ (x : Int) →
            (globalsOf [⟨[], []⟩, ⟨[], [testIndiv]⟩] 0).world[x]? = some p → p.newFemales = [])
          → ∀ p' ∈ s'.world, p'.newFemales = []) :=
  Dispersal_drains_staging ⟨2, 1, 1⟩ testParams cycleSource 1
    (globalsOf [⟨[], []⟩, ⟨[], [testIndiv]⟩] 0) (by decide) cycleSource_uniform

/-- Removing one resident with a positive allele from patch `x` lowers the number of
residents with a positive allele by one when `x` is a counted patch, and keeps it
otherwise. -/
theorem positiveResidents_remove (a b : List TPatch) (win : Nat → Bool) (x f : Nat)
    (hf : f < (femalesAt a x).length) (hpos : 0 < ((femalesAt a x)[f]).dispRate)
    (hfem : ∀ y, femalesAt b y
      = if y = x then swapRemove (femalesAt a x) f else femalesAt a y) (n : Nat) :
    positiveResidents b win n + (if x < n ∧ win x = true then 1 else 0)
      = positiveResidents a win n := by
  induction n with
  | zero => simp [positiveResidents]
  | succ m ih =>
    simp only [positiveResidents]
    by_cases hxm : x = m
    · subst hxm
      have hlt : ¬ (x < x ∧ win x = true) := fun h => absurd h.1 (Nat.lt_irrefl x)
      rw [if_neg hlt, Nat.add_zero] at ih
      rw [ih, hfem x, if_pos rfl]
      have hperm := (swapRemove_perm (femalesAt a x) f hf).filter (fun ind => 0 < ind.dispRate)
      have hlen := hperm.length_eq
      rw [List.filter_cons_of_pos (by simpa using hpos)] at hlen
      simp only [List.length_cons] at hlen
      by_cases hw : win x = true
      · rw [if_pos hw, if_pos ⟨Nat.lt_succ_self x, hw⟩, if_pos hw]
        omega
      · rw [if_neg hw, if_neg (fun h => hw h.2), if_neg hw]
    · have e : femalesAt b m = femalesAt a m := by
        rw [hfem m, if_neg (fun e => hxm e.symm)]
      rw [e]
      have hcm : (if x < m + 1 ∧ win x = true then 1 else 0)
          = (if x < m ∧ win x = true then 1 else 0) := by
        have hiff : (x < m + 1 ∧ win x = true) ↔ (x < m ∧ win x = true) :=
          ⟨fun h => ⟨by omega, h.2⟩, fun h => ⟨by omega, h.2⟩⟩
        simp only [hiff]
      rw [hcm, ← ih]
      omega

theorem positiveResidents_congr (a b : List TPatch) (win : Nat → Bool)
    (hfem : ∀ y, femalesAt b y = femalesAt a y) (n : Nat) :
    positiveResidents b win n = positiveResidents a win n := by
  induction n with
  | zero => rfl
  | succ m ih => simp only [positiveResidents, ih, hfem m]

theorem count_swapRemove (females : List TIndiv) (f : Nat) (hf : f < females.length)
    (ind : TIndiv) (hne : females[f] ≠ ind) :
    List.count ind (swapRemove females f) = List.count ind females := by
  have h := (swapRemove_perm females f hf).count_eq ind
  rw [List.count_cons_of_ne hne.symm] at h
  exact h
/-- C10: a resident whose `dispRate` is zero or negative never emigrates. For every world,
every active width within the world and every stream of uniform draws in `[0,1)`: the pass
of the resident loop that examines such a resident changes nothing but the generator and
moves on to the next position; after `Dispersal` every patch holds at least as many
residents equal to it as before; and the two emigrant counters count at most the residents
with a positive `dispRate` in their window. -/
theorem Dispersal_keeps_non_emigrants {σ : Type} (C : Consts) (P : Params)
    (R : RandomSource σ) (act : Int) (s : Globals σ) (hact : act ≤ (s.world.length : Int))
    (hR : R.Uniform) :
    ∃ st s', dispersalSweep C P R act s = some st ∧ Dispersal C P R act s = some s'
      ∧ (∀ (x : Nat) (ind : TIndiv), ind.dispRate ≤ 0 →
          List.count ind (femalesAt s.world x) ≤ List.count ind (femalesAt s'.world x))
      ∧ st.no_emigrants_core
          ≤ positiveResidents s.world (fun y => decide (y < C.CM_AREA)) act.toNat
      ∧ st.no_emigrants_margin
          ≤ positiveResidents s.world
              (fun y => decide ((y : Int) ≥ s.margin_position - (C.CM_AREA : Int))) act.toNat
      ∧ s'.rel_emigrants_core = (st.no_emigrants_core : ℚ) / (st.metapopsize_core : ℚ)
      ∧ s'.rel_emigrants_margin = (st.no_emigrants_margin : ℚ) / (st.metapopsize_margin : ℚ)
      ∧ (∀ (t : DispState σ) (x f : Nat) (ind : TIndiv),
          (femalesAt t.world x)[f]? = some ind → ind.dispRate ≤ 0 →
          dispersalIndividual C P R s.margin_position x act f t
            = some ({ t with rng := (R.ran t.rng).2 }, f + 1)) := by
  obtain ⟨st, s', hst, hD, hrel, hl, hl', hin, hout, _, hc, hm, _, _⟩ :=
    Dispersal_rule C P R hR act s hact
      (fun a b =>
        (∀ (y : Nat) (ind : TIndiv), ind.dispRate ≤ 0 →
          List.count ind (femalesAt a.world y) ≤ List.count ind (femalesAt b.world y))
        ∧ b.no_emigrants_core
            + positiveResidents b.world (fun y => decide (y < C.CM_AREA)) act.toNat
          = a.no_emigrants_core
            + positiveResidents a.world (fun y => decide (y < C.CM_AREA)) act.toNat
        ∧ b.no_emigrants_margin
            + positiveResidents b.world
                (fun y => decide ((y : Int) ≥ s.margin_position - (C.CM_AREA : Int))) act.toNat
          = a.no_emigrants_margin
            + positiveResidents a.world
                (fun y => decide ((y : Int) ≥ s.margin_position - (C.CM_AREA : Int))) act.toNat)
      (fun _ => ⟨fun _ _ _ => Nat.le_refl _, rfl, rfl⟩)
      (fun a b c hab hbc =>
        ⟨fun y ind hi => Nat.le_trans (hab.1 y ind hi) (hbc.1 y ind hi),
          hbc.2.1.trans hab.2.1, hbc.2.2.trans hab.2.2⟩)
      (fun _ _ _ => ⟨fun _ _ _ => Nat.le_refl _, rfl, rfl⟩)
      (fun _ _ _ _ _ _ _ => ⟨fun _ _ _ => Nat.le_refl _, rfl, rfl⟩)
      (by
        intro x a b ind f hx hind hE
        obtain ⟨_, hdraw, hcore, hmargin, _, _, hfem, _⟩ := hE
        obtain ⟨hf, hget⟩ := List.getElem?_eq_some_iff.mp hind
        have hpos : 0 < ((femalesAt a.world x)[f]).dispRate := by
          rw [hget]; exact lt_of_le_of_lt (hR a.rng).1 hdraw
        have hxn : x < act.toNat := by omega
        refine ⟨?_, ?_, ?_⟩
        · intro y ind' hi
          rw [hfem y]
          by_cases hy : y = x
          · rw [if_pos hy, hy, count_swapRemove _ f hf ind' (fun e => by
              rw [e] at hpos; exact absurd hpos (not_lt.mpr hi))]
          · rw [if_neg hy]
        · have h := positiveResidents_remove a.world b.world
            (fun y => decide (y < C.CM_AREA)) x f hf hpos hfem act.toNat
          rw [hcore, ← h]
          by_cases hw : x < C.CM_AREA
          · rw [if_pos hw, if_pos ⟨hxn, by simpa using hw⟩]; omega
          · rw [if_neg hw, if_neg (fun hh => hw (by simpa using hh.2))]; omega
        · have h := positiveResidents_remove a.world b.world
            (fun y => decide ((y : Int) ≥ s.margin_position - (C.CM_AREA : Int))) x f hf hpos
            hfem act.toNat
          rw [hmargin, ← h]
          by_cases hw : (x : Int) ≥ s.margin_position - (C.CM_AREA : Int)
          · rw [if_pos hw, if_pos ⟨hxn, by simpa using hw⟩]; omega
          · rw [if_neg hw, if_neg (fun hh => hw (by simpa using hh.2))]; omega)
  refine ⟨st, s', hst, hD, ?_, ?_, ?_, hc, hm, ?_⟩
  · intro x ind hi
    refine Nat.le_trans (hrel.1 x ind hi) ?_
    by_cases hx : (x : Int) < act
    · rw [(hin x hx).1, List.count_append]; omega
    · rw [(hout x (by omega)).1]
  · have h := hrel.2.1
    simp only [Nat.zero_add] at h
    omega
  · have h := hrel.2.2
    simp only [Nat.zero_add] at h
    omega
  · intro t x f ind hind hi
    obtain ⟨hf, hget⟩ := List.getElem?_eq_some_iff.mp hind
    cases hp : t.world[x]? with
    | none => simp [femalesAt, hp] at hf
    | some p =>
      have hfa : femalesAt t.world x = p.females := femalesAt_of_some _ _ _ hp
      rw [hfa] at hind
      have hno : ¬ ((R.ran t.rng).1 < ind.dispRate) :=
        not_lt.mpr (le_trans hi (hR t.rng).1)
      simp only [dispersalIndividual, hp, hind, hno, if_false]

/-- Witness of C10: a patch with one resident of allele 0. -/
theorem Dispersal_keeps_non_emigrants_witness :
    ∃ st s', dispersalSweep ⟨2, 1, 1⟩ testParams cycleSource 1
          (globalsOf [⟨[⟨0, 2, 1 / 5⟩], []⟩, ⟨[], []⟩] 0) = some st
      ∧ Dispersal ⟨2, 1, 1⟩ testParams cycleSource 1
          (globalsOf [⟨[⟨0, 2, 1 / 5⟩], []⟩, ⟨[], []⟩] 0) = some s'
      ∧ (∀ (x : Nat) (ind : TIndiv), ind.dispRate ≤ 0 →
          List.count ind (femalesAt (globalsOf [⟨[⟨0, 2, 1 / 5⟩], []⟩, ⟨[], []⟩] 0).world x)
            ≤ List.count ind (femalesAt s'.world x))
      ∧ st.no_emigrants_core
          ≤ positiveResidents (globalsOf [⟨[⟨0, 2, 1 / 5⟩], []⟩, ⟨[], []⟩] 0).world
              (fun y => decide (y < (⟨2, 1, 1⟩ : Consts).CM_AREA)) (1 : Int).toNat
      ∧ st.no_emigrants_margin
          ≤ positiveResidents (globalsOf [⟨[⟨0, 2, 1 / 5⟩], []⟩, ⟨[], []⟩] 0).world
              (fun y => decide ((y : Int)
                ≥ (globalsOf [⟨[⟨0, 2, 1 / 5⟩], []⟩, ⟨[], []⟩] 0).margin_position
                  - ((⟨2, 1, 1⟩ : Consts).CM_AREA : Int))) (1 : Int).toNat
      ∧ s'.rel_emigrants_core = (st.no_emigrants_core : ℚ) / (st.metapopsize_core : ℚ)
      ∧ s'.rel_emigrants_margin = (st.no_emigrants_margin : ℚ) / (st.metapopsize_margin : ℚ)
      ∧ (∀ (t : DispState Nat) (x f : Nat) (ind : TIndiv),
          (femalesAt t.world x)[f]? = some ind → ind.dispRate ≤ 0 →
          dispersalIndividual ⟨2, 1, 1⟩ testParams cycleSource
              (globalsOf [⟨[⟨0, 2, 1 / 5⟩], []⟩, ⟨[], []⟩] 0).margin_position x 1 f t
            = some ({ t with rng := (cycleSource.ran t.rng).2 }, f + 1)) :=
  Dispersal_keeps_non_emigrants ⟨2, 1, 1⟩ testParams cycleSource 1
    (globalsOf [⟨[⟨0, 2, 1 / 5⟩], []⟩, ⟨[], []⟩] 0) (by decide) cycleSource_uniform

/-! ### Alleles through the life cycle -/

/-- A world whose patches are, each, as before or filled with alleles of the patch before,
carries no new allele. -/
theorem allelePresent_of_patches (w w' : List TPatch)
    (h : ∀ y : Nat, w'[y]? = w[y]? ∨ ∃ p p' : TPatch, w[y]? = some p ∧ w'[y]? = some p'
      ∧ ∀ i : TIndiv, (i ∈ p'.females ∨ i ∈ p'.newFemales) →
          ∃ j : TIndiv, (j ∈ p.females ∨ j ∈ p.newFemales) ∧ j.dispRate = i.dispRate)
    (d : ℚ) (hd : allelePresent w' d) : allelePresent w d := by
  obtain ⟨y, i, hi, hid⟩ := hd
  rcases h y with he | ⟨p, p', hp, hp', hsub⟩
  · refine ⟨y, i, ?_, hid⟩
    simpa only [femalesAt, newFemalesAt, he] using hi
  · rw [femalesAt_of_some w' y p' hp', newFemalesAt_of_some w' y p' hp'] at hi
    obtain ⟨j, hj, hjd⟩ := hsub i hi
    refine ⟨y, j, ?_, hjd.trans hid⟩
    rw [femalesAt_of_some w y p hp, newFemalesAt_of_some w y p hp]
    exact hj

/-- The result of a patch loop (see `patchLoop_rule`) carries no new allele when no pass
brings one into its patch. -/
theorem allelePresent_of_patchLoop (w w' : List TPatch) (n : Nat)
    (Post : Nat → TPatch → TPatch → Prop)
    (hPost : ∀ (x : Nat) (p p' : TPatch), Post x p p' →
      ∀ i : TIndiv, (i ∈ p'.females ∨ i ∈ p'.newFemales) →
        ∃ j : TIndiv, (j ∈ p.females ∨ j ∈ p.newFemales) ∧ j.dispRate = i.dispRate)
    (hl : w'.length = w.length)
    (hrest : ∀ x, n ≤ x → w'[x]? = w[x]?)
    (hact : ∀ x p, x < n → w[x]? = some p → ∃ p', w'[x]? = some p' ∧ Post x p p')
    (d : ℚ) (hd : allelePresent w' d) : allelePresent w d := by
  refine allelePresent_of_patches w w' ?_ d hd
  intro y
  by_cases hy : y < n
  · by_cases hyl : y < w.length
    · obtain ⟨p', hp', hpost⟩ := hact y w[y] hy (List.getElem?_eq_getElem hyl)
      exact Or.inr ⟨w[y], p', List.getElem?_eq_getElem hyl, hp', hPost y _ _ hpost⟩
    · left
      rw [List.getElem?_eq_none (by omega), List.getElem?_eq_none (by omega)]
  · exact Or.inl (hrest y (by omega))

theorem mortalitySurvivors_mem {σ : Type} (R : RandomSource σ) (lm : Option ℚ)
    (l acc : List TIndiv) (g : σ) : ∀ i ∈ (mortalitySurvivors R lm l acc g).1, i ∈ acc ∨ i ∈ l := by
  induction l generalizing acc g with
  | nil => intro i hi; exact Or.inl hi
  | cons a rest ih =>
    intro i hi
    simp only [mortalitySurvivors] at hi
    split_ifs at hi
    · rcases ih _ _ i hi with h | h
      · rcases List.mem_append.mp h with h | h
        · exact Or.inl h
        · exact Or.inr (by rw [List.mem_singleton.mp h]; exact List.mem_cons_self _ _)
      · exact Or.inr (List.mem_cons_of_mem _ h)
    · rcases ih _ _ i hi with h | h
      · exact Or.inl h
      · exact Or.inr (List.mem_cons_of_mem _ h)

/-- One pass of the patch loop of `Mortality_gradient`: the staging buffer is emptied and
the residents afterwards are residents from before. -/
theorem mortalityPatch_spec {σ : Type} (C : Consts) (R : RandomSource σ) (x : Nat)
    (s : Globals σ) (p : TPatch) (hp : s.world[x]? = some p) :
    ∃ s' p', mortalityPatch C R x s = some s' ∧ s'.world = s.world.set x p'
      ∧ p'.newFemales = [] ∧ ∀ i ∈ p'.females, i ∈ p.females := by
  by_cases h0 : p.females.length > 0
  · refine ⟨_, ⟨appendAll [] (mortalitySurvivors R (localMortality C x) p.females []
        s.rng).1, []⟩,
      by simp only [mortalityPatch, hp, h0, if_true]; rfl, rfl, rfl, ?_⟩
    intro i hi
    simp only [appendAll_eq, List.nil_append] at hi
    rcases mortalitySurvivors_mem R _ _ _ _ i hi with h | h
    · simp at h
    · exact h
  · exact ⟨_, ⟨p.females, []⟩, by simp only [mortalityPatch, hp, h0, if_false]; rfl, rfl, rfl,
      fun i hi => hi⟩

/-- The function `Mortality_gradient` on an active range within the world: it has a result
with as many patches and no new allele. -/
theorem Mortality_gradient_alleles {σ : Type} (C : Consts) (R : RandomSource σ) (act : Int)
    (s : Globals σ) (hact : act ≤ (s.world.length : Int)) :
    ∃ s', Mortality_gradient C R act s = some s' ∧ s'.world.length = s.world.length
      ∧ ∀ d, allelePresent s'.world d → allelePresent s.world d := by
  unfold Mortality_gradient
  by_cases hI : act > (C.INIT_ROWS : Int)
  · rw [if_pos hI]
    obtain ⟨s', hs', hl, hrest, hin⟩ := patchLoop_rule (mortalityPatch C R)
      (fun _ p p' => p'.newFemales = [] ∧ ∀ i ∈ p'.females, i ∈ p.females)
      (fun x t p hp => mortalityPatch_spec C R x t p hp) act.toNat s (by omega)
    refine ⟨s', hs', hl, allelePresent_of_patchLoop _ _ act.toNat _ ?_ hl hrest hin⟩
    intro x p p' ⟨hn, hf⟩ i hi
    rcases hi with h | h
    · exact ⟨i, Or.inl (hf i h), rfl⟩
    · rw [hn] at h; simp at h
  · rw [if_neg hI]
    exact ⟨s, rfl, rfl, fun _ h => h⟩
/-- With `mut_rate = 0` and a draw that is not negative, `mutate` returns the allele. -/
theorem mutate_zero_rate {σ : Type} (P : Params) (R : RandomSource σ) (allele : ℚ) (g : σ)
    (hmut : P.mut_rate = 0) (hu : 0 ≤ (R.ran g).1) :
    mutate P R allele g = (allele, (R.ran g).2) := by
  unfold mutate
  rw [if_neg (by rw [hmut]; exact not_lt.mpr hu)]

theorem offspringLoop_mem {σ : Type} (M : CMath) (P : Params) (R : RandomSource σ)
    (hmut : P.mut_rate = 0) (hR : R.Uniform) (parent : TIndiv) (n : Nat) (acc : List TIndiv)
    (g : σ) :
    ∀ o ∈ (offspringLoop M P R parent n acc g).1, o ∈ acc ∨ o.dispRate = parent.dispRate := by
  induction n generalizing acc g with
  | zero => intro o ho; exact Or.inl ho
  | succ m ih =>
    intro o ho
    simp only [offspringLoop, mutate_zero_rate P R parent.dispRate g hmut (hR g).1] at ho
    rcases ih _ _ o ho with h | h
    · rcases List.mem_append.mp h with h | h
      · exact Or.inl h
      · exact Or.inr (by rw [List.mem_singleton.mp h])
    · exact Or.inr h

theorem reproduceFemales_mem {σ : Type} (M : CMath) (P : Params) (R : RandomSource σ)
    (hmut : P.mut_rate = 0) (hR : R.Uniform) (x : Nat) (alpha_sum : ℚ) (l : List TIndiv)
    (f : Nat) (acc : List TIndiv) (g : σ) :
    ∀ o ∈ (reproduceFemales M P R x alpha_sum l f acc g).1,
      o ∈ acc ∨ ∃ parent ∈ l, o.dispRate = parent.dispRate := by
  induction l generalizing f acc g with
  | nil => intro o ho; exact Or.inl ho
  | cons a rest ih =>
    intro o ho
    simp only [reproduceFemales] at ho
    rcases ih _ _ _ o ho with h | ⟨parent, hp, hpd⟩
    · rcases offspringLoop_mem M P R hmut hR a _ _ _ o h with h | h
      · exact Or.inl h
      · exact Or.inr ⟨a, List.mem_cons_self _ _, h⟩
    · exact Or.inr ⟨parent, List.mem_cons_of_mem _ hp, hpd⟩

/-- One pass of the patch loop of `Reproduction` without mutation: the residents stay, and
every individual of the staging buffer afterwards has the allele of a resident of the same
patch. -/
theorem reproducePatch_spec {σ : Type} (M : CMath) (P : Params) (R : RandomSource σ)
    (hmut : P.mut_rate = 0) (hR : R.Uniform) (x : Nat) (s : Globals σ) (p : TPatch)
    (hp : s.world[x]? = some p) :
    ∃ s' p', reproducePatch M P R x s = some s' ∧ s'.world = s.world.set x p'
      ∧ p'.females = p.females
      ∧ ∀ o ∈ p'.newFemales, ∃ parent ∈ p.females, o.dispRate = parent.dispRate := by
  by_cases h0 : p.females.length > 0
  · refine ⟨_, ⟨p.females, (reproduceFemales M P R x
        (p.females.foldl (fun acc ind => acc + ind.alpha) 0) p.females 0 [] s.rng).1⟩,
      by simp only [reproducePatch, hp, h0, if_true]; rfl, rfl, rfl, ?_⟩
    intro o ho
    rcases reproduceFemales_mem M P R hmut hR x _ _ _ _ _ o ho with h | h
    · simp at h
    · exact h
  · refine ⟨_, ⟨p.females, []⟩, by simp only [reproducePatch, hp, h0, if_false]; rfl, rfl, rfl,
      ?_⟩
    intro o ho
    simp at ho

/-- The function `Reproduction` without mutation on an active range within the world: it
has a result; in every active patch the residents are as before and every staged individual
has the allele of a resident of the same patch; the other patches are as before. -/
theorem Reproduction_loop {σ : Type} (M : CMath) (P : Params) (R : RandomSource σ)
    (hmut : P.mut_rate = 0) (hR : R.Uniform) (act : Int) (s : Globals σ)
    (hact : act ≤ (s.world.length : Int)) :
    ∃ s', Reproduction M P R act s = some s' ∧ s'.world.length = s.world.length
      ∧ (∀ x, act.toNat ≤ x → s'.world[x]? = s.world[x]?)
      ∧ (∀ x p, x < act.toNat → s.world[x]? = some p →
          ∃ p', s'.world[x]? = some p' ∧ p'.females = p.females
            ∧ ∀ o ∈ p'.newFemales, ∃ parent ∈ p.females, o.dispRate = parent.dispRate) :=
  patchLoop_rule (reproducePatch M P R) _
    (fun x t p hp => reproducePatch_spec M P R hmut hR x t p hp) act.toNat s (by omega)

theorem Reproduction_alleles {σ : Type} (M : CMath) (P : Params) (R : RandomSource σ)
    (hmut : P.mut_rate = 0) (hR : R.Uniform) (act : Int) (s : Globals σ)
    (hact : act ≤ (s.world.length : Int)) :
    ∃ s', Reproduction M P R act s = some s' ∧ s'.world.length = s.world.length
      ∧ ∀ d, allelePresent s'.world d → allelePresent s.world d := by
  obtain ⟨s', hs', hl, hrest, hin⟩ := Reproduction_loop M P R hmut hR act s hact
  refine ⟨s', hs', hl, allelePresent_of_patchLoop _ _ act.toNat _ ?_ hl hrest hin⟩
  intro x p p' ⟨hf, hn⟩ i hi
  rcases hi with h | h
  · exact ⟨i, Or.inl (by rw [← hf]; exact h), rfl⟩
  · obtain ⟨parent, hpar, hpd⟩ := hn i h
    exact ⟨parent, Or.inl hpar, hpd.symm⟩

theorem Death_alleles {σ : Type} (P : Params) (R : RandomSource σ) (act : Int)
    (s : Globals σ) (hact : act ≤ (s.world.length : Int)) :
    ∃ s', Death P R act s = some s' ∧ s'.world.length = s.world.length
      ∧ ∀ d, allelePresent s'.world d → allelePresent s.world d := by
  obtain ⟨s', hs', hl, hrest, hin⟩ := Death_loop P R act s (by omega)
  refine ⟨s', hs', hl, allelePresent_of_patchLoop _ _ act.toNat _ ?_ hl hrest hin⟩
  intro x p p' ⟨g, hg⟩ i hi
  rw [hg] at hi
  split_ifs at hi
  · rcases hi with h | h
    · exact ⟨i, Or.inr h, rfl⟩
    · simp at h
  · rcases hi with h | h <;> simp at h
  · rcases hi with h | h
    · simp at h
    · exact ⟨i, Or.inr h, rfl⟩

theorem Dispersal_alleles {σ : Type} (C : Consts) (P : Params) (R : RandomSource σ)
    (hR : R.Uniform) (act : Int) (s : Globals σ) (hact : act ≤ (s.world.length : Int)) :
    ∃ s', Dispersal C P R act s = some s' ∧ s'.world.length = s.world.length
      ∧ ∀ d, allelePresent s'.world d → allelePresent s.world d := by
  obtain ⟨st, s', _, hD, hrel, hl, hl', hin, hout, _⟩ := Dispersal_rule C P R hR act s hact
    (fun a b => ∀ d, allelePresent b.world d → allelePresent a.world d)
    (fun _ _ h => h) (fun a b c hab hbc d h => hab d (hbc d h))
    (fun _ _ _ _ h => h) (fun _ _ _ _ _ _ _ _ h => h)
    (by
      intro x a b ind f hx hind hE d ⟨y, i, hi, hid⟩
      obtain ⟨_, _, _, _, _, _, hfem, hnew⟩ := hE
      obtain ⟨hf, hget⟩ := List.getElem?_eq_some_iff.mp hind
      have hindmem : ind ∈ femalesAt a.world x := by rw [← hget]; exact List.getElem_mem _
      rcases hi with h | h
      · rw [hfem y] at h
        by_cases hy : y = x
        · rw [if_pos hy] at h
          have hm : i ∈ femalesAt a.world x :=
            (swapRemove_perm _ f hf).subset (List.mem_cons_of_mem _ h)
          exact ⟨x, i, Or.inl hm, hid⟩
        · rw [if_neg hy] at h
          exact ⟨y, i, Or.inl h, hid⟩
      · rcases hnew with ⟨_, hsame⟩ | ⟨_, k, _, hpush⟩
        · rw [hsame y] at h
          exact ⟨y, i, Or.inr h, hid⟩
        · rw [hpush y] at h
          by_cases hy : y = k
          · rw [if_pos hy] at h
            rcases List.mem_append.mp h with h | h
            · exact ⟨y, i, Or.inr h, hid⟩
            · rw [List.mem_singleton.mp h] at hid
              exact ⟨x, ind, Or.inl hindmem, hid⟩
          · rw [if_neg hy] at h
            exact ⟨y, i, Or.inr h, hid⟩)
  refine ⟨s', hD, hl', ?_⟩
  intro d ⟨y, i, hi, hid⟩
  apply hrel d
  by_cases hy : (y : Int) < act
  · rw [(hin y hy).1, (hin y hy).2] at hi
    rcases hi with h | h
    · rcases List.mem_append.mp h with h | h
      · exact ⟨y, i, Or.inl h, hid⟩
      · exact ⟨y, i, Or.inr h, hid⟩
    · simp at h
  · rw [(hout y (by omega)).1, (hout y (by omega)).2] at hi
    exact ⟨y, i, hi, hid⟩
/-- The life cycle without mutation, on an active range within the world and for draws in
`[0,1)`: it has a result, and no allele is present afterwards that was not present
before. -/
theorem lifeCycle_alleles {σ : Type} (C : Consts) (M : CMath) (P : Params)
    (R : RandomSource σ) (hmut : P.mut_rate = 0) (hR : R.Uniform) (act : Int) (s : Globals σ)
    (hact : act ≤ (s.world.length : Int)) :
    ∃ s', lifeCycle C M P R act s = some s' ∧ s'.world.length = s.world.length
      ∧ ∀ d, allelePresent s'.world d → allelePresent s.world d := by
  have h1 : ∃ s1, (if P.mort_grad = true then Mortality_gradient C R act s else some s) = some s1
      ∧ s1.world.length = s.world.length
      ∧ ∀ d, allelePresent s1.world d → allelePresent s.world d := by
    by_cases hm : P.mort_grad = true
    · rw [if_pos hm]; exact Mortality_gradient_alleles C R act s hact
    · rw [if_neg hm]; exact ⟨s, rfl, rfl, fun _ h => h⟩
  obtain ⟨s1, e1, l1, a1⟩ := h1
  obtain ⟨s2, e2, l2, a2⟩ := Dispersal_alleles C P R hR act s1 (by omega)
  obtain ⟨s3, e3, l3, a3⟩ := Reproduction_alleles M P R hmut hR act s2 (by omega)
  obtain ⟨s4, e4, l4, a4⟩ := Death_alleles P R act s3 (by omega)
  refine ⟨s4, ?_, by omega, fun d h => a1 d (a2 d (a3 d (a4 d h)))⟩
  simp only [lifeCycle, e1, Option.bind, e2, e3, e4]

/-- C9: with `mut_rate = 0`, for every stream of uniform draws in `[0,1)`: `mutate` returns
its argument; every individual that the offspring loop of `Reproduction` appends for a
parent has the `dispRate` of that parent, so after `Reproduction` every staged individual of
an active patch has the `dispRate` of a resident of the same patch (the residents being as
before); and after one life cycle every resident carries a `dispRate` that was present in
the world before the cycle (among the residents, when the staging buffers were empty). -/
theorem no_mutation_keeps_alleles {σ : Type} (C : Consts) (M : CMath) (P : Params)
    (R : RandomSource σ) (act : Int) (s : Globals σ) (hact : act ≤ (s.world.length : Int))
    (hmut : P.mut_rate = 0) (hR : R.Uniform) :
    (∀ (allele : ℚ) (g : σ), mutate P R allele g = (allele, (R.ran g).2))
      ∧ (∀ (parent : TIndiv) (n : Nat) (newFemales : List TIndiv) (g : σ),
          ∀ o ∈ (offspringLoop M P R parent n newFemales g).1,
            o ∈ newFemales ∨ o.dispRate = parent.dispRate)
      ∧ (∃ s1, Reproduction M P R act s = some s1
          ∧ ∀ (x : Nat) (p : TPatch), (x : Int) < act → s.world[x]? = some p →
              ∃ p', s1.world[x]? = some p' ∧ p'.females = p.females
                ∧ ∀ o ∈ p'.newFemales, ∃ parent ∈ p.females, o.dispRate = parent.dispRate)
      ∧ (∃ s', lifeCycle C M P R act s = some s'
          ∧ (∀ (x : Nat) (ind : TIndiv), ind ∈ femalesAt s'.world x →
              allelePresent s.world ind.dispRate)
          ∧ ((∀ y : Nat, newFemalesAt s.world y = []) →
              ∀ (x : Nat) (ind : TIndiv), ind ∈ femalesAt s'.world x →
                ∃ (y : Nat) (j : TIndiv), j ∈ femalesAt s.world y
                  ∧ j.dispRate = ind.dispRate)) := by
  refine ⟨fun allele g => mutate_zero_rate P R allele g hmut (hR g).1,
    fun parent n acc g => offspringLoop_mem M P R hmut hR parent n acc g, ?_, ?_⟩
  · obtain ⟨s1, hs1, _, _, hin⟩ := Reproduction_loop M P R hmut hR act s hact
    exact ⟨s1, hs1, fun x p hx hp => hin x p (by omega) hp⟩
  · obtain ⟨s', hs', _, hall⟩ := lifeCycle_alleles C M P R hmut hR act s hact
    have hres : ∀ (x : Nat) (ind : TIndiv), ind ∈ femalesAt s'.world x →
        allelePresent s.world ind.dispRate :=
      fun x ind h => hall _ ⟨x, ind, Or.inl h, rfl⟩
    refine ⟨s', hs', hres, ?_⟩
    intro hempty x ind h
    obtain ⟨y, j, hj, hjd⟩ := hres x ind h
    rcases hj with hj | hj
    · exact ⟨y, j, hj, hjd⟩
    · rw [hempty y] at hj; simp at hj

/-- Witness of C9: one patch with one resident of allele 0, no mutation. -/
theorem no_mutation_keeps_alleles_witness :
    (∀ (allele : ℚ) (g : Nat),
        mutate testParams cycleSource allele g = (allele, (cycleSource.ran g).2))
      ∧ (∀ (parent : TIndiv) (n : Nat) (newFemales : List TIndiv) (g : Nat),
          ∀ o ∈ (offspringLoop testMath testParams cycleSource parent n newFemales g).1,
            o ∈ newFemales ∨ o.dispRate = parent.dispRate)
      ∧ (∃ s1, Reproduction testMath testParams cycleSource 1
            (globalsOf [⟨[⟨0, 2, 1 / 5⟩], []⟩] 0) = some s1
          ∧ ∀ (x : Nat) (p : TPatch), (x : Int) < 1 →
              (globalsOf [⟨[⟨0, 2, 1 / 5⟩], []⟩] 0).world[x]? = some p →
              ∃ p', s1.world[x]? = some p' ∧ p'.females = p.females
                ∧ ∀ o ∈ p'.newFemales, ∃ parent ∈ p.females, o.dispRate = parent.dispRate)
      ∧ (∃ s', lifeCycle ⟨1, 1, 1⟩ testMath testParams cycleSource 1
            (globalsOf [⟨[⟨0, 2, 1 / 5⟩], []⟩] 0) = some s'
          ∧ (∀ (x : Nat) (ind : TIndiv), ind ∈ femalesAt s'.world x →
              allelePresent (globalsOf [⟨[⟨0, 2, 1 / 5⟩], []⟩] 0).world ind.dispRate)
          ∧ ((∀ y : Nat, newFemalesAt (globalsOf [⟨[⟨0, 2, 1 / 5⟩], []⟩] 0).world y = []) →
              ∀ (x : Nat) (ind : TIndiv), ind ∈ femalesAt s'.world x →
                ∃ (y : Nat) (j : TIndiv),
                  j ∈ femalesAt (globalsOf [⟨[⟨0, 2, 1 / 5⟩], []⟩] 0).world y
                  ∧ j.dispRate = ind.dispRate)) :=
  no_mutation_keeps_alleles ⟨1, 1, 1⟩ testMath testParams cycleSource 1
    (globalsOf [⟨[⟨0, 2, 1 / 5⟩], []⟩] 0) (by decide) rfl cycleSource_uniform

/-! ### Analysis -/

/-- The loop of `Analyze` over the first `n` patches, started with margin position 0 and
counters 0: it has a result; it changes no global but `margin_position`; the counters are
the number of occupied patches and the number of residents below `n`; the margin position
is at least the index of every occupied patch below `n`, and it is 0 or the index of an
occupied patch below `n`. -/
theorem Analyze_loop {σ : Type} (n : Nat) (s0 : Globals σ) (hn : n ≤ s0.world.length)
    (hm : s0.margin_position = 0) :
    ∃ st, forRange n analyzePatch (⟨s0, 0, 0⟩ : AnalyzeState σ) = some st
      ∧ st.g = { s0 with margin_position := st.g.margin_position }
      ∧ st.numberoccupied = occupiedPatches s0.world n
      ∧ st.metapopsize = residentsBelow s0.world n
      ∧ (∀ x : Nat, x < n → femalesAt s0.world x ≠ [] → (x : Int) ≤ st.g.margin_position)
      ∧ (st.g.margin_position = 0
          ∨ ∃ x : Nat, x < n ∧ (x : Int) = st.g.margin_position ∧ femalesAt s0.world x ≠ []) := by
  refine forRange_rule
    (fun k (st : AnalyzeState σ) =>
      st.g = { s0 with margin_position := st.g.margin_position }
      ∧ st.numberoccupied = occupiedPatches s0.world k
      ∧ st.metapopsize = residentsBelow s0.world k
      ∧ (∀ x : Nat, x < k → femalesAt s0.world x ≠ [] → (x : Int) ≤ st.g.margin_position)
      ∧ (st.g.margin_position = 0
          ∨ ∃ x : Nat, x < k ∧ (x : Int) = st.g.margin_position ∧ femalesAt s0.world x ≠ []))
    analyzePatch n ⟨s0, 0, 0⟩
    ⟨by simp only [← hm], rfl, rfl, fun x hx => absurd hx (Nat.not_lt_zero x), Or.inl hm⟩ ?_
  intro k st hk ⟨hg, hocc, hsize, hmax, hwit⟩
  have hw : st.g.world = s0.world := by rw [hg]
  have hkl : k < st.g.world.length := by rw [hw]; omega
  have hp : st.g.world[k]? = some st.g.world[k] := List.getElem?_eq_getElem hkl
  have hfa : femalesAt s0.world k = st.g.world[k].females := by
    rw [← hw]; exact femalesAt_of_some _ _ _ hp
  by_cases h0 : st.g.world[k].females.length > 0
  · have hne : femalesAt s0.world k ≠ [] := by
      rw [hfa]; exact List.length_pos.mp h0
    by_cases hlt : st.g.margin_position < (k : Int)
    · refine ⟨{ g := { st.g with margin_position := (k : Int) },
                numberoccupied := st.numberoccupied + 1,
                metapopsize := st.metapopsize + st.g.world[k].females.length },
        by simp only [analyzePatch, hp, h0, hlt, if_true], ?_, ?_, ?_, ?_, ?_⟩
      · simp only
        rw [hg]
      · simp only [occupiedPatches, hfa, h0, if_true, hocc]
      · simp only [residentsBelow, hfa, hsize]
      · intro x hx hxne
        simp only
        by_cases hxk : x = k
        · rw [hxk]
        · have := hmax x (by omega) hxne
          omega
      · exact Or.inr ⟨k, Nat.lt_succ_self k, rfl, hne⟩
    · refine ⟨{ g := st.g, numberoccupied := st.numberoccupied + 1,
                metapopsize := st.metapopsize + st.g.world[k].females.length },
        by simp only [analyzePatch, hp, h0, hlt, if_true, if_false], hg, ?_, ?_, ?_, ?_⟩
      · simp only [occupiedPatches, hfa, h0, if_true, hocc]
      · simp only [residentsBelow, hfa, hsize]
      · intro x hx hxne
        show (x : Int) ≤ st.g.margin_position
        by_cases hxk : x = k
        · rw [hxk]; omega
        · exact hmax x (by omega) hxne
      · rcases hwit with h | ⟨x, hx, hxm, hxne⟩
        · exact Or.inl h
        · exact Or.inr ⟨x, by omega, hxm, hxne⟩
  · have hnil : femalesAt s0.world k = [] := by
      rw [hfa]; exact List.length_eq_zero.mp (by omega)
    refine ⟨{ g := st.g, numberoccupied := st.numberoccupied,
              metapopsize := st.metapopsize + st.g.world[k].females.length },
      by simp only [analyzePatch, hp, h0, if_false], hg, ?_, ?_, ?_, ?_⟩
    · simp only [occupiedPatches, hfa, h0, if_false, hocc, Nat.add_zero]
    · simp only [residentsBelow, hfa, hsize]
    · intro x hx hxne
      by_cases hxk : x = k
      · rw [hxk] at hxne; exact absurd hnil hxne
      · exact hmax x (by omega) hxne
    · rcases hwit with h | ⟨x, hx, hxm, hxne⟩
      · exact Or.inl h
      · exact Or.inr ⟨x, by omega, hxm, hxne⟩

theorem occupiedPatches_le (w : List TPatch) (n : Nat) : occupiedPatches w n ≤ n := by
  induction n with
  | zero => exact Nat.le_refl 0
  | succ m ih =>
    simp only [occupiedPatches]
    split_ifs <;> omega

/-- The function `Analyze` on a world of `WORLDDIM_X` patches: it has a result, which
differs from the globals before in the three summaries only: the relative metapopulation
size, the occupancy, and the margin position `m`, which is at least the index of every
occupied patch and is 0 or the index of an occupied patch. -/
theorem Analyze_spec {σ : Type} (C : Consts) (acttime : Nat) (actrun : Int) (s : Globals σ)
    (hlen : s.world.length = C.WORLDDIM_X) :
    ∃ m : Int, Analyze C acttime actrun s = some { s with
        rel_metapopsize := (residentsBelow s.world C.WORLDDIM_X : ℚ)
          / ((((C.WORLDDIM_X : Int) * s.equilibrium_density : Int)) : ℚ),
        occupancy := (occupiedPatches s.world C.WORLDDIM_X : ℚ) / (C.WORLDDIM_X : ℚ),
        margin_position := m }
      ∧ (∀ x : Nat, x < C.WORLDDIM_X → femalesAt s.world x ≠ [] → (x : Int) ≤ m)
      ∧ (m = 0 ∨ ∃ x : Nat, x < C.WORLDDIM_X ∧ (x : Int) = m ∧ femalesAt s.world x ≠ []) := by
  obtain ⟨st, hst, hg, hocc, hsize, hmax, hwit⟩ := Analyze_loop C.WORLDDIM_X
    { s with rel_metapopsize := 0, occupancy := 0, margin_position := 0 }
    (by simp only; omega) rfl
  refine ⟨st.g.margin_position, ?_, hmax, hwit⟩
  simp only [Analyze, hst, hocc, hsize]
  rw [hg]

/-- C11: after `Analyze` on a world of `WORLDDIM_X` patches, `margin_position` is the
highest index in `[0, WORLDDIM_X)` of a patch with residents (it is the index of such a
patch and no such patch has a higher index), and it is 0 when no patch has residents; the
scan runs over all `WORLDDIM_X` patches, whatever the active width. -/
theorem Analyze_margin_position {σ : Type} (C : Consts) (acttime : Nat) (actrun : Int)
    (s : Globals σ) (hlen : s.world.length = C.WORLDDIM_X) :
    ∃ s', Analyze C acttime actrun s = some s'
      ∧ (∀ x : Nat, x < C.WORLDDIM_X → femalesAt s.world x ≠ [] → (x : Int) ≤ s'.margin_position)
      ∧ ((∃ x : Nat, x < C.WORLDDIM_X ∧ femalesAt s.world x ≠ []) →
          ∃ x : Nat, x < C.WORLDDIM_X ∧ (x : Int) = s'.margin_position ∧ femalesAt s.world x ≠ [])
      ∧ ((∀ x : Nat, x < C.WORLDDIM_X → femalesAt s.world x = []) → s'.margin_position = 0) := by
  obtain ⟨m, hA, hmax, hwit⟩ := Analyze_spec C acttime actrun s hlen
  refine ⟨_, hA, hmax, ?_, ?_⟩
  · rintro ⟨x, hx, hne⟩
    rcases hwit with h0 | h
    · have hle : (x : Int) ≤ m := hmax x hx hne
      exact ⟨x, hx, by show (x : Int) = m; omega, hne⟩
    · exact h
  · intro hall
    rcases hwit with h0 | ⟨x, hx, _, hne⟩
    · exact h0
    · exact absurd (hall x hx) hne

/-- Witness of C11: a world of three patches whose middle patch alone has a resident. -/
theorem Analyze_margin_position_witness :
    ∃ s', Analyze ⟨3, 1, 1⟩ 0 0 (globalsOf [⟨[], []⟩, ⟨[testIndiv], []⟩, ⟨[], []⟩] 0) = some s'
      ∧ (∀ x : Nat, x < 3 →
          femalesAt (globalsOf [⟨[], []⟩, ⟨[testIndiv], []⟩, ⟨[], []⟩] 0).world x ≠ [] →
          (x : Int) ≤ s'.margin_position)
      ∧ ((∃ x : Nat, x < 3
            ∧ femalesAt (globalsOf [⟨[], []⟩, ⟨[testIndiv], []⟩, ⟨[], []⟩] 0).world x ≠ []) →
          ∃ x : Nat, x < 3 ∧ (x : Int) = s'.margin_position
            ∧ femalesAt (globalsOf [⟨[], []⟩, ⟨[testIndiv], []⟩, ⟨[], []⟩] 0).world x ≠ [])
      ∧ ((∀ x : Nat, x < 3 →
            femalesAt (globalsOf [⟨[], []⟩, ⟨[testIndiv], []⟩, ⟨[], []⟩] 0).world x = []) →
          s'.margin_position = 0) :=
  Analyze_margin_position ⟨3, 1, 1⟩ 0 0
    (globalsOf [⟨[], []⟩, ⟨[testIndiv], []⟩, ⟨[], []⟩] 0) (by decide)

/-- C12: after `Analyze` on a world of `WORLDDIM_X` patches (at least one), the occupancy,
which is the number of patches with residents divided by `WORLDDIM_X`, lies in `[0,1]`, and
`margin_position` lies in `[0, WORLDDIM_X - 1]`. -/
theorem Analyze_bounds {σ : Type} (C : Consts) (acttime : Nat) (actrun : Int)
    (s : Globals σ) (hlen : s.world.length = C.WORLDDIM_X) (hW : 0 < C.WORLDDIM_X) :
    ∃ s', Analyze C acttime actrun s = some s'
      ∧ s'.occupancy = (occupiedPatches s.world C.WORLDDIM_X : ℚ) / (C.WORLDDIM_X : ℚ)
      ∧ 0 ≤ s'.occupancy ∧ s'.occupancy ≤ 1
      ∧ 0 ≤ s'.margin_position ∧ s'.margin_position ≤ (C.WORLDDIM_X : Int) - 1 := by
  obtain ⟨m, hA, hmax, hwit⟩ := Analyze_spec C acttime actrun s hlen
  have hWq : (0 : ℚ) < (C.WORLDDIM_X : ℚ) := by exact_mod_cast hW
  have hle : (occupiedPatches s.world C.WORLDDIM_X : ℚ) ≤ (C.WORLDDIM_X : ℚ) := by
    exact_mod_cast occupiedPatches_le s.world C.WORLDDIM_X
  refine ⟨_, hA, rfl, ?_, ?_, ?_, ?_⟩
  · exact div_nonneg (Nat.cast_nonneg _) (le_of_lt hWq)
  · exact (div_le_one hWq).mpr hle
  · show 0 ≤ m
    rcases hwit with h0 | ⟨x, _, hxm, _⟩ <;> omega
  · show m ≤ (C.WORLDDIM_X : Int) - 1
    rcases hwit with h0 | ⟨x, hx, hxm, _⟩ <;> omega

/-- Witness of C12: the world of three patches with one occupied patch. -/
theorem Analyze_bounds_witness :
    ∃ s', Analyze ⟨3, 1, 1⟩ 0 0 (globalsOf [⟨[], []⟩, ⟨[testIndiv], []⟩, ⟨[], []⟩] 0) = some s'
      ∧ s'.occupancy
          = (occupiedPatches (globalsOf [⟨[], []⟩, ⟨[testIndiv], []⟩, ⟨[], []⟩] 0).world 3 : ℚ)
            / ((3 : Nat) : ℚ)
      ∧ 0 ≤ s'.occupancy ∧ s'.occupancy ≤ 1
      ∧ 0 ≤ s'.margin_position ∧ s'.margin_position ≤ ((3 : Nat) : Int) - 1 :=
  Analyze_bounds ⟨3, 1, 1⟩ 0 0 (globalsOf [⟨[], []⟩, ⟨[testIndiv], []⟩, ⟨[], []⟩] 0)
    (by decide) (by decide)

/-- C13: `Analyze` on a world of `WORLDDIM_X` patches is read-only and idempotent: it
leaves the world (residents and staging of every patch), the two emigration rates, the
equilibrium density and the generator as they were, and a second call directly after the
first returns the globals of the first, so the same `rel_metapopsize`, `occupancy` and
`margin_position`. -/
theorem Analyze_idempotent {σ : Type} (C : Consts) (acttime acttime2 : Nat)
    (actrun actrun2 : Int) (s : Globals σ) (hlen : s.world.length = C.WORLDDIM_X) :
    ∃ s', Analyze C acttime actrun s = some s'
      ∧ s'.world = s.world
      ∧ s'.rel_emigrants_core = s.rel_emigrants_core
      ∧ s'.rel_emigrants_margin = s.rel_emigrants_margin
      ∧ s'.equilibrium_density = s.equilibrium_density
      ∧ s'.rng = s.rng
      ∧ ∃ s'', Analyze C acttime2 actrun2 s' = some s''
          ∧ s''.rel_metapopsize = s'.rel_metapopsize
          ∧ s''.occupancy = s'.occupancy
          ∧ s''.margin_position = s'.margin_position
          ∧ s''.world = s'.world := by
  obtain ⟨m, hA, _, _⟩ := Analyze_spec C acttime actrun s hlen
  have h2 : Analyze C acttime2 actrun2 { s with
        rel_metapopsize := (residentsBelow s.world C.WORLDDIM_X : ℚ)
          / ((((C.WORLDDIM_X : Int) * s.equilibrium_density : Int)) : ℚ),
        occupancy := (occupiedPatches s.world C.WORLDDIM_X : ℚ) / (C.WORLDDIM_X : ℚ),
        margin_position := m } = Analyze C acttime actrun s := rfl
  exact ⟨_, hA, rfl, rfl, rfl, rfl, rfl, _, h2.trans hA, rfl, rfl, rfl, rfl⟩

/-- Witness of C13: the world of three patches with one occupied patch. -/
theorem Analyze_idempotent_witness :
    ∃ s', Analyze ⟨3, 1, 1⟩ 0 0 (globalsOf [⟨[], []⟩, ⟨[testIndiv], []⟩, ⟨[], []⟩] 0) = some s'
      ∧ s'.world = (globalsOf [⟨[], []⟩, ⟨[testIndiv], []⟩, ⟨[], []⟩] 0).world
      ∧ s'.rel_emigrants_core
          = (globalsOf [⟨[], []⟩, ⟨[testIndiv], []⟩, ⟨[], []⟩] 0).rel_emigrants_core
      ∧ s'.rel_emigrants_margin
          = (globalsOf [⟨[], []⟩, ⟨[testIndiv], []⟩, ⟨[], []⟩] 0).rel_emigrants_margin
      ∧ s'.equilibrium_density
          = (globalsOf [⟨[], []⟩, ⟨[testIndiv], []⟩, ⟨[], []⟩] 0).equilibrium_density
      ∧ s'.rng = (globalsOf [⟨[], []⟩, ⟨[testIndiv], []⟩, ⟨[], []⟩] 0).rng
      ∧ ∃ s'', Analyze ⟨3, 1, 1⟩ 1 0 s' = some s''
          ∧ s''.rel_metapopsize = s'.rel_metapopsize
          ∧ s''.occupancy = s'.occupancy
          ∧ s''.margin_position = s'.margin_position
          ∧ s''.world = s'.world :=
  Analyze_idempotent ⟨3, 1, 1⟩ 0 1 0 0
    (globalsOf [⟨[], []⟩, ⟨[testIndiv], []⟩, ⟨[], []⟩] 0) (by decide)

/-! ### Patch loops and the generator -/

/-- The rule of a patch loop whose pass `x` replaces patch `x` only, with the generator:
there are generator states `gs 0, ..., gs n`, the first the state before the loop, the last
the state after it, such that each patch below `n` goes from its value before the loop and
the state `gs x` to a value and the state `gs (x + 1)` related to them by `Post`. -/
theorem patchLoop_rule_rng {σ : Type} (body : Nat → Globals σ → Option (Globals σ))
    (Post : Nat → TPatch → σ → TPatch → σ → Prop)
    (hbody : ∀ x s p, s.world[x]? = some p →
      ∃ s' p', body x s = some s' ∧ s'.world = s.world.set x p' ∧ Post x p s.rng p' s'.rng)
    (n : Nat) (s : Globals σ) (hn : n ≤ s.world.length) :
    ∃ (s' : Globals σ) (gs : Nat → σ), forRange n body s = some s'
      ∧ s'.world.length = s.world.length
      ∧ (∀ x, n ≤ x → s'.world[x]? = s.world[x]?)
      ∧ gs 0 = s.rng ∧ gs n = s'.rng
      ∧ (∀ x p, x < n → s.world[x]? = some p →
          ∃ p', s'.world[x]? = some p' ∧ Post x p (gs x) p' (gs (x + 1))) := by
  have key := forRange_rule
    (fun k (t : Globals σ) => ∃ gs : Nat → σ, t.world.length = s.world.length
      ∧ (∀ x, k ≤ x → t.world[x]? = s.world[x]?)
      ∧ gs 0 = s.rng ∧ gs k = t.rng
      ∧ (∀ x p, x < k → s.world[x]? = some p →
          ∃ p', t.world[x]? = some p' ∧ Post x p (gs x) p' (gs (x + 1))))
    body n s
    ⟨fun _ => s.rng, rfl, fun _ _ => rfl, rfl, rfl, fun x _ hx => absurd hx (Nat.not_lt_zero x)⟩
    (by
      intro k t hk ⟨gs, htl, hrest, hg0, hgk, hprev⟩
      have hkl : k < t.world.length := by omega
      obtain ⟨t', p', ht', hw, hpost⟩ := hbody k t t.world[k] (List.getElem?_eq_getElem hkl)
      refine ⟨t', ht', fun i => if i ≤ k then gs i else t'.rng,
        by rw [hw, List.length_set]; exact htl, ?_, ?_, ?_, ?_⟩
      · intro x hx
        rw [hw, List.getElem?_set_ne (by omega)]
        exact hrest x (by omega)
      · simp only [Nat.zero_le, if_true]; exact hg0
      · simp only [show ¬ (k + 1 ≤ k) by omega, if_false]
      · intro x p hx hp
        by_cases hxk : x = k
        · subst hxk
          refine ⟨p', by rw [hw]; exact List.getElem?_set_self hkl, ?_⟩
          have e : t.world[x] = p := by
            have h1 := hrest x (Nat.le_refl x)
            rw [hp, List.getElem?_eq_getElem hkl] at h1
            exact Option.some.inj h1
          simp only [Nat.le_refl, if_true, show ¬ (x + 1 ≤ x) by omega, if_false]
          rw [hgk, ← e]; exact hpost
        · obtain ⟨q, hq, hq1⟩ := hprev x p (by omega) hp
          refine ⟨q, by rw [hw, List.getElem?_set_ne (by omega)]; exact hq, ?_⟩
          simp only [show x ≤ k by omega, show x + 1 ≤ k by omega, if_true]
          exact hq1)
  obtain ⟨s', hs', gs, h1, h2, h3, h4, h5⟩ := key
  exact ⟨s', gs, hs', h1, h2, h3, h4, h5⟩

/-! ### Generation replacement -/

/-- One pass of the patch loop of `Death` with the generator: a patch with staged offspring
takes one draw, a patch without takes none. -/
theorem deathPatch_rng {σ : Type} (P : Params) (R : RandomSource σ) (x : Nat) (s : Globals σ)
    (p : TPatch) (hp : s.world[x]? = some p) :
    ∃ s' p', deathPatch P R x s = some s' ∧ s'.world = s.world.set x p'
      ∧ (p' = (if 0 < p.newFemales.length then
            (if (R.ran s.rng).1 > P.epsilon then ⟨p.newFemales, []⟩ else ⟨[], []⟩)
          else ⟨[], p.newFemales⟩)
        ∧ s'.rng = (if 0 < p.newFemales.length then (R.ran s.rng).2 else s.rng)) := by
  by_cases h0 : 0 < p.newFemales.length
  · have h0' : ((p.newFemales.length : Int) > 0) := by exact_mod_cast h0
    by_cases hu : (R.ran s.rng).1 > P.epsilon
    · exact ⟨_, _, by simp only [deathPatch, hp, h0', hu, if_true]; rfl, rfl,
        by rw [if_pos h0, if_pos hu, appendAll_eq]; rfl, by rw [if_pos h0]⟩
    · exact ⟨_, _, by simp only [deathPatch, hp, h0', hu, if_true, if_false]; rfl, rfl,
        by rw [if_pos h0, if_neg hu], by rw [if_pos h0]⟩
  · have h0' : ¬ ((p.newFemales.length : Int) > 0) := by
      intro h; exact h0 (by exact_mod_cast h)
    exact ⟨_, _, by simp only [deathPatch, hp, h0', if_false]; rfl, rfl,
      by rw [if_neg h0], by rw [if_neg h0]⟩

/-- C17: generation replacement in `Death`. For every world, every active width within the
world and every generator, with `gs x` the generator state when the loop reaches patch `x`:
an active patch whose staging buffer is not empty takes one uniform draw, and its residents
afterwards are that staging buffer when the draw exceeds `epsilon` and none otherwise; an
active patch whose staging buffer is empty takes no draw and has no residents afterwards; so
the residents afterwards are none or exactly the staging buffer from before, whatever the
residents were. -/
theorem Death_replaces_generation {σ : Type} (P : Params) (R : RandomSource σ) (act : Int)
    (s : Globals σ) (hact : act ≤ (s.world.length : Int)) :
    ∃ (s' : Globals σ) (gs : Nat → σ), Death P R act s = some s'
      ∧ gs 0 = s.rng ∧ gs act.toNat = s'.rng
      ∧ ∀ (x : Nat) (p : TPatch), (x : Int) < act → s.world[x]? = some p →
          ∃ p', s'.world[x]? = some p'
            ∧ (p'.females = [] ∨ p'.females = p.newFemales)
            ∧ (p.newFemales ≠ [] → gs (x + 1) = (R.ran (gs x)).2
                ∧ ((R.ran (gs x)).1 > P.epsilon → p'.females = p.newFemales)
                ∧ (¬ ((R.ran (gs x)).1 > P.epsilon) → p'.females = []))
            ∧ (p.newFemales = [] → gs (x + 1) = gs x ∧ p'.females = []) := by
  obtain ⟨s', gs, hs', _, _, hg0, hgn, hin⟩ := patchLoop_rule_rng (deathPatch P R)
    (fun _ p g p' g' =>
      p' = (if 0 < p.newFemales.length then
            (if (R.ran g).1 > P.epsilon then ⟨p.newFemales, []⟩ else ⟨[], []⟩)
          else ⟨[], p.newFemales⟩)
        ∧ g' = (if 0 < p.newFemales.length then (R.ran g).2 else g))
    (fun x t p hp => deathPatch_rng P R x t p hp) act.toNat s (by omega)
  refine ⟨s', gs, hs', hg0, hgn, ?_⟩
  intro x p hx hp
  obtain ⟨p', hp', hval, hg⟩ := hin x p (by omega) hp
  refine ⟨p', hp', ?_, ?_, ?_⟩
  · rw [hval]
    split_ifs
    · exact Or.inr rfl
    · exact Or.inl rfl
    · exact Or.inl rfl
  · intro hne
    have h0 : 0 < p.newFemales.length := List.length_pos.mpr hne
    rw [if_pos h0] at hval hg
    refine ⟨hg, ?_, ?_⟩
    · intro hu; rw [hval, if_pos hu]
    · intro hu; rw [hval, if_neg hu]
  · intro hnil
    have h0 : ¬ 0 < p.newFemales.length := by rw [hnil]; simp
    rw [if_neg h0] at hval hg
    exact ⟨hg, by rw [hval]⟩

/-- Witness of C17: a patch with one resident and two staged offspring. -/
theorem Death_replaces_generation_witness :
    ∃ (s' : Globals Nat) (gs : Nat → Nat), Death testParams cycleSource 1
          (globalsOf [⟨[testIndiv], [testIndiv, testIndiv]⟩] 0) = some s'
      ∧ gs 0 = (globalsOf [⟨[testIndiv], [testIndiv, testIndiv]⟩] 0).rng
      ∧ gs (1 : Int).toNat = s'.rng
      ∧ ∀ (x : Nat) (p : TPatch), (x : Int) < 1 →
          (globalsOf [⟨[testIndiv], [testIndiv, testIndiv]⟩] 0).world[x]? = some p →
          ∃ p', s'.world[x]? = some p'
            ∧ (p'.females = [] ∨ p'.females = p.newFemales)
            ∧ (p.newFemales ≠ [] → gs (x + 1) = (cycleSource.ran (gs x)).2
                ∧ ((cycleSource.ran (gs x)).1 > testParams.epsilon →
                    p'.females = p.newFemales)
                ∧ (¬ ((cycleSource.ran (gs x)).1 > testParams.epsilon) → p'.females = []))
            ∧ (p.newFemales = [] → gs (x + 1) = gs x ∧ p'.females = []) :=
  Death_replaces_generation testParams cycleSource 1
    (globalsOf [⟨[testIndiv], [testIndiv, testIndiv]⟩] 0) (by decide)

/-! ### Mortality gradient -/

/-- The resident loop of `Mortality_gradient`, started after `n` draws of the stream from
`g0` with the residents numbered from `n`: it appends to `newFemales` the residents whose
own draw exceeds the local mortality, in order, and takes one draw per resident. -/
theorem mortalitySurvivors_eq {σ : Type} (R : RandomSource σ) (lm : Option ℚ) (g0 : σ)
    (l : List TIndiv) :
    ∀ (acc : List TIndiv) (n : Nat),
      (mortalitySurvivors R lm l acc (advance R n g0)).1
          = acc ++ ((l.enumFrom n).filter
              (fun q => exceedsMortality (drawAt R g0 q.1) lm)).map Prod.snd
        ∧ (mortalitySurvivors R lm l acc (advance R n g0)).2 = advance R (n + l.length) g0 := by
  induction l with
  | nil => intro acc n; simp [mortalitySurvivors]
  | cons a rest ih =>
    intro acc n
    have hadv : (R.ran (advance R n g0)).2 = advance R (n + 1) g0 := rfl
    have hdraw : (R.ran (advance R n g0)).1 = drawAt R g0 n := rfl
    have hlen : n + (a :: rest).length = n + 1 + rest.length := by
      simp only [List.length_cons]; omega
    by_cases hu : exceedsMortality (drawAt R g0 n) lm = true
    · have h := ih (acc ++ [a]) (n + 1)
      simp only [mortalitySurvivors, hdraw, hu, if_true, hadv, List.enumFrom_cons]
      rw [List.filter_cons_of_pos (by simpa using hu), hlen]
      simpa using h
    · have h := ih acc (n + 1)
      simp only [mortalitySurvivors, hdraw, hu, hadv, List.enumFrom_cons]
      rw [List.filter_cons_of_neg (by simpa using hu), hlen]
      exact h

/-- One pass of the patch loop of `Mortality_gradient` with the generator. -/
theorem mortalityPatch_rng {σ : Type} (C : Consts) (R : RandomSource σ) (x : Nat)
    (s : Globals σ) (p : TPatch) (hp : s.world[x]? = some p) :
    ∃ s' p', mortalityPatch C R x s = some s' ∧ s'.world = s.world.set x p'
      ∧ (p'.newFemales = []
        ∧ p'.females = ((p.females.enum).filter (fun q =>
              exceedsMortality (drawAt R s.rng q.1) (localMortality C x))).map Prod.snd
        ∧ s'.rng = advance R p.females.length s.rng) := by
  have h := mortalitySurvivors_eq R (localMortality C x) s.rng p.females [] 0
  simp only [advance, Nat.zero_add, List.nil_append] at h
  by_cases h0 : p.females.length > 0
  · refine ⟨_, ⟨appendAll [] (mortalitySurvivors R (localMortality C x) p.females []
        s.rng).1, []⟩,
      by simp only [mortalityPatch, hp, h0, if_true]; rfl, rfl, rfl, ?_, ?_⟩
    · simp only [appendAll_eq, List.nil_append]
      exact h.1
    · exact h.2
  · have hnil : p.females = [] := List.length_eq_zero.mp (by omega)
    refine ⟨_, ⟨p.females, []⟩, by simp only [mortalityPatch, hp, h0, if_false]; rfl, rfl, rfl,
      ?_, ?_⟩
    · simp [hnil]
    · simp [hnil, advance]

/-- The loop of `Mortality_gradient` over an active range within the world, with `gs x` the
generator state when the loop reaches patch `x`. -/
theorem Mortality_gradient_loop {σ : Type} (C : Consts) (R : RandomSource σ) (act : Int)
    (s : Globals σ) (hact : act ≤ (s.world.length : Int)) (hI : (C.INIT_ROWS : Int) < act) :
    ∃ (s' : Globals σ) (gs : Nat → σ), Mortality_gradient C R act s = some s'
      ∧ s'.world.length = s.world.length
      ∧ (∀ x, act.toNat ≤ x → s'.world[x]? = s.world[x]?)
      ∧ gs 0 = s.rng ∧ gs act.toNat = s'.rng
      ∧ ∀ (x : Nat) (p : TPatch), x < act.toNat → s.world[x]? = some p →
          ∃ p', s'.world[x]? = some p'
            ∧ (p'.newFemales = []
              ∧ p'.females = ((p.females.enum).filter (fun q =>
                    exceedsMortality (drawAt R (gs x) q.1) (localMortality C x))).map Prod.snd
              ∧ gs (x + 1) = advance R p.females.length (gs x)) := by
  have h := patchLoop_rule_rng (mortalityPatch C R)
    (fun x p g p' g' => p'.newFemales = []
      ∧ p'.females = ((p.females.enum).filter (fun q =>
            exceedsMortality (drawAt R g q.1) (localMortality C x))).map Prod.snd
      ∧ g' = advance R p.females.length g)
    (fun x t p hp => mortalityPatch_rng C R x t p hp) act.toNat s (by omega)
  unfold Mortality_gradient
  rw [if_pos hI]
  exact h

theorem exceedsMortality_some (d m : ℚ) : exceedsMortality d (some m) = decide (d > m) := rfl

/-- The divisor of the local mortality, `float(WORLDDIM_X-1)`, is at least 1 in a world of
at least two patches. -/
theorem mortality_divisor_pos (C : Consts) (hW : 2 ≤ C.WORLDDIM_X) :
    1 ≤ toFloat ((((C.WORLDDIM_X : Int) - 1 : Int)) : ℚ) := by
  have h1 : (1 : ℚ) ≤ ((((C.WORLDDIM_X : Int) - 1 : Int)) : ℚ) := by
    have : (1 : Int) ≤ (C.WORLDDIM_X : Int) - 1 := by omega
    exact_mod_cast this
  have := toFloat_mono h1
  rwa [toFloat_one] at this

/-- The local mortality in a world of at least two patches: a number in `[0,1]`, the
`float` nearest to `x / (WORLDDIM_X - 1)` when the world has at most `2 ^ 24` patches. -/
theorem localMortality_spec (C : Consts) (x : Nat) (hW : 2 ≤ C.WORLDDIM_X)
    (hx : x < C.WORLDDIM_X) :
    ∃ m : ℚ, localMortality C x = some m ∧ 0 ≤ m ∧ m ≤ 1
      ∧ (C.WORLDDIM_X ≤ 16777216 → m = toFloat ((x : ℚ) / ((C.WORLDDIM_X : ℚ) - 1))) := by
  have hden := mortality_divisor_pos C hW
  have hden0 : toFloat ((((C.WORLDDIM_X : Int) - 1 : Int)) : ℚ) ≠ 0 := by
    intro h; rw [h] at hden; norm_num at hden
  have hnum0 : 0 ≤ toFloat (x : ℚ) := toFloat_nonneg _ (Nat.cast_nonneg x)
  have hle : toFloat (x : ℚ) ≤ toFloat ((((C.WORLDDIM_X : Int) - 1 : Int)) : ℚ) := by
    apply toFloat_mono
    have : (x : Int) ≤ (C.WORLDDIM_X : Int) - 1 := by omega
    exact_mod_cast this
  have hq0 : 0 ≤ toFloat (x : ℚ) / toFloat ((((C.WORLDDIM_X : Int) - 1 : Int)) : ℚ) :=
    div_nonneg hnum0 (by linarith)
  have hq1 : toFloat (x : ℚ) / toFloat ((((C.WORLDDIM_X : Int) - 1 : Int)) : ℚ) ≤ 1 :=
    (div_le_one (by linarith)).mpr hle
  refine ⟨toFloat (toFloat (x : ℚ) / toFloat ((((C.WORLDDIM_X : Int) - 1 : Int)) : ℚ)), ?_,
    (toFloat_unit_interval _ hq0 hq1).1, (toFloat_unit_interval _ hq0 hq1).2, ?_⟩
  · unfold localMortality
    simp only
    rw [if_neg hden0]
  · intro hsmall
    have hcast : ((((C.WORLDDIM_X : Int) - 1 : Int)) : ℚ) = ((C.WORLDDIM_X - 1 : Nat) : ℚ) := by
      have : ((C.WORLDDIM_X : Int) - 1 : Int) = ((C.WORLDDIM_X - 1 : Nat) : Int) := by omega
      rw [this]; norm_cast
    have hcast2 : ((C.WORLDDIM_X : ℚ) - 1) = ((C.WORLDDIM_X - 1 : Nat) : ℚ) := by
      rw [Nat.cast_sub (by omega)]; norm_num
    rw [hcast, hcast2, toFloat_natCast x (by norm_num; omega),
      toFloat_natCast (C.WORLDDIM_X - 1) (by norm_num; omega)]

/-- The local mortality of the last patch of a world of at least two patches is 1. -/
theorem localMortality_far_edge (C : Consts) (hW : 2 ≤ C.WORLDDIM_X) :
    localMortality C (C.WORLDDIM_X - 1) = some 1 := by
  have hden := mortality_divisor_pos C hW
  have hden0 : toFloat ((((C.WORLDDIM_X : Int) - 1 : Int)) : ℚ) ≠ 0 := by
    intro h; rw [h] at hden; norm_num at hden
  have hcast : ((C.WORLDDIM_X - 1 : Nat) : ℚ) = ((((C.WORLDDIM_X : Int) - 1 : Int)) : ℚ) := by
    have : ((C.WORLDDIM_X : Int) - 1 : Int) = ((C.WORLDDIM_X - 1 : Nat) : Int) := by omega
    rw [this]; norm_cast
  unfold localMortality
  simp only
  rw [if_neg hden0, hcast, toFloat_div_self _ hden0]

/-- In a world of one patch the local mortality is not a number. -/
theorem localMortality_none (C : Consts) (x : Nat) (hW : C.WORLDDIM_X = 1) :
    localMortality C x = none := by
  unfold localMortality
  simp only
  rw [hW]
  rw [if_pos (by norm_num [toFloat_zero])]

/-- C19 (amended): `Mortality_gradient` on a world of `WORLDDIM_X` patches and an active
width within the world. When the active width exceeds `INIT_ROWS`: with `gs x` the
generator state when the loop reaches patch `x`, the residents of each active patch `x`
afterwards are the residents from before whose own draw (resident number `k` of the patch
has draw number `k` of the stream from `gs x`) passes the test against the local mortality,
in their order, a sub-list of the residents from before; the patch takes one draw per
resident; its staging buffer is empty afterwards. In a world of at least two patches the
local mortality is a number `m` in `[0,1]`, the quotient `float(x)/float(WORLDDIM_X-1)` in
single precision (the `float` nearest to `x / (WORLDDIM_X - 1)` for a world of at most
`2 ^ 24` patches), and the test is that the draw strictly exceeds `m`; in a world of one
patch the quotient is not a number, the test fails and no resident is left. When the active
width does not exceed `INIT_ROWS` the phase returns the globals as they are, generator
included. -/
theorem Mortality_gradient_survivors {σ : Type} (C : Consts) (R : RandomSource σ) (act : Int)
    (s : Globals σ) (hlen : s.world.length = C.WORLDDIM_X)
    (hact : act ≤ (C.WORLDDIM_X : Int)) :
    ((C.INIT_ROWS : Int) < act →
        ∃ (s' : Globals σ) (gs : Nat → σ), Mortality_gradient C R act s = some s'
          ∧ gs 0 = s.rng ∧ gs act.toNat = s'.rng
          ∧ ∀ (x : Nat) (p : TPatch), (x : Int) < act → s.world[x]? = some p →
              ∃ p', s'.world[x]? = some p'
                ∧ p'.newFemales = []
                ∧ p'.females = ((p.females.enum).filter (fun q =>
                      exceedsMortality (drawAt R (gs x) q.1) (localMortality C x))).map Prod.snd
                ∧ List.Sublist p'.females p.females
                ∧ gs (x + 1) = advance R p.females.length (gs x)
                ∧ (2 ≤ C.WORLDDIM_X →
                    ∃ m : ℚ, localMortality C x = some m ∧ 0 ≤ m ∧ m ≤ 1
                      ∧ m = toFloat (toFloat (x : ℚ)
                              / toFloat ((((C.WORLDDIM_X : Int) - 1 : Int)) : ℚ))
                      ∧ (C.WORLDDIM_X ≤ 16777216 →
                          m = toFloat ((x : ℚ) / ((C.WORLDDIM_X : ℚ) - 1)))
                      ∧ p'.females = ((p.females.enum).filter (fun q =>
                            decide (drawAt R (gs x) q.1 > m))).map Prod.snd)
                ∧ (C.WORLDDIM_X = 1 → p'.females = []))
      ∧ (act ≤ (C.INIT_ROWS : Int) → Mortality_gradient C R act s = some s) := by
  constructor
  · intro hI
    obtain ⟨s', gs, hs', _, _, hg0, hgn, hin⟩ :=
      Mortality_gradient_loop C R act s (by omega) hI
    refine ⟨s', gs, hs', hg0, hgn, ?_⟩
    intro x p hx hp
    obtain ⟨p', hp', hnew, hfem, hg⟩ := hin x p (by omega) hp
    refine ⟨p', hp', hnew, hfem, ?_, hg, ?_, ?_⟩
    · rw [hfem]
      have hsub := ((List.filter_sublist (p := fun q =>
        exceedsMortality (drawAt R (gs x) q.1) (localMortality C x)) p.females.enum).map
          Prod.snd)
      rwa [List.enum_map_snd] at hsub
    rotate_left
    · intro hW
      rw [hfem, localMortality_none C x hW]
      simp [exceedsMortality]
    · intro hW
      obtain ⟨m, hm, h0, h1, h24⟩ := localMortality_spec C x hW (by omega)
      have hmdef : m = toFloat (toFloat (x : ℚ)
          / toFloat ((((C.WORLDDIM_X : Int) - 1 : Int)) : ℚ)) := by
        have hden := mortality_divisor_pos C hW
        have hden0 : toFloat ((((C.WORLDDIM_X : Int) - 1 : Int)) : ℚ) ≠ 0 := by
          intro h; rw [h] at hden; norm_num at hden
        have h2 : localMortality C x = some (toFloat (toFloat (x : ℚ)
            / toFloat ((((C.WORLDDIM_X : Int) - 1 : Int)) : ℚ))) := by
          unfold localMortality
          simp only
          rw [if_neg hden0]
        rw [hm] at h2
        exact Option.some.inj h2
      refine ⟨m, hm, h0, h1, hmdef, h24, ?_⟩
      rw [hfem, hm]
      rfl
  · intro hI
    unfold Mortality_gradient
    rw [if_neg (by omega)]

/-- Witness of C19 (amended): a world of three patches with burn-in width 1, all active,
and with active width 1. -/
theorem Mortality_gradient_survivors_witness :
    (∃ (s' : Globals Nat) (gs : Nat → Nat), Mortality_gradient ⟨3, 1, 1⟩ cycleSource 3
          (globalsOf [⟨[testIndiv], []⟩, ⟨[testIndiv, testIndiv], []⟩, ⟨[testIndiv], []⟩] 0)
          = some s'
        ∧ gs 0 = 0 ∧ gs 3 = s'.rng)
      ∧ Mortality_gradient ⟨3, 1, 1⟩ cycleSource 1
          (globalsOf [⟨[testIndiv], []⟩, ⟨[testIndiv, testIndiv], []⟩, ⟨[testIndiv], []⟩] 0)
          = some
            (globalsOf [⟨[testIndiv], []⟩, ⟨[testIndiv, testIndiv], []⟩, ⟨[testIndiv], []⟩] 0)
      := by
  constructor
  · obtain ⟨s', gs, h1, h2, h3, _⟩ := (Mortality_gradient_survivors ⟨3, 1, 1⟩ cycleSource 3
      (globalsOf [⟨[testIndiv], []⟩, ⟨[testIndiv, testIndiv], []⟩, ⟨[testIndiv], []⟩] 0)
      (by decide) (by decide)).1 (by decide)
    exact ⟨s', gs, h1, h2, h3⟩
  · exact (Mortality_gradient_survivors ⟨3, 1, 1⟩ cycleSource 1
      (globalsOf [⟨[testIndiv], []⟩, ⟨[testIndiv, testIndiv], []⟩, ⟨[testIndiv], []⟩] 0)
      (by decide) (by decide)).2 (by decide)

theorem localMortality_third :
    localMortality ⟨4, 1, 1⟩ 1 = some (11184811 / 33554432) := by
  have h3 : toFloat (((((4 : Nat) : Int) - 1 : Int)) : ℚ) = 3 := by
    have := toFloat_natCast 3 (by norm_num)
    norm_num at this ⊢
    exact this
  have h1 : toFloat (((1 : Nat)) : ℚ) = 1 := by
    rw [Nat.cast_one, toFloat_one]
  have hq : toFloat (1 / 3) = 11184811 / 33554432 := by
    rw [toFloat_eval (1 / 3) (-2) 11184811 (by norm_num) (by norm_num) (by norm_num)
      (by rw [abs_lt]; constructor <;> norm_num)]
    norm_num
  unfold localMortality
  simp only [h3, h1]
  rw [if_neg (by norm_num), hq]

/-- C19 (counterexample): a world of four patches, burn-in width 1, all four active; patch
1 has one resident and every draw is `11184811 / 33554432`, the `float` nearest to 1/3. The
draw strictly exceeds `x / (WORLDDIM_X - 1) = 1/3`, and yet patch 1 has no resident after
`Mortality_gradient`: the local mortality is the `float` quotient, which the draw equals. -/
theorem Mortality_gradient_float_threshold :
    (0 : ℚ) ≤ 11184811 / 33554432 ∧ (11184811 : ℚ) / 33554432 < 1
      ∧ ((1 : Nat) : ℚ) / ((((4 : Nat) : Int) - 1 : Int) : ℚ) < 11184811 / 33554432
      ∧ ∃ s' p', Mortality_gradient ⟨4, 1, 1⟩ (constSource (11184811 / 33554432)) 4
            (globalsOf [⟨[], []⟩, ⟨[testIndiv], []⟩, ⟨[], []⟩, ⟨[], []⟩] 0) = some s'
          ∧ s'.world[1]? = some p' ∧ p'.females = [] := by
  refine ⟨by norm_num, by norm_num, by norm_num, ?_⟩
  obtain ⟨s', gs, hs', _, _, _, _, hin⟩ :=
    Mortality_gradient_loop ⟨4, 1, 1⟩ (constSource (11184811 / 33554432)) 4
      (globalsOf [⟨[], []⟩, ⟨[testIndiv], []⟩, ⟨[], []⟩, ⟨[], []⟩] 0) (by decide) (by decide)
  obtain ⟨p', hp', _, hfem, _⟩ := hin 1 ⟨[testIndiv], []⟩ (by decide) rfl
  refine ⟨s', p', hs', hp', ?_⟩
  rw [hfem, localMortality_third]
  have hd : ∀ k, drawAt (constSource (11184811 / 33554432)) (gs 1) k = 11184811 / 33554432 :=
    fun _ => rfl
  simp [exceedsMortality, hd]

/-- C20: with `WORLDDIM_X` at least 2 and the active width `WORLDDIM_X` above `INIT_ROWS`,
for every world of `WORLDDIM_X` patches and every stream of uniform draws in `[0,1)`, the
patch `WORLDDIM_X - 1` has no residents after `Mortality_gradient`: its local mortality
is 1 and no draw exceeds it. -/
theorem Mortality_gradient_far_edge {σ : Type} (C : Consts) (R : RandomSource σ)
    (s : Globals σ) (hlen : s.world.length = C.WORLDDIM_X) (hW : 2 ≤ C.WORLDDIM_X)
    (hI : C.INIT_ROWS < C.WORLDDIM_X) (hR : R.Uniform) :
    ∃ s', Mortality_gradient C R (C.WORLDDIM_X : Int) s = some s'
      ∧ localMortality C (C.WORLDDIM_X - 1) = some 1
      ∧ ∃ p', s'.world[C.WORLDDIM_X - 1]? = some p' ∧ p'.females = [] := by
  obtain ⟨s', gs, hs', _, _, _, _, hin⟩ :=
    Mortality_gradient_loop C R (C.WORLDDIM_X : Int) s (by omega) (by omega)
  have hxl : C.WORLDDIM_X - 1 < s.world.length := by omega
  obtain ⟨p', hp', _, hfem, _⟩ := hin (C.WORLDDIM_X - 1) s.world[C.WORLDDIM_X - 1] (by omega)
    (List.getElem?_eq_getElem hxl)
  have hone := localMortality_far_edge C hW
  refine ⟨s', hs', hone, p', hp', ?_⟩
  rw [hfem, hone]
  have hnone : ∀ q ∈ s.world[C.WORLDDIM_X - 1].females.enum,
      ¬ (exceedsMortality (drawAt R (gs (C.WORLDDIM_X - 1)) q.1) (some 1) = true) := by
    intro q _
    have h := (hR (advance R q.1 (gs (C.WORLDDIM_X - 1)))).2
    simp only [exceedsMortality, decide_eq_true_eq, not_lt, drawAt]
    exact le_of_lt h
  rw [List.filter_eq_nil_iff.mpr hnone]
  rfl

/-- Witness of C20: a world of three patches with burn-in width 1. -/
theorem Mortality_gradient_far_edge_witness :
    ∃ s', Mortality_gradient ⟨3, 1, 1⟩ cycleSource ((3 : Nat) : Int)
          (globalsOf [⟨[testIndiv], []⟩, ⟨[testIndiv, testIndiv], []⟩, ⟨[testIndiv], []⟩] 0)
          = some s'
      ∧ localMortality ⟨3, 1, 1⟩ (3 - 1) = some 1
      ∧ ∃ p', s'.world[3 - 1]? = some p' ∧ p'.females = [] :=
  Mortality_gradient_far_edge ⟨3, 1, 1⟩ cycleSource
    (globalsOf [⟨[testIndiv], []⟩, ⟨[testIndiv, testIndiv], []⟩, ⟨[testIndiv], []⟩] 0)
    (by decide) (by decide) (by decide) cycleSource_uniform

/-! ### Patches beyond the active width -/

theorem reproducePatch_set {σ : Type} (M : CMath) (P : Params) (R : RandomSource σ) (x : Nat)
    (s : Globals σ) (p : TPatch) (hp : s.world[x]? = some p) :
    ∃ s' p', reproducePatch M P R x s = some s' ∧ s'.world = s.world.set x p' ∧ True := by
  by_cases h0 : p.females.length > 0
  · exact ⟨_, ⟨p.females, (reproduceFemales M P R x
        (p.females.foldl (fun acc ind => acc + ind.alpha) 0) p.females 0 [] s.rng).1⟩,
      by simp only [reproducePatch, hp, h0, if_true]; rfl, rfl, trivial⟩
  · exact ⟨_, ⟨p.females, []⟩, by simp only [reproducePatch, hp, h0, if_false]; rfl, rfl,
      trivial⟩

/-- The function `Reproduction` on an active range within the world: it has a result with
as many patches, and the patches from the active width on are as before. -/
theorem Reproduction_frame {σ : Type} (M : CMath) (P : Params) (R : RandomSource σ)
    (act : Int) (s : Globals σ) (hact : act ≤ (s.world.length : Int)) :
    ∃ s', Reproduction M P R act s = some s' ∧ s'.world.length = s.world.length
      ∧ ∀ y : Nat, act ≤ (y : Int) → s'.world[y]? = s.world[y]? := by
  obtain ⟨s', hs', hl, hrest, _⟩ := patchLoop_rule (reproducePatch M P R) (fun _ _ _ => True)
    (fun x t p hp => reproducePatch_set M P R x t p hp) act.toNat s (by omega)
  exact ⟨s', hs', hl, fun y hy => hrest y (by omega)⟩

/-- The function `Death` on an active range within the world: it has a result with as
many patches, and the patches from the active width on are as before. -/
theorem Death_frame {σ : Type} (P : Params) (R : RandomSource σ) (act : Int) (s : Globals σ)
    (hact : act ≤ (s.world.length : Int)) :
    ∃ s', Death P R act s = some s' ∧ s'.world.length = s.world.length
      ∧ ∀ y : Nat, act ≤ (y : Int) → s'.world[y]? = s.world[y]? := by
  obtain ⟨s', hs', hl, hrest, _⟩ := Death_loop P R act s (by omega)
  exact ⟨s', hs', hl, fun y hy => hrest y (by omega)⟩

/-- The function `Mortality_gradient` on an active range within the world: it has a result
with as many patches, and the patches from the active width on are as before. -/
theorem Mortality_gradient_frame {σ : Type} (C : Consts) (R : RandomSource σ) (act : Int)
    (s : Globals σ) (hact : act ≤ (s.world.length : Int)) :
    ∃ s', Mortality_gradient C R act s = some s' ∧ s'.world.length = s.world.length
      ∧ ∀ y : Nat, act ≤ (y : Int) → s'.world[y]? = s.world[y]? := by
  by_cases hI : (C.INIT_ROWS : Int) < act
  · obtain ⟨s', _, hs', hl, hrest, _⟩ := Mortality_gradient_loop C R act s hact hI
    exact ⟨s', hs', hl, fun y hy => hrest y (by omega)⟩
  · exact ⟨s, by unfold Mortality_gradient; rw [if_neg (by omega)], rfl, fun _ _ => rfl⟩

/-- C14: during burn-in (active width `INIT_ROWS`, within the world), for every world and
every stream of uniform draws in `[0,1)`, each of `Mortality_gradient`, `Dispersal`,
`Reproduction` and `Death`, and so the life cycle, has a result in which every patch with
index at least `INIT_ROWS` is as before, residents and staging buffer; the dispersal kernel
sends a disperser from an active patch to an index below `INIT_ROWS`. -/
theorem burn_in_frame {σ : Type} (C : Consts) (M : CMath) (P : Params) (R : RandomSource σ)
    (s : Globals σ) (hI : C.INIT_ROWS ≤ s.world.length) (hR : R.Uniform) :
    (∃ s', Mortality_gradient C R (C.INIT_ROWS : Int) s = some s'
        ∧ ∀ y : Nat, C.INIT_ROWS ≤ y → s'.world[y]? = s.world[y]?)
      ∧ (∃ s', Dispersal C P R (C.INIT_ROWS : Int) s = some s'
        ∧ ∀ y : Nat, C.INIT_ROWS ≤ y → s'.world[y]? = s.world[y]?)
      ∧ (∃ s', Reproduction M P R (C.INIT_ROWS : Int) s = some s'
        ∧ ∀ y : Nat, C.INIT_ROWS ≤ y → s'.world[y]? = s.world[y]?)
      ∧ (∃ s', Death P R (C.INIT_ROWS : Int) s = some s'
        ∧ ∀ y : Nat, C.INIT_ROWS ≤ y → s'.world[y]? = s.world[y]?)
      ∧ (∃ s', lifeCycle C M P R (C.INIT_ROWS : Int) s = some s'
        ∧ ∀ y : Nat, C.INIT_ROWS ≤ y → s'.world[y]? = s.world[y]?)
      ∧ (∀ (x : Nat) (g : σ), x < C.INIT_ROWS →
          ∃ (r : Nat) (g' : σ), findNewPatch C R (x : Int) (C.INIT_ROWS : Int) g
              = some ((r : Int), g') ∧ r < C.INIT_ROWS) := by
  have hact : (C.INIT_ROWS : Int) ≤ (s.world.length : Int) := by omega
  refine ⟨?_, ?_, ?_, ?_, ?_, ?_⟩
  · obtain ⟨s', hs', _, h⟩ := Mortality_gradient_frame C R (C.INIT_ROWS : Int) s hact
    exact ⟨s', hs', fun y hy => h y (by omega)⟩
  · obtain ⟨s', hs', _, _, h⟩ := Dispersal_frame C P R hR (C.INIT_ROWS : Int) s hact
    exact ⟨s', hs', fun y hy => h y (by omega)⟩
  · obtain ⟨s', hs', _, h⟩ := Reproduction_frame M P R (C.INIT_ROWS : Int) s hact
    exact ⟨s', hs', fun y hy => h y (by omega)⟩
  · obtain ⟨s', hs', _, h⟩ := Death_frame P R (C.INIT_ROWS : Int) s hact
    exact ⟨s', hs', fun y hy => h y (by omega)⟩
  · have h1 : ∃ s1, (if P.mort_grad = true then Mortality_gradient C R (C.INIT_ROWS : Int) s
          else some s) = some s1 ∧ s1.world.length = s.world.length
        ∧ ∀ y : Nat, (C.INIT_ROWS : Int) ≤ (y : Int) → s1.world[y]? = s.world[y]? := by
      by_cases hm : P.mort_grad = true
      · rw [if_pos hm]; exact Mortality_gradient_frame C R (C.INIT_ROWS : Int) s hact
      · rw [if_neg hm]; exact ⟨s, rfl, rfl, fun _ _ => rfl⟩
    obtain ⟨s1, e1, l1, f1⟩ := h1
    obtain ⟨s2, e2, l2, _, f2⟩ := Dispersal_frame C P R hR (C.INIT_ROWS : Int) s1 (by omega)
    obtain ⟨s3, e3, l3, f3⟩ := Reproduction_frame M P R (C.INIT_ROWS : Int) s2 (by omega)
    obtain ⟨s4, e4, l4, f4⟩ := Death_frame P R (C.INIT_ROWS : Int) s3 (by omega)
    refine ⟨s4, by simp only [lifeCycle, e1, Option.bind, e2, e3, e4], ?_⟩
    intro y hy
    have hy' : (C.INIT_ROWS : Int) ≤ (y : Int) := by omega
    rw [f4 y hy', f3 y hy', f2 y hy', f1 y hy']
  · intro x g hx
    obtain ⟨r, hr, hr0, hr1⟩ := findNewPatch_range C R (x : Int) (C.INIT_ROWS : Int) g
      (by omega) (by omega) (hR g)
    refine ⟨r.toNat, (R.ran g).2, ?_, by omega⟩
    rw [hr, Int.toNat_of_nonneg hr0]

/-- Witness of C14: a world of three patches with burn-in width 1 and a resident beyond. -/
theorem burn_in_frame_witness :
    ∃ s', lifeCycle ⟨3, 1, 1⟩ testMath testParams cycleSource ((1 : Nat) : Int)
          (globalsOf [⟨[testIndiv], []⟩, ⟨[], []⟩, ⟨[testIndiv], [testIndiv]⟩] 0) = some s'
      ∧ ∀ y : Nat, 1 ≤ y → s'.world[y]?
          = (globalsOf [⟨[testIndiv], []⟩, ⟨[], []⟩, ⟨[testIndiv], [testIndiv]⟩] 0).world[y]? :=
  (burn_in_frame ⟨3, 1, 1⟩ testMath testParams cycleSource
    (globalsOf [⟨[testIndiv], []⟩, ⟨[], []⟩, ⟨[testIndiv], [testIndiv]⟩] 0) (by decide)
    cycleSource_uniform).2.2.2.2.1

/-! ### The fertility trade-off -/

theorem rationalExp_strictMono : StrictMono rationalExp := by
  intro a b hab
  unfold rationalExp
  by_cases ha : a < 0
  · by_cases hb : b < 0
    · rw [if_pos ha, if_pos hb]
      exact one_div_lt_one_div_of_lt (by linarith) (by linarith)
    · rw [if_pos ha, if_neg hb]
      have h1 : 1 / (1 - a) < 1 := by
        rw [div_lt_one (by linarith)]; linarith
      linarith
  · have hb : ¬ b < 0 := by intro h; exact ha (by linarith)
    rw [if_neg ha, if_neg hb]
    linarith

theorem rationalExp_pos (q : ℚ) : 0 < rationalExp q := by
  unfold rationalExp
  split_ifs with h
  · apply div_pos (by norm_num); linarith
  · linarith

theorem underflowExp_monotone : Monotone underflowExp := by
  intro a b hab
  unfold underflowExp
  by_cases ha : a < -100
  · rw [if_pos ha]
    split_ifs
    · exact le_refl 0
    · exact le_of_lt (rationalExp_pos b)
  · rw [if_neg ha, if_neg (by linarith)]
    exact rationalExp_strictMono.monotone hab

/-- C15 (counterexample): with baseline fertility 2 and trade-off exponent 1 (and an
increasing `exp`), the alleles `-2 < -1` are both clamped to 0 and have the same fertility:
the fertility of `-1` is not below the fertility of `-2`. -/
theorem tradeOff_flat_below_zero :
    1 < testParams.lambda_null ∧ 0 ≤ testParams.trade_off_exp ∧ StrictMono monoMath.exp
      ∧ (-2 : ℚ) < -1
      ∧ lambda_disersal_tradeOff monoMath testParams (-1)
          = lambda_disersal_tradeOff monoMath testParams (-2)
      ∧ ¬ (lambda_disersal_tradeOff monoMath testParams (-1)
          < lambda_disersal_tradeOff monoMath testParams (-2)) := by
  have e : lambda_disersal_tradeOff monoMath testParams (-1)
      = lambda_disersal_tradeOff monoMath testParams (-2) := by
    simp [lambda_disersal_tradeOff]
  refine ⟨by norm_num [testParams], by norm_num [testParams], rationalExp_strictMono,
    by norm_num, e, ?_⟩
  rw [e]
  exact lt_irrefl _

/-- C15 (amended): for valid parameters (baseline fertility above 1, trade-off exponent not
negative) and a library `exp` that does not decrease, the fertility
`lambda_null * exp (-trade_off_exp * max d 0)`, with both products in single precision,
does not increase with the allele `d` over the whole line, and it is constant on the
alleles up to 0. -/
theorem tradeOff_antitone (M : CMath) (P : Params) (hl : 1 < P.lambda_null)
    (ht : 0 ≤ P.trade_off_exp) (hexp : Monotone M.exp) :
    (∀ d : ℚ, lambda_disersal_tradeOff M P d
        = toFloat (P.lambda_null * M.exp (toFloat (-P.trade_off_exp * max d 0))))
      ∧ (∀ d1 d2 : ℚ, d1 ≤ d2 →
          lambda_disersal_tradeOff M P d2 ≤ lambda_disersal_tradeOff M P d1)
      ∧ (∀ d1 d2 : ℚ, d1 ≤ 0 → d2 ≤ 0 →
          lambda_disersal_tradeOff M P d2 = lambda_disersal_tradeOff M P d1) := by
  have hform : ∀ d : ℚ, lambda_disersal_tradeOff M P d
      = toFloat (P.lambda_null * M.exp (toFloat (-P.trade_off_exp * max d 0))) := by
    intro d
    unfold lambda_disersal_tradeOff
    by_cases hd : d < 0
    · simp only [hd, if_true, max_eq_right (le_of_lt hd)]
    · simp only [hd, if_false, max_eq_left (not_lt.mp hd)]
  have hpos : 0 < P.lambda_null := by linarith
  refine ⟨hform, ?_, ?_⟩
  · intro d1 d2 h
    rw [hform d1, hform d2]
    apply toFloat_mono
    apply mul_le_mul_of_nonneg_left _ (le_of_lt hpos)
    apply hexp
    apply toFloat_mono
    have hmax : max d1 0 ≤ max d2 0 := max_le_max h (le_refl 0)
    nlinarith
  · intro d1 d2 h1 h2
    rw [hform d1, hform d2, max_eq_right h1, max_eq_right h2]

/-- Witness of C15 (amended): fertility 2, trade-off exponent 1; the increasing stand-in for
`exp` at the alleles `1/2 ≤ 1` and `-2`, `-1`, and the underflowing stand-in at the alleles
`200 ≤ 300`. -/
theorem tradeOff_antitone_witness :
    lambda_disersal_tradeOff monoMath testParams 1
        ≤ lambda_disersal_tradeOff monoMath testParams (1 / 2)
      ∧ lambda_disersal_tradeOff monoMath testParams (-1)
        = lambda_disersal_tradeOff monoMath testParams (-2)
      ∧ lambda_disersal_tradeOff underflowMath testParams 300
        ≤ lambda_disersal_tradeOff underflowMath testParams 200 :=
  ⟨(tradeOff_antitone monoMath testParams (by norm_num [testParams])
      (by norm_num [testParams]) rationalExp_strictMono.monotone).2.1 (1 / 2) 1 (by norm_num),
    (tradeOff_antitone monoMath testParams (by norm_num [testParams])
      (by norm_num [testParams]) rationalExp_strictMono.monotone).2.2 (-2) (-1) (by norm_num)
      (by norm_num),
    (tradeOff_antitone underflowMath testParams (by norm_num [testParams])
      (by norm_num [testParams]) underflowExp_monotone).2.1 200 300 (by norm_num)⟩

/-! ### Individuals through the phases -/

/-- A world whose patches are, each, as before or made of individuals of the patch before
and of individuals with the property `N`, holds only individuals from before and
individuals with the property `N`. -/
theorem individualPresent_of_patches (w w' : List TPatch) (N : TIndiv → Prop)
    (h : ∀ y : Nat, w'[y]? = w[y]? ∨ ∃ p p' : TPatch, w[y]? = some p ∧ w'[y]? = some p'
      ∧ ∀ i : TIndiv, (i ∈ p'.females ∨ i ∈ p'.newFemales) →
          (i ∈ p.females ∨ i ∈ p.newFemales) ∨ N i)
    (i : TIndiv) (hi : individualPresent w' i) : individualPresent w i ∨ N i := by
  obtain ⟨y, hy⟩ := hi
  rcases h y with he | ⟨p, p', hp, hp', hsub⟩
  · left
    refine ⟨y, ?_⟩
    simpa only [femalesAt, newFemalesAt, he] using hy
  · rw [femalesAt_of_some w' y p' hp', newFemalesAt_of_some w' y p' hp'] at hy
    rcases hsub i hy with hj | hn
    · left
      refine ⟨y, ?_⟩
      rw [femalesAt_of_some w y p hp, newFemalesAt_of_some w y p hp]
      exact hj
    · exact Or.inr hn

/-- The result of a patch loop (see `patchLoop_rule`) holds only individuals from before
and individuals with the property `N` when every pass fills its patch with such. -/
theorem individualPresent_of_patchLoop (w w' : List TPatch) (n : Nat) (N : TIndiv → Prop)
    (Post : Nat → TPatch → TPatch → Prop)
    (hPost : ∀ (x : Nat) (p p' : TPatch), Post x p p' →
      ∀ i : TIndiv, (i ∈ p'.females ∨ i ∈ p'.newFemales) →
        (i ∈ p.females ∨ i ∈ p.newFemales) ∨ N i)
    (hl : w'.length = w.length)
    (hrest : ∀ x, n ≤ x → w'[x]? = w[x]?)
    (hact : ∀ x p, x < n → w[x]? = some p → ∃ p', w'[x]? = some p' ∧ Post x p p')
    (i : TIndiv) (hi : individualPresent w' i) : individualPresent w i ∨ N i := by
  refine individualPresent_of_patches w w' N ?_ i hi
  intro y
  by_cases hy : y < n
  · by_cases hyl : y < w.length
    · obtain ⟨p', hp', hpost⟩ := hact y w[y] hy (List.getElem?_eq_getElem hyl)
      exact Or.inr ⟨w[y], p', List.getElem?_eq_getElem hyl, hp', hPost y _ _ hpost⟩
    · left
      rw [List.getElem?_eq_none (by omega), List.getElem?_eq_none (by omega)]
  · exact Or.inl (hrest y (by omega))

/-- The function `Mortality_gradient` on an active range within the world: it has a result
that holds only individuals from before. -/
theorem Mortality_gradient_individuals {σ : Type} (C : Consts) (R : RandomSource σ)
    (act : Int) (s : Globals σ) (hact : act ≤ (s.world.length : Int)) :
    ∃ s', Mortality_gradient C R act s = some s' ∧ s'.world.length = s.world.length
      ∧ ∀ i, individualPresent s'.world i → individualPresent s.world i := by
  unfold Mortality_gradient
  by_cases hI : act > (C.INIT_ROWS : Int)
  · rw [if_pos hI]
    obtain ⟨s', hs', hl, hrest, hin⟩ := patchLoop_rule (mortalityPatch C R)
      (fun _ p p' => p'.newFemales = [] ∧ ∀ i ∈ p'.females, i ∈ p.females)
      (fun x t p hp => mortalityPatch_spec C R x t p hp) act.toNat s (by omega)
    refine ⟨s', hs', hl, fun i hi => ?_⟩
    have h := individualPresent_of_patchLoop s.world s'.world act.toNat (fun _ => False) _
      (by
        intro x p p' ⟨hn, hf⟩ j hj
        rcases hj with h | h
        · exact Or.inl (Or.inl (hf j h))
        · rw [hn] at h; simp at h) hl hrest hin i hi
    exact h.resolve_right id
  · rw [if_neg hI]
    exact ⟨s, rfl, rfl, fun _ h => h⟩

/-- The function `Death` on an active range within the world: it has a result that holds
only individuals from before. -/
theorem Death_individuals {σ : Type} (P : Params) (R : RandomSource σ) (act : Int)
    (s : Globals σ) (hact : act ≤ (s.world.length : Int)) :
    ∃ s', Death P R act s = some s' ∧ s'.world.length = s.world.length
      ∧ ∀ i, individualPresent s'.world i → individualPresent s.world i := by
  obtain ⟨s', hs', hl, hrest, hin⟩ := Death_loop P R act s (by omega)
  refine ⟨s', hs', hl, fun i hi => ?_⟩
  have h := individualPresent_of_patchLoop s.world s'.world act.toNat (fun _ => False) _
    (by
      intro x p p' ⟨g, hg⟩ j hj
      rw [hg] at hj
      left
      split_ifs at hj
      · rcases hj with h | h
        · exact Or.inr h
        · simp at h
      · rcases hj with h | h <;> simp at h
      · rcases hj with h | h
        · simp at h
        · exact Or.inr h) hl hrest hin i hi
  exact h.resolve_right id

/-- The function `Dispersal` on an active range within the world, for draws in `[0,1)`: it
has a result that holds only individuals from before. -/
theorem Dispersal_individuals {σ : Type} (C : Consts) (P : Params) (R : RandomSource σ)
    (hR : R.Uniform) (act : Int) (s : Globals σ) (hact : act ≤ (s.world.length : Int)) :
    ∃ s', Dispersal C P R act s = some s' ∧ s'.world.length = s.world.length
      ∧ ∀ i, individualPresent s'.world i → individualPresent s.world i := by
  obtain ⟨st, s', _, hD, hrel, hl, hl', hin, hout, _⟩ := Dispersal_rule C P R hR act s hact
    (fun a b => ∀ i, individualPresent b.world i → individualPresent a.world i)
    (fun _ _ h => h) (fun a b c hab hbc i h => hab i (hbc i h))
    (fun _ _ _ _ h => h) (fun _ _ _ _ _ _ _ _ h => h)
    (by
      intro x a b ind f hx hind hE i ⟨y, hi⟩
      obtain ⟨_, _, _, _, _, _, hfem, hnew⟩ := hE
      obtain ⟨hf, hget⟩ := List.getElem?_eq_some_iff.mp hind
      have hindmem : ind ∈ femalesAt a.world x := by rw [← hget]; exact List.getElem_mem _
      rcases hi with h | h
      · rw [hfem y] at h
        by_cases hy : y = x
        · rw [if_pos hy] at h
          exact ⟨x, Or.inl ((swapRemove_perm _ f hf).subset (List.mem_cons_of_mem _ h))⟩
        · rw [if_neg hy] at h
          exact ⟨y, Or.inl h⟩
      · rcases hnew with ⟨_, hsame⟩ | ⟨_, k, _, hpush⟩
        · rw [hsame y] at h
          exact ⟨y, Or.inr h⟩
        · rw [hpush y] at h
          by_cases hy : y = k
          · rw [if_pos hy] at h
            rcases List.mem_append.mp h with h | h
            · exact ⟨y, Or.inr h⟩
            · rw [List.mem_singleton.mp h]
              exact ⟨x, Or.inl hindmem⟩
          · rw [if_neg hy] at h
            exact ⟨y, Or.inr h⟩)
  refine ⟨s', hD, hl', ?_⟩
  intro i ⟨y, hi⟩
  apply hrel i
  by_cases hy : (y : Int) < act
  · rw [(hin y hy).1, (hin y hy).2] at hi
    rcases hi with h | h
    · rcases List.mem_append.mp h with h | h
      · exact ⟨y, Or.inl h⟩
      · exact ⟨y, Or.inr h⟩
    · simp at h
  · rw [(hout y (by omega)).1, (hout y (by omega)).2] at hi
    exact ⟨y, hi⟩

/-! ### Derived traits -/

theorem initFemales_derived {σ : Type} (M : CMath) (P : Params) (R : RandomSource σ) (n : Nat)
    (females : List TIndiv) (g : σ) (h : ∀ ind ∈ females, Derived M P ind) :
    ∀ ind ∈ (initFemales M P R n females g).1, Derived M P ind := by
  induction n generalizing females g with
  | zero => exact h
  | succ m ih =>
    simp only [initFemales]
    apply ih
    intro ind hind
    rcases List.mem_append.mp hind with h1 | h1
    · exact h ind h1
    · rw [List.mem_singleton] at h1
      subst h1
      exact ⟨rfl, rfl⟩

/-- One pass of the patch loop of `Initialize`: the new patch has an empty staging buffer
and residents with derived traits. -/
theorem initPatch_derived {σ : Type} (C : Consts) (M : CMath) (P : Params)
    (R : RandomSource σ) (x : Nat) (s : Globals σ) (hx : x < s.world.length) :
    ∃ s' p, initPatch C M P R x s = some s' ∧ s'.world = s.world.set x p
      ∧ p.newFemales = [] ∧ ∀ ind ∈ p.females, Derived M P ind := by
  obtain ⟨q, hq⟩ : ∃ q, s.world[x]? = some q := ⟨s.world[x], List.getElem?_eq_getElem hx⟩
  by_cases hI : x < C.INIT_ROWS
  · refine ⟨_, ⟨(initFemales M P R (equilibriumDensity M P).toNat [] s.rng).1, []⟩,
      by simp only [initPatch, hq, hI, if_true]; rfl, rfl, rfl, ?_⟩
    exact initFemales_derived M P R _ [] s.rng (by simp)
  · exact ⟨_, ⟨[], []⟩, by simp only [initPatch, hq, hI, if_false]; rfl, rfl, rfl, by simp⟩

/-- The function `Initialize` on a world of `WORLDDIM_X` patches: it has a result in which
every individual has derived traits. -/
theorem Initialize_derived {σ : Type} (C : Consts) (M : CMath) (P : Params)
    (R : RandomSource σ) (s : Globals σ) (hlen : s.world.length = C.WORLDDIM_X) :
    ∃ s', Initialize C M P R s = some s' ∧ s'.world.length = s.world.length
      ∧ ∀ i, individualPresent s'.world i → Derived M P i := by
  obtain ⟨s', hs', hl, hall⟩ := forRange_rule
    (fun k (t : Globals σ) => t.world.length = s.world.length
      ∧ ∀ x, x < k → ∃ p, t.world[x]? = some p ∧ p.newFemales = []
          ∧ ∀ ind ∈ p.females, Derived M P ind)
    (initPatch C M P R) C.WORLDDIM_X s ⟨rfl, fun x hx => absurd hx (Nat.not_lt_zero x)⟩
    (by
      intro k t hk ⟨htl, hprev⟩
      obtain ⟨t', p, ht', hw, hnf, hder⟩ := initPatch_derived C M P R k t (by omega)
      refine ⟨t', ht', by rw [hw, List.length_set]; exact htl, ?_⟩
      intro x hx
      by_cases hxk : x = k
      · subst hxk
        exact ⟨p, by rw [hw]; exact List.getElem?_set_self (by omega), hnf, hder⟩
      · obtain ⟨q, hq, hq1, hq2⟩ := hprev x (by omega)
        exact ⟨q, by rw [hw, List.getElem?_set_ne (by omega)]; exact hq, hq1, hq2⟩)
  refine ⟨s', hs', hl, ?_⟩
  intro i ⟨y, hy⟩
  by_cases hyl : y < C.WORLDDIM_X
  · obtain ⟨p, hp, hnf, hder⟩ := hall y hyl
    rw [femalesAt_of_some _ _ _ hp, newFemalesAt_of_some _ _ _ hp, hnf] at hy
    rcases hy with h | h
    · exact hder i h
    · simp at h
  · have hnone : s'.world[y]? = none := List.getElem?_eq_none (by omega)
    simp [femalesAt, newFemalesAt, hnone] at hy

theorem offspringLoop_derived {σ : Type} (M : CMath) (P : Params) (R : RandomSource σ)
    (parent : TIndiv) (n : Nat) (acc : List TIndiv) (g : σ) :
    ∀ o ∈ (offspringLoop M P R parent n acc g).1, o ∈ acc ∨ Derived M P o := by
  induction n generalizing acc g with
  | zero => intro o ho; exact Or.inl ho
  | succ m ih =>
    intro o ho
    simp only [offspringLoop] at ho
    rcases ih _ _ o ho with h | h
    · rcases List.mem_append.mp h with h | h
      · exact Or.inl h
      · rw [List.mem_singleton] at h
        subst h
        exact Or.inr ⟨rfl, rfl⟩
    · exact Or.inr h

theorem reproduceFemales_derived {σ : Type} (M : CMath) (P : Params) (R : RandomSource σ)
    (x : Nat) (alpha_sum : ℚ) (l : List TIndiv) (f : Nat) (acc : List TIndiv) (g : σ) :
    ∀ o ∈ (reproduceFemales M P R x alpha_sum l f acc g).1, o ∈ acc ∨ Derived M P o := by
  induction l generalizing f acc g with
  | nil => intro o ho; exact Or.inl ho
  | cons a rest ih =>
    intro o ho
    simp only [reproduceFemales] at ho
    rcases ih _ _ _ o ho with h | h
    · exact offspringLoop_derived M P R a _ _ _ o h
    · exact Or.inr h

/-- One pass of the patch loop of `Reproduction`: the residents stay and every staged
individual afterwards has derived traits. -/
theorem reproducePatch_derived {σ : Type} (M : CMath) (P : Params) (R : RandomSource σ)
    (x : Nat) (s : Globals σ) (p : TPatch) (hp : s.world[x]? = some p) :
    ∃ s' p', reproducePatch M P R x s = some s' ∧ s'.world = s.world.set x p'
      ∧ (p'.females = p.females ∧ ∀ o ∈ p'.newFemales, Derived M P o) := by
  by_cases h0 : p.females.length > 0
  · refine ⟨_, ⟨p.females, (reproduceFemales M P R x
        (p.females.foldl (fun acc ind => acc + ind.alpha) 0) p.females 0 [] s.rng).1⟩,
      by simp only [reproducePatch, hp, h0, if_true]; rfl, rfl, rfl, ?_⟩
    intro o ho
    rcases reproduceFemales_derived M P R x _ _ _ _ _ o ho with h | h
    · simp at h
    · exact h
  · refine ⟨_, ⟨p.females, []⟩, by simp only [reproducePatch, hp, h0, if_false]; rfl, rfl, rfl,
      ?_⟩
    intro o ho
    simp at ho

/-- The function `Reproduction` on an active range within the world: it has a result that
holds only individuals from before and individuals with derived traits. -/
theorem Reproduction_individuals {σ : Type} (M : CMath) (P : Params) (R : RandomSource σ)
    (act : Int) (s : Globals σ) (hact : act ≤ (s.world.length : Int)) :
    ∃ s', Reproduction M P R act s = some s' ∧ s'.world.length = s.world.length
      ∧ ∀ i, individualPresent s'.world i → individualPresent s.world i ∨ Derived M P i := by
  obtain ⟨s', hs', hl, hrest, hin⟩ := patchLoop_rule (reproducePatch M P R)
    (fun _ p p' => p'.females = p.females ∧ ∀ o ∈ p'.newFemales, Derived M P o)
    (fun x t p hp => reproducePatch_derived M P R x t p hp) act.toNat s (by omega)
  refine ⟨s', hs', hl, fun i hi => ?_⟩
  exact individualPresent_of_patchLoop s.world s'.world act.toNat (Derived M P) _
    (by
      intro x p p' ⟨hf, hn⟩ j hj
      rcases hj with h | h
      · exact Or.inl (Or.inl (by rw [← hf]; exact h))
      · exact Or.inr (hn j h)) hl hrest hin i hi

/-- C16: the derived-trait invariant, for every stream of uniform draws in `[0,1)` and
fixed parameters. `Initialize` on a world of `WORLDDIM_X` patches has a result in which
every individual has derived traits; each of `Mortality_gradient`, `Dispersal`,
`Reproduction` and `Death`, at an active width within the world, takes a world in which
every individual has derived traits to one such; so in every globals the program can
reach, every resident and every staged individual of every patch has
`lambda = lambda_disersal_tradeOff dispRate` and `alpha = alpha_lambda_correlation lambda`. -/
theorem derived_traits_invariant {σ : Type} (C : Consts) (M : CMath) (P : Params)
    (R : RandomSource σ) (hR : R.Uniform) :
    (∀ s : Globals σ, s.world.length = C.WORLDDIM_X →
        ∃ s', Initialize C M P R s = some s'
          ∧ ∀ i, individualPresent s'.world i → Derived M P i)
      ∧ (∀ (act : Int) (s : Globals σ), act ≤ (s.world.length : Int) →
          (∀ i, individualPresent s.world i → Derived M P i) →
          (∃ s', Mortality_gradient C R act s = some s'
              ∧ ∀ i, individualPresent s'.world i → Derived M P i)
            ∧ (∃ s', Dispersal C P R act s = some s'
              ∧ ∀ i, individualPresent s'.world i → Derived M P i)
            ∧ (∃ s', Reproduction M P R act s = some s'
              ∧ ∀ i, individualPresent s'.world i → Derived M P i)
            ∧ (∃ s', Death P R act s = some s'
              ∧ ∀ i, individualPresent s'.world i → Derived M P i))
      ∧ (∀ s : Globals σ, Reachable C M P R s →
          ∀ (y : Nat) (ind : TIndiv), (ind ∈ femalesAt s.world y ∨ ind ∈ newFemalesAt s.world y) →
            ind.lambda = lambda_disersal_tradeOff M P ind.dispRate
              ∧ ind.alpha = alpha_lambda_correlation M P ind.lambda) := by
  have hinit : ∀ s : Globals σ, s.world.length = C.WORLDDIM_X →
      ∃ s', Initialize C M P R s = some s'
        ∧ ∀ i, individualPresent s'.world i → Derived M P i := by
    intro s hlen
    obtain ⟨s', hs', _, h⟩ := Initialize_derived C M P R s hlen
    exact ⟨s', hs', h⟩
  have hphase : ∀ (act : Int) (s : Globals σ), act ≤ (s.world.length : Int) →
      (∀ i, individualPresent s.world i → Derived M P i) →
      (∃ s', Mortality_gradient C R act s = some s'
          ∧ ∀ i, individualPresent s'.world i → Derived M P i)
        ∧ (∃ s', Dispersal C P R act s = some s'
          ∧ ∀ i, individualPresent s'.world i → Derived M P i)
        ∧ (∃ s', Reproduction M P R act s = some s'
          ∧ ∀ i, individualPresent s'.world i → Derived M P i)
        ∧ (∃ s', Death P R act s = some s'
          ∧ ∀ i, individualPresent s'.world i → Derived M P i) := by
    intro act s hact hder
    refine ⟨?_, ?_, ?_, ?_⟩
    · obtain ⟨s', hs', _, h⟩ := Mortality_gradient_individuals C R act s hact
      exact ⟨s', hs', fun i hi => hder i (h i hi)⟩
    · obtain ⟨s', hs', _, h⟩ := Dispersal_individuals C P R hR act s hact
      exact ⟨s', hs', fun i hi => hder i (h i hi)⟩
    · obtain ⟨s', hs', _, h⟩ := Reproduction_individuals M P R act s hact
      exact ⟨s', hs', fun i hi => (h i hi).elim (hder i) id⟩
    · obtain ⟨s', hs', _, h⟩ := Death_individuals P R act s hact
      exact ⟨s', hs', fun i hi => hder i (h i hi)⟩
  refine ⟨hinit, hphase, ?_⟩
  intro s hreach
  have hall : ∀ i, individualPresent s.world i → Derived M P i := by
    induction hreach with
    | init s0 s1 hlen hI =>
      obtain ⟨s', hs', h⟩ := hinit s0 hlen
      rw [hI] at hs'
      rw [Option.some.inj hs']; exact h
    | mortality act s0 s1 _ hact hM ih =>
      obtain ⟨s', hs', h⟩ := (hphase act s0 hact ih).1
      rw [hM] at hs'
      rw [Option.some.inj hs']; exact h
    | dispersal act s0 s1 _ hact hM ih =>
      obtain ⟨s', hs', h⟩ := (hphase act s0 hact ih).2.1
      rw [hM] at hs'
      rw [Option.some.inj hs']; exact h
    | reproduction act s0 s1 _ hact hM ih =>
      obtain ⟨s', hs', h⟩ := (hphase act s0 hact ih).2.2.1
      rw [hM] at hs'
      rw [Option.some.inj hs']; exact h
    | death act s0 s1 _ hact hM ih =>
      obtain ⟨s', hs', h⟩ := (hphase act s0 hact ih).2.2.2
      rw [hM] at hs'
      rw [Option.some.inj hs']; exact h
  intro y ind hy
  exact hall ind ⟨y, hy⟩

/-- Witness of C16: `Initialize` on a world of four patches, then `Dispersal` at width 2. -/
theorem derived_traits_invariant_witness :
    ∃ s' s'', Initialize ⟨4, 2, 1⟩ testMath testParams cycleSource
          (globalsOf (List.replicate 4 ⟨[], []⟩) 0) = some s'
      ∧ Dispersal ⟨4, 2, 1⟩ testParams cycleSource 2 s' = some s''
      ∧ ∀ (y : Nat) (ind : TIndiv),
          (ind ∈ femalesAt s''.world y ∨ ind ∈ newFemalesAt s''.world y) →
          ind.lambda = lambda_disersal_tradeOff testMath testParams ind.dispRate
            ∧ ind.alpha = alpha_lambda_correlation testMath testParams ind.lambda := by
  obtain ⟨s', h1, hl, _⟩ := Initialize_derived ⟨4, 2, 1⟩ testMath testParams cycleSource
    (globalsOf (List.replicate 4 ⟨[], []⟩) 0) (by decide)
  have hlen : s'.world.length = 4 := by rw [hl]; decide
  obtain ⟨s'', h2, _⟩ := Dispersal_individuals ⟨4, 2, 1⟩ testParams cycleSource
    cycleSource_uniform 2 s' (by rw [hlen]; decide)
  exact ⟨s', s'', h1, h2,
    (derived_traits_invariant ⟨4, 2, 1⟩ testMath testParams cycleSource
      cycleSource_uniform).2.2 s''
      (Reachable.dispersal 2 s' s''
        (Reachable.init _ s' (by decide) h1) (by rw [hlen]; decide) h2)⟩

/-! ### The resident loop of `Dispersal` -/

theorem uintInc_uintDec (f : Nat) (hf : f < 4294967296) : uintInc (uintDec f) = f := by
  unfold uintInc uintDec
  omega

theorem uintInc_of_lt (f : Nat) (hf : f + 1 < 4294967296) : uintInc f = f + 1 := by
  unfold uintInc
  omega

/-- The resident loop with the 32-bit counter of the source and the resident loop with a
natural number for the position agree on an active patch with fewer than `2 ^ 32`
residents. -/
theorem dispersalFemales32_eq {σ : Type} (C : Consts) (P : Params) (R : RandomSource σ)
    (hR : R.Uniform) (mp : Int) (x : Nat) (act : Int) (hx : (x : Int) < act) :
    ∀ (fuel f : Nat) (st : DispState σ), act ≤ (st.world.length : Int) →
      (femalesAt st.world x).length < 4294967296 →
      dispersalFemales32 C P R mp x act fuel f st = dispersalFemales C P R mp x act fuel f st := by
  intro fuel
  induction fuel with
  | zero =>
    intro f st _ _
    rw [dispersalFemales32, dispersalFemales]
  | succ n ih =>
    intro f st hact hsz
    have hxl : x < st.world.length := by omega
    have hp : st.world[x]? = some st.world[x] := List.getElem?_eq_getElem hxl
    have hfa : femalesAt st.world x = st.world[x].females := femalesAt_of_some _ _ _ hp
    rw [dispersalFemales32, dispersalFemales]
    simp only [hp]
    by_cases hf : f < st.world[x].females.length
    · simp only [hf, if_true]
      obtain ⟨ind, st1, f1, _, hstep, hcase⟩ :=
        dispersalIndividual_spec C P R hR mp x act f st hx hact (by rw [hfa]; exact hf)
      simp only [hstep]
      rcases hcase with ⟨_, hf1, hst1⟩ | ⟨hf1, hE⟩
      · have hne : ¬ (f1 = f) := by omega
        rw [if_neg hne, uintInc_of_lt f (by rw [hfa] at hsz; omega), ← hf1]
        exact ih f1 st1 (by rw [hst1]; exact hact) (by rw [hst1]; exact hsz)
      · rw [if_pos hf1, uintInc_uintDec f (by rw [hfa] at hsz; omega), ← hf1]
        have hfem : femalesAt st1.world x = swapRemove (femalesAt st.world x) f := by
          have h := hE.2.2.2.2.2.2.1 x
          rw [if_pos rfl] at h; exact h
        have hlen := swapRemove_length (femalesAt st.world x) f (by rw [hfa]; exact hf)
        exact ih f1 st1 (by rw [hE.1]; exact hact) (by rw [hfem]; omega)
    · simp only [hf, if_false]

/-- Removal by swapping with the last element at the position right after `kept`: the
residents before the position stay in place, and the residents from the position on are,
up to order, the residents that followed the removed one. -/
theorem swapRemove_append (kept rest : List TIndiv) (a : TIndiv) :
    ∃ pending, swapRemove (kept ++ a :: rest) kept.length = kept ++ pending
      ∧ List.Perm pending rest := by
  rcases List.eq_nil_or_concat rest with h | ⟨front, b, h⟩
  · subst h
    refine ⟨[], ?_, List.Perm.refl _⟩
    have hlast : (kept ++ [a]).getLast? = some a := List.getLast?_concat kept
    simp only [swapRemove, hlast]
    rw [List.set_append_right kept.length a (Nat.le_refl _)]
    simp
  · rw [List.concat_eq_append] at h
    subst h
    refine ⟨b :: front, ?_, (List.perm_append_singleton b front).symm⟩
    have e : kept ++ a :: (front ++ [b]) = (kept ++ a :: front) ++ [b] := by simp
    have hlast : (kept ++ a :: (front ++ [b])).getLast? = some b := by
      rw [e]; exact List.getLast?_concat _
    simp only [swapRemove, hlast]
    rw [e, List.set_append_left _ _ (by simp), List.dropLast_concat,
      List.set_append_right kept.length b (Nat.le_refl _)]
    simp

theorem sumBelow_congr (g g' : Nat → Nat) (n : Nat) (h : ∀ y, y < n → g' y = g y) :
    sumBelow g' n = sumBelow g n := by
  induction n with
  | zero => rfl
  | succ m ih =>
    simp only [sumBelow]
    rw [ih (fun y hy => h y (by omega)), h m (by omega)]

/-- A change of one summand: the sum moves by as much. -/
theorem sumBelow_update (g g' : Nat → Nat) (x a b : Nat) (n : Nat) (hx : x < n)
    (hne : ∀ y, y ≠ x → g' y = g y) (hxv : g' x + a = g x + b) :
    sumBelow g' n + a = sumBelow g n + b := by
  induction n with
  | zero => omega
  | succ m ih =>
    simp only [sumBelow]
    by_cases hxm : x = m
    · subst hxm
      rw [sumBelow_congr g g' x (fun y hy => hne y (by omega))]
      omega
    · have h1 := ih (by omega)
      rw [hne m (fun e => hxm e.symm)]
      omega

/-- The world count across a pass in which the resident `ind` emigrates: it drops by one
for `ind` when `ind` does not survive the transit, and it stays otherwise. -/
theorem worldCount_emigration {σ : Type} (C : Consts) (P : Params) (R : RandomSource σ)
    (mp : Int) (x : Nat) (act : Int) (ind : TIndiv) (f : Nat) (a b : DispState σ)
    (hx : (x : Int) < act) (hact : act ≤ (a.world.length : Int))
    (hind : (femalesAt a.world x)[f]? = some ind)
    (hE : EmigrationStep C P R mp x act ind f a b) (i : TIndiv) :
    worldCount b.world i
        + List.count i (lostInTransit
            [⟨x, ind, true, decide ((R.ran (R.ran a.rng).2).1 > P.mu0)⟩])
      = worldCount a.world i := by
  obtain ⟨hlen, _, _, _, _, _, hfem, hnew⟩ := hE
  obtain ⟨hf, hget⟩ := List.getElem?_eq_some_iff.mp hind
  have hcount : List.count i (swapRemove (femalesAt a.world x) f)
      + (if ind = i then 1 else 0) = List.count i (femalesAt a.world x) := by
    have h := (swapRemove_perm (femalesAt a.world x) f hf).count_eq i
    rw [hget, List.count_cons] at h
    simp only [beq_iff_eq] at h
    exact h
  unfold worldCount
  rw [hlen]
  rcases hnew with ⟨hv, hsame⟩ | ⟨hv, k, hk, hpush⟩
  · have hlost : lostInTransit
        [⟨x, ind, true, decide ((R.ran (R.ran a.rng).2).1 > P.mu0)⟩] = [ind] := by
      simp [lostInTransit, hv]
    rw [hlost, List.count_singleton]
    simp only [beq_iff_eq]
    have h := sumBelow_update
      (fun y => List.count i (femalesAt a.world y) + List.count i (newFemalesAt a.world y))
      (fun y => List.count i (femalesAt b.world y) + List.count i (newFemalesAt b.world y))
      x (if ind = i then 1 else 0) 0 a.world.length (by omega)
      (by intro y hy; simp only [hfem y, if_neg hy, hsame y])
      (by simp only [hfem x, if_pos, hsame x]; omega)
    omega
  · have hlost : lostInTransit
        [⟨x, ind, true, decide ((R.ran (R.ran a.rng).2).1 > P.mu0)⟩] = [] := by
      simp [lostInTransit, hv]
    rw [hlost, List.count_nil, Nat.add_zero]
    -- first the removal from `x`, then the arrival in `k`
    have h1 := sumBelow_update
      (fun y => List.count i (femalesAt a.world y) + List.count i (newFemalesAt a.world y))
      (fun y => List.count i (femalesAt b.world y) + List.count i (newFemalesAt a.world y))
      x (if ind = i then 1 else 0) 0 a.world.length (by omega)
      (by intro y hy; simp only [hfem y, if_neg hy])
      (by simp only [hfem x, if_pos]; omega)
    have h2 := sumBelow_update
      (fun y => List.count i (femalesAt b.world y) + List.count i (newFemalesAt a.world y))
      (fun y => List.count i (femalesAt b.world y) + List.count i (newFemalesAt b.world y))
      k 0 (if ind = i then 1 else 0) a.world.length (by omega)
      (by intro y hy; simp only [hpush y, if_neg hy])
      (by
        simp only [hpush k, if_pos, List.count_append, List.count_singleton, beq_iff_eq]
        omega)
    omega

theorem lostInTransit_cons (d : Decision) (log : List Decision) :
    lostInTransit (d :: log) = lostInTransit [d] ++ lostInTransit log := by
  unfold lostInTransit
  by_cases h : (d.emigrates && !d.survives) = true
  · simp [List.filter_cons, h]
  · simp [List.filter_cons, h]

theorem lostInTransit_append (l1 l2 : List Decision) :
    lostInTransit (l1 ++ l2) = lostInTransit l1 ++ lostInTransit l2 := by
  simp [lostInTransit, List.filter_append]

theorem examinedIn_append (x : Nat) (l1 l2 : List Decision) :
    examinedIn x (l1 ++ l2) = examinedIn x l1 ++ examinedIn x l2 := by
  simp [examinedIn, List.filter_append]

theorem stayersIn_append (x : Nat) (l1 l2 : List Decision) :
    stayersIn x (l1 ++ l2) = stayersIn x l1 ++ stayersIn x l2 := by
  simp [stayersIn, List.filter_append]

theorem examinedIn_of_patch_ne (y : Nat) (log : List Decision)
    (h : ∀ d ∈ log, d.patch ≠ y) : examinedIn y log = [] ∧ stayersIn y log = [] := by
  constructor
  · unfold examinedIn
    rw [List.filter_eq_nil_iff.mpr (fun d hd => by simpa using h d hd)]
    rfl
  · unfold stayersIn
    rw [List.filter_eq_nil_iff.mpr (fun d hd => by
      simp only [Bool.and_eq_true, decide_eq_true_eq, not_and]
      intro hp; exact absurd hp (h d hd))]
    rfl

/-- The resident loop of `Dispersal` on an active patch `x` within the world, for draws in
`[0,1)`, from a position `f` with the residents `kept` before it and the residents
`pending` from it on, with a budget of at least one pass per pending resident: the loop has
a result; its decisions are all for patch `x` and examine the pending residents, each
once, in some order; the residents of `x` afterwards are `kept` followed by the residents
that stay, in the order of the decisions; the residents of the other patches are as before;
and the world loses exactly the emigrants that do not survive the transit. -/
theorem dispersalFemales_log {σ : Type} (C : Consts) (P : Params) (R : RandomSource σ)
    (hR : R.Uniform) (mp : Int) (x : Nat) (act : Int) (hx : (x : Int) < act) :
    ∀ (fuel f : Nat) (st : DispState σ) (kept pending : List TIndiv),
      act ≤ (st.world.length : Int) → femalesAt st.world x = kept ++ pending →
      kept.length = f → pending.length ≤ fuel →
      ∃ st', dispersalFemales C P R mp x act fuel f st = some st'
        ∧ st'.world.length = st.world.length
        ∧ (∀ d ∈ dispersalFemalesLog C P R mp x act fuel f st, d.patch = x)
        ∧ List.Perm (examinedIn x (dispersalFemalesLog C P R mp x act fuel f st)) pending
        ∧ femalesAt st'.world x
            = kept ++ stayersIn x (dispersalFemalesLog C P R mp x act fuel f st)
        ∧ (∀ y, y ≠ x → femalesAt st'.world y = femalesAt st.world y)
        ∧ (∀ i, worldCount st'.world i
              + List.count i (lostInTransit (dispersalFemalesLog C P R mp x act fuel f st))
            = worldCount st.world i) := by
  intro fuel
  induction fuel with
  | zero =>
    intro f st kept pending hact hsplit hk hfuel
    have hpend : pending = [] := List.length_eq_zero.mp (by omega)
    subst hpend
    have hxl : x < st.world.length := by omega
    have hp : st.world[x]? = some st.world[x] := List.getElem?_eq_getElem hxl
    have hfa : femalesAt st.world x = st.world[x].females := femalesAt_of_some _ _ _ hp
    have hnot : ¬ f < st.world[x].females.length := by
      rw [← hfa, hsplit]; simp; omega
    have hlog : dispersalFemalesLog C P R mp x act 0 f st = [] := by
      rw [dispersalFemalesLog]; simp only [hp, hnot, if_false]
    refine ⟨st, ?_, rfl, ?_, ?_, ?_, fun _ _ => rfl, ?_⟩
    · rw [dispersalFemales]; simp only [hp, hnot, if_false]
    · rw [hlog]; intro d hd; simp at hd
    · rw [hlog]; exact List.Perm.refl _
    · rw [hlog, hsplit]; simp [stayersIn]
    · intro i; rw [hlog]; simp [lostInTransit]
  | succ n ih =>
    intro f st kept pending hact hsplit hk hfuel
    have hxl : x < st.world.length := by omega
    have hp : st.world[x]? = some st.world[x] := List.getElem?_eq_getElem hxl
    have hfa : femalesAt st.world x = st.world[x].females := femalesAt_of_some _ _ _ hp
    cases pending with
    | nil =>
      have hnot : ¬ f < st.world[x].females.length := by
        rw [← hfa, hsplit]; simp; omega
      have hlog : dispersalFemalesLog C P R mp x act (n + 1) f st = [] := by
        rw [dispersalFemalesLog]; simp only [hp, hnot, if_false]
      refine ⟨st, ?_, rfl, ?_, ?_, ?_, fun _ _ => rfl, ?_⟩
      · rw [dispersalFemales]; simp only [hp, hnot, if_false]
      · rw [hlog]; intro d hd; simp at hd
      · rw [hlog]; exact List.Perm.refl _
      · rw [hlog, hsplit]; simp [stayersIn]
      · intro i; rw [hlog]; simp [lostInTransit]
    | cons a rest =>
      have hf : f < st.world[x].females.length := by
        rw [← hfa, hsplit]; simp; omega
      have hget : (femalesAt st.world x)[f]? = some a := by
        rw [hsplit, ← hk, List.getElem?_append_right (Nat.le_refl _)]; simp
      obtain ⟨ind, st1, f1, hind, hstep, hcase⟩ :=
        dispersalIndividual_spec C P R hR mp x act f st hx hact (by rw [hfa]; exact hf)
      have hia : ind = a := by
        rw [hget] at hind; exact (Option.some.inj hind).symm
      subst hia
      have hgetp : st.world[x].females[f]? = some ind := by rw [← hfa]; exact hget
      rcases hcase with ⟨hno, hf1, hst1⟩ | ⟨hf1, hE⟩
      · -- the resident stays
        have hdec : dispersalDecision P R x f st = some ⟨x, ind, false, false⟩ := by
          simp only [dispersalDecision, hp, hgetp, hno, if_false]
        obtain ⟨st', h1, h2, h3, h4, h5, h6, h7⟩ := ih f1 st1 (kept ++ [ind]) rest
          (by rw [hst1]; exact hact) (by rw [hst1, hsplit]; simp)
          (by rw [hf1]; simp; omega) (by simp at hfuel; omega)
        have hlog : dispersalFemalesLog C P R mp x act (n + 1) f st
            = ⟨x, ind, false, false⟩ :: dispersalFemalesLog C P R mp x act n f1 st1 := by
          rw [dispersalFemalesLog]; simp only [hp, hf, if_true, hdec, hstep]
        refine ⟨st', ?_, by rw [h2, hst1], ?_, ?_, ?_, ?_, ?_⟩
        · rw [dispersalFemales]; simp only [hp, hf, if_true, hstep, h1]
        · rw [hlog]; intro d hd
          rcases List.mem_cons.mp hd with h | h
          · rw [h]
          · exact h3 d h
        · rw [hlog]
          have e : examinedIn x (⟨x, ind, false, false⟩
              :: dispersalFemalesLog C P R mp x act n f1 st1)
              = ind :: examinedIn x (dispersalFemalesLog C P R mp x act n f1 st1) := by
            simp [examinedIn, List.filter_cons]
          rw [e]; exact List.Perm.cons ind h4
        · rw [hlog, h5]
          have e : stayersIn x (⟨x, ind, false, false⟩
              :: dispersalFemalesLog C P R mp x act n f1 st1)
              = ind :: stayersIn x (dispersalFemalesLog C P R mp x act n f1 st1) := by
            simp [stayersIn, List.filter_cons]
          rw [e]; simp
        · intro y hy; rw [h6 y hy, hst1]
        · intro i
          rw [hlog, lostInTransit_cons, List.count_append]
          have e : lostInTransit [(⟨x, ind, false, false⟩ : Decision)] = [] := by
            simp [lostInTransit]
          rw [e, List.count_nil, Nat.zero_add, h7 i, hst1]
      · -- the resident emigrates
        have hu : (R.ran st.rng).1 < ind.dispRate := hE.2.1
        have hdec : dispersalDecision P R x f st
            = some ⟨x, ind, true, decide ((R.ran (R.ran st.rng).2).1 > P.mu0)⟩ := by
          simp only [dispersalDecision, hp, hgetp, hu, if_true]
        have hfem : femalesAt st1.world x = swapRemove (femalesAt st.world x) f := by
          have h := hE.2.2.2.2.2.2.1 x
          rw [if_pos rfl] at h; exact h
        obtain ⟨pending1, hsw, hperm⟩ := swapRemove_append kept rest ind
        obtain ⟨st', h1, h2, h3, h4, h5, h6, h7⟩ := ih f1 st1 kept pending1
          (by rw [hE.1]; exact hact) (by rw [hfem, hsplit, ← hk]; exact hsw)
          (by rw [hf1]; exact hk)
          (by rw [hperm.length_eq]; simp at hfuel; omega)
        have hlog : dispersalFemalesLog C P R mp x act (n + 1) f st
            = ⟨x, ind, true, decide ((R.ran (R.ran st.rng).2).1 > P.mu0)⟩
              :: dispersalFemalesLog C P R mp x act n f1 st1 := by
          rw [dispersalFemalesLog]; simp only [hp, hf, if_true, hdec, hstep]
        refine ⟨st', ?_, by rw [h2, hE.1], ?_, ?_, ?_, ?_, ?_⟩
        · rw [dispersalFemales]; simp only [hp, hf, if_true, hstep, h1]
        · rw [hlog]; intro d hd
          rcases List.mem_cons.mp hd with h | h
          · rw [h]
          · exact h3 d h
        · rw [hlog]
          have e : examinedIn x (⟨x, ind, true, decide ((R.ran (R.ran st.rng).2).1 > P.mu0)⟩
              :: dispersalFemalesLog C P R mp x act n f1 st1)
              = ind :: examinedIn x (dispersalFemalesLog C P R mp x act n f1 st1) := by
            simp [examinedIn, List.filter_cons]
          rw [e]; exact List.Perm.cons ind (h4.trans hperm)
        · rw [hlog, h5]
          have e : stayersIn x (⟨x, ind, true, decide ((R.ran (R.ran st.rng).2).1 > P.mu0)⟩
              :: dispersalFemalesLog C P R mp x act n f1 st1)
              = stayersIn x (dispersalFemalesLog C P R mp x act n f1 st1) := by
            simp [stayersIn, List.filter_cons]
          rw [e]
        · intro y hy
          rw [h6 y hy]
          have h := hE.2.2.2.2.2.2.1 y
          rw [if_neg hy] at h; exact h
        · intro i
          rw [hlog, lostInTransit_cons, List.count_append]
          have hw := worldCount_emigration C P R mp x act ind f st st1 hx hact hget hE i
          have h7i := h7 i
          omega

/-- The emigration loop of `Dispersal` over an active range within the world, for draws in
`[0,1)`, with its decisions: the loop has a result; the decisions are for active patches
only; for each active patch they examine the residents the patch had before the loop, each
once, and the residents of the patch after the loop are those that stay; and the world
loses exactly the emigrants that do not survive the transit. -/
theorem dispersalSweep_log {σ : Type} (C : Consts) (P : Params) (R : RandomSource σ)
    (hR : R.Uniform) (act : Int) (s : Globals σ) (hact : act ≤ (s.world.length : Int)) :
    ∃ st, dispersalSweep C P R act s = some st ∧ st.world.length = s.world.length
      ∧ (∀ d ∈ dispersalSweepLog C P R act s act.toNat, d.patch < act.toNat)
      ∧ (∀ x, x < act.toNat →
          List.Perm (examinedIn x (dispersalSweepLog C P R act s act.toNat))
            (femalesAt s.world x)
          ∧ femalesAt st.world x = stayersIn x (dispersalSweepLog C P R act s act.toNat))
      ∧ (∀ i, worldCount st.world i
            + List.count i (lostInTransit (dispersalSweepLog C P R act s act.toNat))
          = worldCount s.world i) := by
  have key := forRange_rule
    (fun k (t : DispState σ) =>
      forRange k (dispersalPatch C P R s.margin_position act) ⟨s.world, s.rng, 0, 0, 0, 0⟩
          = some t
      ∧ t.world.length = s.world.length
      ∧ (∀ y, k ≤ y → femalesAt t.world y = femalesAt s.world y)
      ∧ (∀ d ∈ dispersalSweepLog C P R act s k, d.patch < k)
      ∧ (∀ x, x < k →
          List.Perm (examinedIn x (dispersalSweepLog C P R act s k)) (femalesAt s.world x)
          ∧ femalesAt t.world x = stayersIn x (dispersalSweepLog C P R act s k))
      ∧ (∀ i, worldCount t.world i
            + List.count i (lostInTransit (dispersalSweepLog C P R act s k))
          = worldCount s.world i))
    (dispersalPatch C P R s.margin_position act) act.toNat ⟨s.world, s.rng, 0, 0, 0, 0⟩
    ⟨rfl, rfl, fun _ _ => rfl, fun d hd => by simp [dispersalSweepLog] at hd,
      fun x hx => absurd hx (Nat.not_lt_zero x),
      fun i => by simp [dispersalSweepLog, lostInTransit]⟩
    (by
      intro k t hk ⟨hrun, htl, hrest, hpatch, hdone, hcount⟩
      have hka : (k : Int) < act := by omega
      have hkl : k < t.world.length := by omega
      have hp : t.world[k]? = some t.world[k] := List.getElem?_eq_getElem hkl
      have hfa : femalesAt t.world k = t.world[k].females := femalesAt_of_some _ _ _ hp
      obtain ⟨t', h1, h2, h3, h4, h5, h6, h7⟩ := dispersalFemales_log C P R hR
        s.margin_position k act hka t.world[k].females.length 0
        { t with
          metapopsize_core :=
            if k < C.CM_AREA then t.metapopsize_core + t.world[k].females.length
            else t.metapopsize_core,
          metapopsize_margin :=
            if (k : Int) ≥ s.margin_position - (C.CM_AREA : Int) then
              t.metapopsize_margin + t.world[k].females.length
            else t.metapopsize_margin }
        [] t.world[k].females (by simp only; omega) (by simp only [hfa, List.nil_append])
        rfl (Nat.le_refl _)
      have hbody : dispersalPatch C P R s.margin_position act k t = some t' := by
        simp only [dispersalPatch, hp]; exact h1
      have hlog : dispersalSweepLog C P R act s (k + 1)
          = dispersalSweepLog C P R act s k
            ++ dispersalFemalesLog C P R s.margin_position k act t.world[k].females.length 0
              { t with
                metapopsize_core :=
                  if k < C.CM_AREA then t.metapopsize_core + t.world[k].females.length
                  else t.metapopsize_core,
                metapopsize_margin :=
                  if (k : Int) ≥ s.margin_position - (C.CM_AREA : Int) then
                    t.metapopsize_margin + t.world[k].females.length
                  else t.metapopsize_margin } := by
        simp only [dispersalSweepLog, hrun, dispersalPatchLog, hp]
      have hnew_ne : ∀ y, y ≠ k → ∀ d ∈ dispersalFemalesLog C P R s.margin_position k act
          t.world[k].females.length 0
          { t with
            metapopsize_core :=
              if k < C.CM_AREA then t.metapopsize_core + t.world[k].females.length
              else t.metapopsize_core,
            metapopsize_margin :=
              if (k : Int) ≥ s.margin_position - (C.CM_AREA : Int) then
                t.metapopsize_margin + t.world[k].females.length
              else t.metapopsize_margin }, d.patch ≠ y := by
        intro y hy d hd; rw [h3 d hd]; exact fun e => hy e.symm
      have hold_ne : ∀ d ∈ dispersalSweepLog C P R act s k, d.patch ≠ k := by
        intro d hd; have := hpatch d hd; omega
      refine ⟨t', hbody, ?_, by rw [h2]; exact htl, ?_, ?_, ?_, ?_⟩
      · simp only [forRange, hrun, Option.bind, hbody]
      · intro y hy
        rw [h6 y (by omega)]
        exact hrest y (by omega)
      · rw [hlog]
        intro d hd
        rcases List.mem_append.mp hd with h | h
        · have := hpatch d h; omega
        · rw [h3 d h]; omega
      · intro x hx
        rw [hlog, examinedIn_append, stayersIn_append]
        by_cases hxk : x = k
        · subst hxk
          obtain ⟨e1, e2⟩ := examinedIn_of_patch_ne x _ hold_ne
          rw [e1, e2, List.nil_append, List.nil_append]
          refine ⟨?_, by rw [h5]; rfl⟩
          have hsame : femalesAt s.world x = t.world[x].females := by
            rw [← hrest x (Nat.le_refl x)]; exact hfa
          rw [hsame]; exact h4
        · obtain ⟨e1, e2⟩ := examinedIn_of_patch_ne x _ (hnew_ne x hxk)
          rw [e1, e2, List.append_nil, List.append_nil]
          obtain ⟨d1, d2⟩ := hdone x (by omega)
          exact ⟨d1, by rw [h6 x hxk]; exact d2⟩
      · intro i
        rw [hlog, lostInTransit_append, List.count_append]
        have a1 := h7 i
        have a2 := hcount i
        simp only at a1
        omega)
  obtain ⟨st, hst, _, hl, _, h3, h4, h5⟩ := key
  exact ⟨st, hst, hl, h3, h4, h5⟩

/-- The merge loop of `Dispersal` keeps the world count of every individual. -/
theorem worldCount_merge (w w' : List TPatch) (n : Nat) (hl : w'.length = w.length)
    (hin : ∀ y, y < n → femalesAt w' y = femalesAt w y ++ newFemalesAt w y
      ∧ newFemalesAt w' y = [])
    (hout : ∀ y, n ≤ y → femalesAt w' y = femalesAt w y
      ∧ newFemalesAt w' y = newFemalesAt w y) (i : TIndiv) :
    worldCount w' i = worldCount w i := by
  unfold worldCount
  rw [hl]
  apply sumBelow_congr
  intro y _
  by_cases hy : y < n
  · rw [(hin y hy).1, (hin y hy).2, List.count_append, List.count_nil, Nat.add_zero]
  · rw [(hout y (by omega)).1, (hout y (by omega)).2]

/-- C18: the swap-with-last removal loop of `Dispersal`. For every world, every active width
within the world and every stream of uniform draws in `[0,1)`, with `log` the decisions of
the emigration loop in order: the decisions are for active patches only; for each active
patch the residents examined are the residents the patch had before `Dispersal`, each
exactly once (in some order), so no resident is skipped or examined twice and no staged
immigrant is examined; the residents left after the loop are those that stay, and the
staged immigrants join them in the merge; the world count of every individual (residents
and staged) after `Dispersal` is the count before minus the emigrants equal to it that did
not survive the transit, every individual afterwards is an individual from before, and
with empty staging buffers before the staging buffers are empty afterwards; the loop with
the 32-bit unsigned counter of the source (`--f` then `++f`, also at position 0) agrees with
the loop of the embedding on a patch with fewer than `2 ^ 32` residents. -/
theorem Dispersal_one_decision_each {σ : Type} (C : Consts) (P : Params) (R : RandomSource σ)
    (act : Int) (s : Globals σ) (hact : act ≤ (s.world.length : Int)) (hR : R.Uniform) :
    ∃ st s', dispersalSweep C P R act s = some st ∧ Dispersal C P R act s = some s'
      ∧ (∀ d ∈ dispersalSweepLog C P R act s act.toNat, (d.patch : Int) < act)
      ∧ (∀ x : Nat, (x : Int) < act →
          List.Perm (examinedIn x (dispersalSweepLog C P R act s act.toNat))
            (femalesAt s.world x)
          ∧ femalesAt st.world x = stayersIn x (dispersalSweepLog C P R act s act.toNat)
          ∧ femalesAt s'.world x
              = stayersIn x (dispersalSweepLog C P R act s act.toNat)
                ++ newFemalesAt st.world x)
      ∧ (∀ i : TIndiv, worldCount s'.world i
            + List.count i (lostInTransit (dispersalSweepLog C P R act s act.toNat))
          = worldCount s.world i)
      ∧ (∀ i : TIndiv, individualPresent s'.world i → individualPresent s.world i)
      ∧ ((∀ y : Nat, newFemalesAt s.world y = []) → ∀ y : Nat, newFemalesAt s'.world y = [])
      ∧ (∀ (x : Nat) (t : DispState σ), (x : Int) < act → act ≤ (t.world.length : Int) →
          (femalesAt t.world x).length < 4294967296 →
          dispersalFemales32 C P R s.margin_position x act (femalesAt t.world x).length 0 t
            = dispersalFemales C P R s.margin_position x act (femalesAt t.world x).length 0 t)
      ∧ uintInc (uintDec 0) = 0 := by
  obtain ⟨st, hst, hstl, hpatch, hex, hcount⟩ := dispersalSweep_log C P R hR act s hact
  obtain ⟨st2, s', hst2, hD, _, _, hl', hin, hout, _⟩ := Dispersal_rule C P R hR act s hact
    (fun _ _ => True) (fun _ => trivial) (fun _ _ _ _ _ => trivial)
    (fun _ _ _ => trivial) (fun _ _ _ _ _ _ _ => trivial)
    (fun _ _ _ _ _ _ _ _ => trivial)
  have hsame : st2 = st := by
    rw [hst] at hst2; exact (Option.some.inj hst2).symm
  subst hsame
  obtain ⟨_, hD2, _, hdrain, hframe⟩ := Dispersal_frame C P R hR act s hact
  obtain ⟨_, hD3, _, hindiv⟩ := Dispersal_individuals C P R hR act s hact
  refine ⟨st2, s', hst, hD, ?_, ?_, ?_, ?_, ?_, ?_, uintInc_uintDec 0 (by norm_num)⟩
  · intro d hd
    have := hpatch d hd
    omega
  · intro x hx
    obtain ⟨e1, e2⟩ := hex x (by omega)
    exact ⟨e1, e2, by rw [(hin x hx).1, e2]⟩
  · intro i
    rw [worldCount_merge st2.world s'.world act.toNat (by rw [hl', hstl])
      (fun y hy => hin y (by omega)) (fun y hy => hout y (by omega)) i]
    exact hcount i
  · intro i hi
    rw [hD] at hD3
    rw [← Option.some.inj hD3] at hindiv
    exact hindiv i hi
  · intro hempty y
    by_cases hy : (y : Int) < act
    · exact (hin y hy).2
    · have h := hframe y (by omega)
      rw [hD] at hD2
      have hs : s' = _ := Option.some.inj hD2
      rw [← hs] at h
      simp only [newFemalesAt, h]
      exact hempty y
  · intro x t hx ht hsz
    exact dispersalFemales32_eq C P R hR s.margin_position x act hx _ 0 t ht hsz

/-- Witness of C18: a world of two patches, both active, with three residents. -/
theorem Dispersal_one_decision_each_witness :
    ∃ st s', dispersalSweep ⟨2, 1, 1⟩ testParams cycleSource 2
          (globalsOf [⟨[testIndiv, ⟨0, 2, 1 / 5⟩], []⟩, ⟨[testIndiv], []⟩] 0) = some st
      ∧ Dispersal ⟨2, 1, 1⟩ testParams cycleSource 2
          (globalsOf [⟨[testIndiv, ⟨0, 2, 1 / 5⟩], []⟩, ⟨[testIndiv], []⟩] 0) = some s'
      ∧ (∀ x : Nat, (x : Int) < 2 →
          List.Perm (examinedIn x (dispersalSweepLog ⟨2, 1, 1⟩ testParams cycleSource 2
              (globalsOf [⟨[testIndiv, ⟨0, 2, 1 / 5⟩], []⟩, ⟨[testIndiv], []⟩] 0)
              (2 : Int).toNat))
            (femalesAt
              (globalsOf [⟨[testIndiv, ⟨0, 2, 1 / 5⟩], []⟩, ⟨[testIndiv], []⟩] 0).world x))
      ∧ (∀ i : TIndiv, worldCount s'.world i
            + List.count i (lostInTransit (dispersalSweepLog ⟨2, 1, 1⟩ testParams cycleSource 2
                (globalsOf [⟨[testIndiv, ⟨0, 2, 1 / 5⟩], []⟩, ⟨[testIndiv], []⟩] 0)
                (2 : Int).toNat))
          = worldCount
              (globalsOf [⟨[testIndiv, ⟨0, 2, 1 / 5⟩], []⟩, ⟨[testIndiv], []⟩] 0).world i) := by
  obtain ⟨st, s', h1, h2, _, h4, h5, _⟩ := Dispersal_one_decision_each ⟨2, 1, 1⟩ testParams
    cycleSource 2 (globalsOf [⟨[testIndiv, ⟨0, 2, 1 / 5⟩], []⟩, ⟨[testIndiv], []⟩] 0)
    (by decide) cycleSource_uniform
  exact ⟨st, s', h1, h2, fun x hx => (h4 x hx).1, h5⟩

end GradientInvasion
